import Mathlib

/-!
Crosswords: grid model, placement algorithms, organizer and assembler.

A shallow embedding of `typ/grid.h` and `alg/assembler.h`.

Conventions of the embedding

* `index` is `int16_t` in the source.  Values are carried as `Int`; every place
  where the source narrows an `int` expression back to `index` goes through
  `to_index` (two's complement wrap-around).  Loop counters that stay below a
  bound of type `index` are not wrapped.
* `word` is `std::string`, carried as `String`; one `Char` stands for one `char`.
  `operator[]` at the position equal to the size yields the NUL character (that
  is what the language guarantees); positions further out are outside the
  string, and the embedding reads NUL there as well (`char_at`).
* iterators into a vector are carried as positions (`Nat`) in the list.
* the stop flag of an organizer is only written by the organizer itself and by
  `stop()`; inside one call it is therefore a constant of the call, and the
  tests of the flag after the first one of `operator()` are not repeated.
* `uint64_t` counters are carried as `Nat`: the counter of `start` only grows up
  to a cap that is itself a `uint64_t`.
-/

namespace crosswords

/-! ## typ/grid.h -/

/-- Index in a grid (`int16_t`); the definitions below write `Int` for it. -/
abbrev index := Int

/-- Narrowing conversion of an `int` value to the 16 bit signed `index`. -/
def to_index (z : Int) : Int := (z + 32768) % 65536 - 32768

/-- Word to be positioned in a grid. -/
abbrev word := String

/-- Helper function to get the size of a word: `static_cast<index>(p_word.size())`. -/
def get_size (p_word : word) : Int := to_index p_word.length

/-- The character `p_word[i]`; NUL from the end of the word on. -/
def char_at (p_word : word) (i : Nat) : Char := p_word.data.getD i (Char.ofNat 0)

/-- Largest value of `char`, used as the mark of an empty cell. -/
def max_char : Char := Char.ofNat 127

/-- Explanation of a word. -/
abbrev explanation := String

/-- A word and its explanation. -/
structure entry where
  m_word : word
  m_explanation : explanation
  deriving DecidableEq, Repr

/-- A set of `entry`. -/
abbrev entries := List entry

/-- The result of `entries::get_num_entries`: the size narrowed to `uint8_t`. -/
def get_num_entries (p_entries : entries) : Nat := p_entries.length % 256

/-- A combination of entries (the iterators are carried as the entries they point to). -/
abbrev permutation := List entry

def max_row : Int := 32767
def max_col : Int := 32767

/-- Possible orientations of a word in a grid. -/
inductive orientation where
  | vert
  | hori
  | undef
  deriving DecidableEq, Repr

/-- An `entry` with an `orientation` and coordinates defined. -/
structure layout where
  m_entry : entry
  m_row : Int
  m_col : Int
  m_orientation : orientation
  deriving DecidableEq, Repr

namespace layout

/-- The constructor `layout(entries::const_entry_ite)`: unplaced. -/
def of_entry (p_entry : entry) : layout := ⟨p_entry, max_row, max_col, orientation.undef⟩

def get_word (l : layout) : word := l.m_entry.m_word
def get_row (l : layout) : Int := l.m_row
def get_col (l : layout) : Int := l.m_col
def get_orientation (l : layout) : orientation := l.m_orientation
def is_positioned (l : layout) : Bool := l.m_orientation != orientation.undef

def reset (l : layout) : layout :=
  { l with m_row := max_row, m_col := max_col, m_orientation := orientation.undef }

end layout

/-- Modelled from the spec: the generic two-dimensional matrix container
(`lib::container::typ::matrix`, a collaborator outside this repository), as the
spec describes the occupancy map: a dense map from (row, col) to a value, with
its dimensions and the value that stands for "empty".  Accesses are not bounds
checked (no caller in this repository checks them either): the map is total. -/
structure matrix where
  m_num_rows : Int
  m_num_cols : Int
  m_initial : Char
  m_cells : Int → Int → Char

namespace matrix

/-- The default constructed matrix: no rows, no columns. -/
def empty : matrix := ⟨0, 0, Char.ofNat 0, fun _ _ => Char.ofNat 0⟩

/-- The matrix `matrix(p_num_rows, p_num_cols, p_initial)`. -/
def create (p_num_rows p_num_cols : Int) (p_initial : Char) : matrix :=
  ⟨p_num_rows, p_num_cols, p_initial, fun _ _ => p_initial⟩

def get_num_rows (m : matrix) : Int := m.m_num_rows
def get_num_cols (m : matrix) : Int := m.m_num_cols

/-- Reading `m(p_row, p_col)`. -/
def get (m : matrix) (p_row p_col : Int) : Char := m.m_cells p_row p_col

/-- The assignment `m(p_row, p_col) = p_value`. -/
def put (m : matrix) (p_row p_col : Int) (p_value : Char) : matrix :=
  { m with m_cells := fun r c => if r = p_row ∧ c = p_col then p_value else m.m_cells r c }

/-- Every cell back to the initial value. -/
def reset (m : matrix) : matrix := { m with m_cells := fun _ _ => m.m_initial }

end matrix

/-- Defines which coordinates are occupied. -/
abbrev occupied := matrix

/-- Contains all the `layout`.  The two strings used only for printing the grid
(`m_header`, `m_horizontal_line`) are left out. -/
structure grid where
  m_longest : Int
  m_num_rows : Int
  m_num_cols : Int
  m_permutation_number : Nat
  m_occupied : occupied
  m_layouts : List layout

namespace grid

/-- The private `grid::longest_word(const permutation &)`. -/
def longest_word_of (p_permutation : permutation) : Int :=
  p_permutation.foldl
    (fun _size _entry => if get_size _entry.m_word > _size then get_size _entry.m_word else _size) 0

/-- The members of a `grid` when its constructor returns. -/
def constructed (p_permutation : permutation) (p_num_rows p_num_cols : Int)
    (p_permutation_number : Nat) : grid :=
  ⟨longest_word_of p_permutation, p_num_rows, p_num_cols, p_permutation_number,
    matrix.create p_num_rows p_num_cols max_char, p_permutation.map layout.of_entry⟩

/-- The constructor of `grid`; `none` stands for the `std::runtime_error` it throws. -/
def construct (p_permutation : permutation) (p_num_rows p_num_cols : Int)
    (p_permutation_number : Nat) : Option grid :=
  let m_longest := longest_word_of p_permutation
  if m_longest > p_num_rows ∧ m_longest > p_num_cols then none
  else some (constructed p_permutation p_num_rows p_num_cols p_permutation_number)

def get_permutation_number (g : grid) : Nat := g.m_permutation_number
def get_num_rows (g : grid) : Int := g.m_num_rows
def get_num_cols (g : grid) : Int := g.m_num_cols
def empty (g : grid) : Bool := g.m_layouts.isEmpty
def longest_word (g : grid) : Int := g.m_longest

/-- The loop of `grid::occupy`: the characters of the word, one cell after the
other from `(p_row, p_col)`, downwards when `p_vert` and rightwards otherwise;
`_count` is the running counter of the source. -/
def occupy_chars (p_vert : Bool) (p_row p_col : Int) :
    List Char → Int → occupied → occupied
  | [], _, m => m
  | _c :: rest, _count, m =>
    occupy_chars p_vert p_row p_col rest (to_index (_count + 1))
      (if p_vert then m.put (to_index (p_row + _count)) p_col _c
       else m.put p_row (to_index (p_col + _count)) _c)

/-- The private `grid::occupy`. -/
def occupy (g : grid) (p_layout : layout) : grid :=
  let m := occupy_chars (p_layout.get_orientation == orientation.vert)
    p_layout.get_row p_layout.get_col p_layout.get_word.data 0 g.m_occupied
  { g with m_occupied := m }

/-- The layout `set` writes: row, column and orientation replaced. -/
def set_layout (l : layout) (p_row p_col : Int) (p_orientation : orientation) : layout :=
  { l with m_row := p_row, m_col := p_col, m_orientation := p_orientation }

/-- `grid::set`: the iterator `p_ite` is the position `p_ite` in the layouts.
(An iterator outside the layouts, which the source may not dereference, leaves
the grid alone.) -/
def set (g : grid) (p_ite : Nat) (p_row p_col : Int) (p_orientation : orientation) : grid :=
  match g.m_layouts.get? p_ite with
  | none => g
  | some l =>
    let l1 := set_layout l p_row p_col p_orientation
    occupy { g with m_layouts := g.m_layouts.set p_ite l1 } l1

/-- `grid::organized`. -/
def organized (g : grid) : Bool :=
  g.m_layouts.all (fun _layout => _layout.get_orientation != orientation.undef)

/-- `grid::reset_positions`. -/
def reset_positions (g : grid) : grid :=
  { g with m_layouts := g.m_layouts.map layout.reset, m_occupied := g.m_occupied.reset }

/-- `grid::is_occupied`. -/
def is_occupied (g : grid) (p_row p_col : Int) : Option Char :=
  let _c := g.m_occupied.get p_row p_col
  if _c = max_char then none else some _c

end grid

/-- Row and Column. -/
abbrev coordinate := Int × Int

/-- Set of rows and columns. -/
abbrev coordinates := List coordinate

/-! ## alg/assembler.h, namespace internal -/

/-- The values `0, 1, ..` a loop counter of type `index` takes below the bound `n`. -/
def indices (n : Int) : List Int := (List.range n.toNat).map Int.ofNat

/-- The function `find_intersections`: the outer loop runs `_i2` below the size of
`p_to_position`, the inner loop runs `_i1` below the size of `p_positioned`, and
the test is `p_positioned[_i2] == p_to_position[_i1]`, exactly as in the source. -/
def find_intersections (p_stop : Bool) (p_positioned p_to_position : word) : coordinates :=
  let _w1_size := get_size p_positioned
  let _w2_size := get_size p_to_position
  if p_stop then []
  else
    (indices _w2_size).flatMap (fun _i2 =>
      (indices _w1_size).filterMap (fun _i1 =>
        if char_at p_positioned _i2.toNat = char_at p_to_position _i1.toNat
        then some (_i1, _i2) else none))

/-- The loop of `position_horizontally` / `position_vertically` over the letters
of the word: false as soon as a cell holds another letter. -/
def letters_fit (g : grid) (p_vert : Bool) (p_row p_col : Int) : List Char → Int → Bool
  | [], _ => true
  | _c :: rest, _count =>
    let _maybe :=
      if p_vert then g.is_occupied (to_index (p_row + _count)) p_col
      else g.is_occupied p_row (to_index (p_col + _count))
    match _maybe with
    | some v => if v ≠ _c then false else letters_fit g p_vert p_row p_col rest (to_index (_count + 1))
    | none => letters_fit g p_vert p_row p_col rest (to_index (_count + 1))

/-- The function `position_horizontally`; the two iterators are positions in the
layouts of the grid. -/
def position_horizontally (g : grid) (p_intersect : coordinate)
    (p_positioned p_to_position : Nat) : Bool × grid :=
  match g.m_layouts.get? p_positioned, g.m_layouts.get? p_to_position with
  | some positioned, some to_position =>
    let _to_position_idx := p_intersect.1
    let _positioned_idx := p_intersect.2
    let _row_to_position := to_index (positioned.get_row + _positioned_idx)
    let _col_to_position := to_index (positioned.get_col - _to_position_idx)
    if _col_to_position < 0 then (false, g)
    else
      let _word_size := get_size to_position.get_word
      let _col_end := to_index (_col_to_position + _word_size)
      if _col_end > g.get_num_cols then (false, g)
      else if letters_fit g false _row_to_position _col_to_position to_position.get_word.data 0
      then (true, g.set p_to_position _row_to_position _col_to_position orientation.hori)
      else (false, g)
  | _, _ => (false, g)

/-- The function `position_vertically`. -/
def position_vertically (g : grid) (p_intersect : coordinate)
    (p_positioned p_to_position : Nat) : Bool × grid :=
  match g.m_layouts.get? p_positioned, g.m_layouts.get? p_to_position with
  | some positioned, some to_position =>
    let _to_position_idx := p_intersect.1
    let _positioned_idx := p_intersect.2
    let _col_to_position := to_index (positioned.get_col + _positioned_idx)
    let _row_to_position := to_index (positioned.get_row - _to_position_idx)
    if _row_to_position < 0 then (false, g)
    else
      let _word_size := get_size to_position.get_word
      let _row_end := to_index (_row_to_position + _word_size)
      if _row_end > g.get_num_rows then (false, g)
      else if letters_fit g true _row_to_position _col_to_position to_position.get_word.data 0
      then (true, g.set p_to_position _row_to_position _col_to_position orientation.vert)
      else (false, g)
  | _, _ => (false, g)

/-- The loop `for (auto _coord : _intersects)` of `position`: the first pair the
positioner accepts ends the loop. -/
def position_first (f : grid → coordinate → Bool × grid) : coordinates → grid → Bool × grid
  | [], g => (false, g)
  | _coord :: rest, g =>
    match f g _coord with
    | (true, g1) => (true, g1)
    | (false, g1) => position_first f rest g1

/-- The function `position(p_stop, p_grid, p_positioned, p_to_position)` with four
parameters. -/
def position (p_stop : Bool) (g : grid) (p_positioned p_to_position : Nat) : Bool × grid :=
  match g.m_layouts.get? p_positioned, g.m_layouts.get? p_to_position with
  | some positioned, some to_position =>
    let _intersects := find_intersections p_stop positioned.get_word to_position.get_word
    if positioned.get_orientation = orientation.hori then
      position_first (fun g1 c => position_vertically g1 c p_positioned p_to_position) _intersects g
    else
      position_first (fun g1 c => position_horizontally g1 c p_positioned p_to_position) _intersects g
  | _, _ => (false, g)

/-- The function `two_first_words_intersect`.  (The first case, an empty grid, is
excluded by the only caller.) -/
def two_first_words_intersect (p_stop : Bool) (g : grid) : Bool :=
  match g.m_layouts with
  | [] => false
  | [_] => false
  | _layout :: _to_position :: _ =>
    if (find_intersections p_stop _layout.get_word _to_position.get_word).isEmpty then false
    else true

/-- The state of a `first_word_positioner`. -/
structure first_word_positioner where
  m_all_horizontal_tried : Bool
  m_vertical : Bool
  m_occupied : occupied

namespace first_word_positioner

/-- A newly constructed `first_word_positioner`. -/
def fresh : first_word_positioner := ⟨false, false, matrix.empty⟩

/-- The word of `p_grid.begin()` (the callers pass a grid that is not empty). -/
def first_word (g : grid) : word := (g.m_layouts.head?.map layout.get_word).getD ""

/-- The inner `for` loop of `horizontal` / `vertical` for one row: the columns
`0, 1, ..` below `_num_cols` up to the first one at which the loop breaks, and
among them the first whose cell of the scratch map is still free. -/
def scan_row (m : occupied) (brk : Int → Bool) (_num_cols _row : Int) : Option Int :=
  ((indices _num_cols).takeWhile (fun _col => !(brk _col))).find?
    (fun _col => m.get _row _col == max_char)

/-- The two nested `for` loops of `horizontal` / `vertical`: the first row with a
cell to take, and the cell. `brk _row _col` is the test before `break`. -/
def scan (m : occupied) (brk : Int → Int → Bool) (_num_rows _num_cols : Int) :
    Option (Int × Int) :=
  (indices _num_rows).findSome? (fun _row =>
    (scan_row m (brk _row) _num_cols _row).map (fun _col => (_row, _col)))

/-- The private `horizontal`.  Note `_num_cols`, which the source takes from
`m_occupied.get_num_rows()`. -/
def horizontal (s : first_word_positioner) (p_stop : Bool) (g : grid) :
    Bool × first_word_positioner × grid :=
  let _num_rows := s.m_occupied.get_num_rows
  let _num_cols := s.m_occupied.get_num_rows
  let _word_size := get_size (first_word g)
  let found :=
    if p_stop then none
    else scan s.m_occupied (fun _ _col => decide ((_col + _word_size) > _num_cols)) _num_rows _num_cols
  match found with
  | some (_row, _col) =>
    (true, { s with m_occupied := s.m_occupied.put _row _col '#' },
      g.set 0 _row _col orientation.hori)
  | none => (false, { s with m_all_horizontal_tried := true }, g)

/-- The private `vertical`, with the same `_num_cols`. -/
def vertical (s : first_word_positioner) (p_stop : Bool) (g : grid) :
    Bool × first_word_positioner × grid :=
  let _num_rows := s.m_occupied.get_num_rows
  let _num_cols := s.m_occupied.get_num_rows
  let _word_size := get_size (first_word g)
  let found :=
    if p_stop then none
    else scan s.m_occupied (fun _row _ => decide ((_row + _word_size) > _num_rows)) _num_rows _num_cols
  match found with
  | some (_row, _col) =>
    (true, { s with m_occupied := s.m_occupied.put _row _col '#' },
      g.set 0 _row _col orientation.vert)
  | none => (false, s, g)

/-- The first statement of `operator()`: the scratch map is created when it has no rows. -/
def prepare (s : first_word_positioner) (g : grid) : first_word_positioner :=
  if s.m_occupied.get_num_rows = 0 then
    { s with m_occupied := matrix.create g.get_num_rows g.get_num_cols max_char }
  else s

/-- The statement `if (!m_vertical) { m_occupied.reset(); m_vertical = true; }` of
`operator()`. -/
def enter_vertical (s : first_word_positioner) : first_word_positioner :=
  if !s.m_vertical then { s with m_occupied := s.m_occupied.reset, m_vertical := true } else s

/-- The call `operator()(p_stop, p_grid)`. -/
def call (s : first_word_positioner) (p_stop : Bool) (g : grid) :
    Bool × first_word_positioner × grid :=
  let s1 := prepare s g
  if p_stop then (false, s1, g)
  else
    let h := if !s1.m_all_horizontal_tried then horizontal s1 p_stop g else (false, s1, g)
    if h.1 then h
    else
      let s3 := enter_vertical h.2.1
      if p_stop then (false, s3, h.2.2) else vertical s3 p_stop h.2.2

end first_word_positioner

/-- The state of an `organizer`. -/
structure organizer where
  m_stop : Bool
  deriving DecidableEq, Repr

namespace organizer

/-- The loop `while (!m_stop && _layout->is_positioned() && _layout != _end)` of
`operator()`, from the position `_layout` on; the first argument bounds the
number of rounds (the loop leaves the layouts after at most their number).
The stop flag is unset here. -/
def try_layouts (_to_position : Nat) : Nat → Nat → grid → grid
  | 0, _, g => g
  | k + 1, _layout, g =>
    match g.m_layouts.get? _layout with
    | none => g
    | some l =>
      if l.is_positioned then
        match position false g _layout _to_position with
        | (true, g1) => g1
        | (false, g1) => try_layouts _to_position k (_layout + 1) g1
      else g

/-- The loop `while (!m_stop && (_to_position != _end))` of `operator()`. -/
def place_words : Nat → Nat → grid → grid
  | 0, _, g => g
  | k + 1, _to_position, g =>
    if _to_position < g.m_layouts.length then
      let g1 := try_layouts _to_position (g.m_layouts.length + 1) 0 g
      match g1.m_layouts.get? _to_position with
      | none => g1
      | some t =>
        if !t.is_positioned then g1
        else place_words k (_to_position + 1) g1
    else g

/-- The loop `while (!m_stop && (_first_word_positioner(m_stop, *p_grid)))` of
`operator()`, for at most the given number of anchors; `none` when that number
does not suffice. -/
def anchors : Nat → first_word_positioner → grid → Option (Bool × grid)
  | 0, _, _ => none
  | k + 1, s, g =>
    match s.call false g with
    | (false, _, g1) => some (false, g1)
    | (true, s1, g1) =>
      let g2 := place_words g1.m_layouts.length 1 g1
      if g2.organized then some (true, g2)
      else anchors k s1 g2.reset_positions

/-- A number of anchors no `first_word_positioner` on the grid exceeds (see
`anchors_enough`). -/
def anchor_bound (g : grid) : Nat := 2 * (g.m_num_rows.toNat * g.m_num_rows.toNat) + 2

/-- The call `operator()(p_grid)`: the result, the organizer and the grid afterwards.
(The last case of the `match` is never taken: `anchors_enough`.) -/
def call (o : organizer) (p_grid : grid) : Bool × organizer × grid :=
  if o.m_stop then (false, o, p_grid)
  else if p_grid.empty then (false, o, p_grid)
  else if !two_first_words_intersect o.m_stop p_grid then (false, o, p_grid)
  else
    match anchors (anchor_bound p_grid) first_word_positioner.fresh p_grid.reset_positions with
    | some (true, g) => (true, { o with m_stop := true }, g)
    | some (false, g) => (false, o, g)
    | none => (false, o, p_grid)

/-- The function `stop`. -/
def stop (_o : organizer) : organizer := ⟨true⟩

end organizer

/-- The function `compare_entries`: by size, then by the order of `std::string`
(the lexicographic order of the characters). -/
def compare_entries (p_e1 p_e2 : entry) : Bool :=
  if p_e1.m_word.length = p_e2.m_word.length then decide (p_e1.m_word.data < p_e2.m_word.data)
  else decide (p_e1.m_word.length < p_e2.m_word.length)

/-- One entry put in its place in a sorted sequence. -/
def insert_sorted (e : entry) : entries → entries
  | [] => [e]
  | b :: l => if compare_entries e b then e :: b :: l else b :: insert_sorted e l

/-- The function `sort_entries`: `std::sort` with `compare_entries`, carried out
as an insertion sort (`std::sort` leaves the order of entries with equal words
open; the words of the result do not depend on it). -/
def sort_entries (p_entries : entries) : entries := p_entries.foldr insert_sorted []

/-- The algorithm `std::next_permutation` of the standard library with the
comparison `comp`: the last position `i` with `comp l[i] l[i+1]`, the last `j`
with `comp l[i] l[j]`, the two swapped and the part after `i` reversed; the
whole sequence reversed when there is no such `i`. -/
def next_permutation (comp : entry → entry → Bool) (l : permutation) : permutation :=
  let ascent := fun i =>
    match l.get? i, l.get? (i + 1) with
    | some a, some b => comp a b
    | _, _ => false
  match (List.range (l.length - 1)).reverse.find? ascent with
  | none => l.reverse
  | some i =>
    match l.get? i with
    | none => l
    | some a =>
      let above := fun j =>
        match l.get? j with
        | some b => comp a b
        | none => false
      match (List.range l.length).reverse.find? above with
      | none => l
      | some j =>
        match l.get? j with
        | none => l
        | some b =>
          let l1 := (l.set i b).set j a
          l1.take (i + 1) ++ (l1.drop (i + 1)).reverse

/-- Modelled from the spec: the combinatorics helper `lib::math::alg::factorial`
(outside this repository), "computes factorial counts"; the result type is
`uint64_t`, so the value is taken modulo `2^64`. -/
def factorial (n : Nat) : Nat := n.factorial % 2 ^ 64

/-! ## alg/assembler.h, struct assembler -/

/-- The members of `assembler` that the event handlers read and write. -/
structure shared where
  m_stop : Bool
  m_organizers : List organizer
  m_solved : Option grid
  m_num_organizations_finished : Nat

/-- The handler of `evt::assembly_finished` (subscribed in `configure_dispatcher`). -/
def handle_assembly_finished (p_event_grid : Option grid) (sh : shared) : shared :=
  let sh1 := { sh with m_num_organizations_finished := sh.m_num_organizations_finished + 1 }
  match p_event_grid with
  | some g => if sh1.m_solved.isNone then { sh1 with m_solved := some g } else sh1
  | none => sh1

/-- The handlers of `evt::stop_organizing`, one for each organizer. -/
def handle_stop_organizing (sh : shared) : shared :=
  { sh with m_organizers := sh.m_organizers.map organizer.stop }

/-- The handler of `evt::new_grid_to_organize` of the worker `_i`; the events it
publishes are handled before it goes on. -/
def handle_new_grid_to_organize (_i : Nat) (p_event_grid : Option grid) (sh : shared) : shared :=
  match p_event_grid with
  | none => sh
  | some g =>
    match sh.m_organizers.get? _i with
    | none => sh
    | some _organizer =>
      let r := _organizer.call g
      let sh1 := { sh with m_organizers := sh.m_organizers.set _i r.2.1 }
      if r.1 then handle_stop_organizing (handle_assembly_finished (some r.2.2) sh1)
      else handle_assembly_finished none sh1

/-- Modelled from the spec: the event bus (`lib::async::alg::dispatcher`, outside
this repository; section 6 of the spec) as far as `start` publishes on it.  A
publication is given by what the handlers that run before `start` takes its next
step do to the shared members of the assembler. -/
structure dispatcher where
  publish_new_attempt : Nat → shared → shared
  publish_new_grid_to_organize : grid → shared → shared

namespace dispatcher

/-- Modelled from the spec: a bus that delivers every event at once, to the
handlers `configure_dispatcher` subscribes.  A job goes to one of the
`p_num_threads` workers, chosen by `slot` from the number of the permutation
(no worker: the job is not delivered); `on_new_attempt` tells at which attempts
a subscriber of `evt::new_attempt` calls `assembler::stop`. -/
def synchronous (p_num_threads : Nat) (slot : Nat → Nat) (on_new_attempt : Nat → Bool) :
    dispatcher where
  publish_new_attempt n sh := if on_new_attempt n then { sh with m_stop := true } else sh
  publish_new_grid_to_organize g sh :=
    if p_num_threads = 0 then sh
    else handle_new_grid_to_organize (slot g.m_permutation_number % p_num_threads) (some g) sh

end dispatcher

/-- The events `start` publishes. -/
inductive event where
  | new_attempt (number : Nat)
  | new_grid_to_organize (g : grid)

/-- How a call of `start` ends: with the solved grid, with the empty pointer, with
the exception of the constructor of `grid`, or in the wait for the organizations
still to finish. -/
inductive outcome where
  | solved (g : grid)
  | no_solution
  | dimension_error
  | waiting

/-- The state of an `assembler` (mutexes and condition variables left out). -/
structure assembler where
  m_num_threads : Nat
  m_entries : entries
  m_permutation_counter : Nat
  m_shared : shared

namespace assembler

/-- A newly constructed `assembler`. -/
def fresh : assembler := ⟨20, [], 0, ⟨false, [], none, 0⟩⟩

/-- The function `stop`. -/
def stop (a : assembler) : assembler := { a with m_shared := { a.m_shared with m_stop := true } }

/-- The function `get_num_attempts`. -/
def get_num_attempts (a : assembler) : Nat := a.m_permutation_counter

/-- The loop `while (true)` of `start`.  The result tells whether the constructor
of `grid` threw, and gives the assembler and the events published, oldest first.
The first argument bounds the number of rounds; `start` passes
`_max_permutations`, which the counter reaches after as many rounds. -/
def generate (d : dispatcher) (p_num_rows p_num_cols : Int) (_max_permutations : Nat) :
    Nat → permutation → assembler → List event → Bool × assembler × List event
  | 0, _, a, log => (false, a, log)
  | k + 1, _permutation, a, log =>
    if a.m_shared.m_stop then (false, a, log)
    else if a.m_permutation_counter = _max_permutations then (false, a, log)
    else if a.m_shared.m_solved.isSome then (false, a, log)
    else
      let _aux := _permutation.reverse
      let n := a.m_permutation_counter + 1
      let a1 := { a with m_permutation_counter := n,
                         m_shared := d.publish_new_attempt n a.m_shared }
      let log1 := log ++ [event.new_attempt n]
      match grid.construct _aux p_num_rows p_num_cols n with
      | none => (true, a1, log1)
      | some _grid =>
        let a2 := { a1 with m_shared := d.publish_new_grid_to_organize _grid a1.m_shared }
        generate d p_num_rows p_num_cols _max_permutations k
          (next_permutation compare_entries _permutation) a2
          (log1 ++ [event.new_grid_to_organize _grid])

/-- The statements of `start` after the loop. -/
def finish (a : assembler) : outcome :=
  if a.m_shared.m_stop then outcome.no_solution
  else if a.m_shared.m_solved.isNone ∧
      a.m_shared.m_num_organizations_finished ≠ a.m_permutation_counter then outcome.waiting
  else
    match a.m_shared.m_solved with
    | some g => outcome.solved g
    | none => outcome.no_solution

/-- The cap `_max_permutations` of `start`. -/
def max_permutations (p_entries : entries) (p_max_tries : Nat) : Nat :=
  let f := factorial (get_num_entries (sort_entries p_entries))
  if p_max_tries ≤ f then p_max_tries else f

/-- The assembler when `start` enters its loop: the threads and entries stored,
the organizers created by `configure_dispatcher`, the counter at 0. -/
def configured (a : assembler) (p_entries : entries) (p_num_threads : Nat) : assembler :=
  { m_num_threads := p_num_threads, m_entries := p_entries,
    m_permutation_counter := 0,
    m_shared := { a.m_shared with m_organizers := List.replicate p_num_threads ⟨false⟩ } }

/-- The function `start`: how it ends, the assembler afterwards and the events it
published. -/
def start (d : dispatcher) (a : assembler) (p_entries : entries) (p_num_rows p_num_cols : Int)
    (p_num_threads : Nat) (p_max_tries : Nat) : outcome × assembler × List event :=
  let a0 := configured a p_entries p_num_threads
  let _entries := sort_entries p_entries
  let _max_permutations := max_permutations p_entries p_max_tries
  let r := generate d p_num_rows p_num_cols _max_permutations _max_permutations _entries a0 []
  if r.1 then (outcome.dimension_error, r.2.1, r.2.2)
  else (finish r.2.1, r.2.1, r.2.2)

end assembler

/-- The events a worker publishes. -/
inductive notice where
  | assembly_finished (g : Option grid)
  | stop_organizing

/-- The handler of `evt::new_grid_to_organize` of one worker with the organizer
`_organizer`, as a publisher: the organizer after the handler has run and the
events it has published, oldest first. -/
def worker (_organizer : organizer) (p_event_grid : Option grid) : organizer × List notice :=
  match p_event_grid with
  | none => (_organizer, [])
  | some g =>
    let r := _organizer.call g
    if r.1 then (r.2.1, [notice.assembly_finished (some r.2.2), notice.stop_organizing])
    else (r.2.1, [notice.assembly_finished none])

/-- What the handlers subscribed in `configure_dispatcher` do on one event of a worker. -/
def deliver (sh : shared) (n : notice) : shared :=
  match n with
  | notice.assembly_finished g => handle_assembly_finished g sh
  | notice.stop_organizing => handle_stop_organizing sh

/-! ## Notions the statements use -/

/-- The length of the longest word of a permutation (0 when it has no word). -/
def longest_length (p : permutation) : Int :=
  (p.map (fun e => (e.m_word.length : Int))).foldr max 0

/-- The footprint of a placed layout lies inside the rows x cols grid: its
`length` consecutive cells from (row, col), rightwards when horizontal and
downwards when vertical. -/
def footprint_inside (g : grid) (l : layout) : Bool :=
  match l.m_orientation with
  | orientation.hori =>
    decide (0 ≤ l.m_row ∧ l.m_row < g.m_num_rows ∧ 0 ≤ l.m_col ∧
      l.m_col + l.get_word.length ≤ g.m_num_cols)
  | orientation.vert =>
    decide (0 ≤ l.m_col ∧ l.m_col < g.m_num_cols ∧ 0 ≤ l.m_row ∧
      l.m_row + l.get_word.length ≤ g.m_num_rows)
  | orientation.undef => true

/-- The cells the loops of `horizontal` and `vertical` run over. -/
def scanned (m : occupied) : List (Int × Int) :=
  List.product (indices m.m_num_rows) (indices m.m_num_rows)

/-- The number of scanned cells of the scratch map not yet marked. -/
def free_cells (m : occupied) : Nat :=
  (scanned m).countP (fun p => m.get p.1 p.2 == max_char)

/-- A bound on the number of calls of a `first_word_positioner` that still return true. -/
def anchors_left (s : first_word_positioner) : Nat :=
  (if s.m_vertical then 0 else (scanned s.m_occupied).length + 1) + free_cells s.m_occupied

/-- A grid with at least one word and every placement unplaced. -/
def blank (g : grid) : Prop :=
  g.m_layouts ≠ [] ∧ ∀ l ∈ g.m_layouts, l.m_orientation = orientation.undef

/-- The row, column and orientation of every layout of a grid. -/
def placements (g : grid) : List (Int × Int × orientation) :=
  g.m_layouts.map (fun l => (l.m_row, l.m_col, l.m_orientation))

/-- What a call of a newly constructed organizer on the grid of a permutation
gives: the result, the dimensions and the placements of the grid afterwards, and
for each layout whether its footprint is inside the grid (`none`: no grid). -/
def organize (p : permutation) (R C : Int) :
    Option (Bool × Int × Int × List (Int × Int × orientation) × List Bool) :=
  (grid.construct p R C 0).map (fun g =>
    ((organizer.call ⟨false⟩ g).1, (organizer.call ⟨false⟩ g).2.2.m_num_rows,
      (organizer.call ⟨false⟩ g).2.2.m_num_cols, placements (organizer.call ⟨false⟩ g).2.2,
      (organizer.call ⟨false⟩ g).2.2.m_layouts.map (footprint_inside (organizer.call ⟨false⟩ g).2.2)))

/-- The kinds of ending of `start`. -/
inductive ending where
  | solved
  | no_solution
  | dimension_error
  | waiting
  deriving DecidableEq, Repr

/-- The kind of an ending. -/
def outcome.ending : outcome → ending
  | outcome.solved _ => ending.solved
  | outcome.no_solution => ending.no_solution
  | outcome.dimension_error => ending.dimension_error
  | outcome.waiting => ending.waiting

/-- A published event is a job (a grid to organize). -/
def event.is_job : event → Bool
  | event.new_attempt _ => false
  | event.new_grid_to_organize _ => true

/-- The number of jobs among the published events. -/
def jobs_in (log : List event) : Nat := log.countP event.is_job

/-- What is seen of a call of `start`: the kind of ending, the value of
`get_num_attempts`, the numbers of new-attempt events and of jobs published,
the stop flag and whether a solved grid is recorded. -/
def report (r : outcome × assembler × List event) : ending × Nat × Nat × Nat × Bool × Bool :=
  (r.1.ending, r.2.1.get_num_attempts, r.2.2.length - jobs_in r.2.2, jobs_in r.2.2,
    r.2.1.m_shared.m_stop, r.2.1.m_shared.m_solved.isSome)

/-- The first `k` orderings `start` submits, from the permutation `p` on: the
reverse of `p`, then of its next permutation, and so on. -/
def orderings : Nat → permutation → List permutation
  | 0, _ => []
  | k + 1, p => p.reverse :: orderings k (next_permutation compare_entries p)

/-- The grids of the orderings, numbered from `n` on. -/
def grids_of (R C : Int) : Nat → List permutation → List grid
  | _, [] => []
  | n, o :: os => grid.constructed o R C n :: grids_of R C (n + 1) os

/-- The grids of the first `min(n!, max_attempts)` orderings of the entries, in the
order of submission. -/
def submitted (p_entries : entries) (R C : Int) (p_max_tries : Nat) : List grid :=
  grids_of R C 1
    (orderings (min p_entries.length.factorial p_max_tries) (sort_entries p_entries))

/-- The ending the claim describes: the grid of the first submitted ordering on
which a newly constructed organizer succeeds, as the organizer leaves it, and no
solution when there is none. -/
def first_success (gs : List grid) : outcome :=
  match gs.find? (fun g => (organizer.call ⟨false⟩ g).1) with
  | some g => outcome.solved (organizer.call ⟨false⟩ g).2.2
  | none => outcome.no_solution

/-- The cell of letter number `k` of a word laid from (r, c): downwards when
vertical, rightwards otherwise. -/
def letter_cell (p_vert : Bool) (r c : Int) (k : Nat) : Int × Int :=
  if p_vert then (r + k, c) else (r, c + k)

/-- The cell of letter number `k` of a word laid from (r, c) is empty or holds `ch`. -/
def cell_allows (g : grid) (p_vert : Bool) (r c : Int) (k : Nat) (ch : Char) : Prop :=
  g.is_occupied (letter_cell p_vert r c k).1 (letter_cell p_vert r c k).2 = none ∨
  g.is_occupied (letter_cell p_vert r c k).1 (letter_cell p_vert r c k).2 = some ch

/-- Every cell of the word `w` laid from (r, c) is empty or already holds the
letter the word has there. -/
def cells_allow (g : grid) (p_vert : Bool) (r c : Int) (w : word) : Prop :=
  ∀ k : Nat, k < w.length → cell_allows g p_vert r c k (char_at w k)

/-- The grid `g1` is the grid `g` with the word of layout number `t` committed at
(r, c) with the orientation `o`: the dimensions are those of `g`, layout `t` holds
the position, every letter of the word is in its cell of the occupancy map, every
other cell and every other layout are as in `g`. -/
def committed (g g1 : grid) (t : Nat) (r c : Int) (o : orientation) : Prop :=
  g1.m_num_rows = g.m_num_rows ∧ g1.m_num_cols = g.m_num_cols ∧
  (∀ n : Nat, n ≠ t → g1.m_layouts.get? n = g.m_layouts.get? n) ∧
  ∃ l : layout, g.m_layouts.get? t = some l ∧
    g1.m_layouts.get? t = some ⟨l.m_entry, r, c, o⟩ ∧
    (∀ k : Nat, k < l.get_word.length →
      g1.m_occupied.get (letter_cell (o == orientation.vert) r c k).1
        (letter_cell (o == orientation.vert) r c k).2 = char_at l.get_word k) ∧
    (∀ x y : Int,
      (∀ k : Nat, k < l.get_word.length → (x, y) ≠ letter_cell (o == orientation.vert) r c k) →
      g1.m_occupied.get x y = g.m_occupied.get x y)

/-- What the spec says of `position`: the result of the first pair the positioner
accepts, and false with the grid as it was when it accepts none. -/
def first_accepted (f : coordinate → Bool × grid) (xs : coordinates) (g : grid) : Bool × grid :=
  match xs.find? (fun x => (f x).1) with
  | some x => f x
  | none => (false, g)

/-- The positioner orthogonal to a placed word: the vertical one against a
horizontal word, the horizontal one against a vertical word. -/
def orthogonal_positioner (o : orientation) (g : grid) (p t : Nat) (x : coordinate) :
    Bool × grid :=
  match o with
  | orientation.hori => position_vertically g x p t
  | orientation.vert => position_horizontally g x p t
  | orientation.undef => (false, g)

/-- The grid of a permutation with its first word placed at (r, c). -/
def first_placed (p : permutation) (R C : Int) (r c : Int) (o : orientation) : grid :=
  (grid.constructed p R C 0).set 0 r c o

/-- The cells a layout covers: one for each letter of its word. -/
def footprint (l : layout) : List (Int × Int) :=
  (List.range l.get_word.length).map
    (letter_cell (l.m_orientation == orientation.vert) l.m_row l.m_col)

/-- The words of the tests of the two positioners. -/
def open_never : permutation := [⟨"open", "expl 1"⟩, ⟨"never", "expl 2"⟩]

/-- The words of the tests of `position`. -/
def open_never_extra : permutation :=
  [⟨"open", "expl 1"⟩, ⟨"never", "expl 2"⟩, ⟨"extra", "expl 3"⟩]

/-- A sequence of `set` calls, each given by the placement, the row, the column
and the orientation, carried out on a grid from first to last. -/
def apply_sets (ops : List (Nat × Int × Int × orientation)) (g : grid) : grid :=
  ops.foldl (fun g1 op => g1.set op.1 op.2.1 op.2.2.1 op.2.2.2) g

/-- The words of the first test of the grid: door, open, window. -/
def door_open_window : permutation :=
  [⟨"door", "expl 3"⟩, ⟨"open", "expl 1"⟩, ⟨"window", "expl 2"⟩]

/-- The results of successive calls of one organizer on a sequence of grids: for
each call whether it returned true, and the grid afterwards. -/
def call_each : organizer → List grid → List (Bool × grid)
  | _, [] => []
  | o, g :: gs => ((o.call g).1, (o.call g).2.2) :: call_each (o.call g).2.1 gs

/-- The order of the spec on entries: ascending by word length and, for the same
length, ascending lexicographically. -/
def entry_le (a b : entry) : Prop :=
  a.m_word.length < b.m_word.length ∨
  (a.m_word.length = b.m_word.length ∧ a.m_word.data ≤ b.m_word.data)

/-- The entries of the test of `sort_entries`. -/
def entries_to_sort : entries :=
  [⟨"chat", "expl chat"⟩, ⟨"crepom", "expl crepom"⟩, ⟨"debute", "expl debute"⟩,
   ⟨"regis", "expl regis"⟩, ⟨"gases", "expl gases"⟩, ⟨"exumar", "expl exumar"⟩,
   ⟨"dias", "expl dias"⟩, ⟨"pai", "expl pai"⟩, ⟨"lesante", "expl lesante"⟩,
   ⟨"ma", "expl ma"⟩, ⟨"afunilar", "expl afunilar"⟩, ⟨"atoba", "expl atoba"⟩,
   ⟨"ot", "expl ot"⟩, ⟨"viravira", "expl viravira"⟩, ⟨"sideral", "expl sideral"⟩,
   ⟨"gim", "expl gim"⟩, ⟨"oval", "expl oval"⟩, ⟨"rapina", "expl rapina"⟩,
   ⟨"lados", "expl lados"⟩, ⟨"rotor", "expl rotor"⟩, ⟨"aresta", "aresta"⟩,
   ⟨"poxa", "expl poxa"⟩, ⟨"hexa", "expl hexa"⟩, ⟨"aguipa", "expl aguipa"⟩,
   ⟨"tim", "expl tim"⟩, ⟨"salutar", "expl salutar"⟩, ⟨"renovar", "expl renovar"⟩,
   ⟨"eg", "expl eg"⟩, ⟨"badalar", "expl badalar"⟩, ⟨"usina", "expl usina"⟩,
   ⟨"teatro", "expl teatro"⟩, ⟨"esse", "expl esse"⟩, ⟨"sola", "expl sola"⟩,
   ⟨"avivar", "expl avivar"⟩, ⟨"idade", "expl idade"⟩, ⟨"farelos", "expl farelos"⟩,
   ⟨"st", "expl st"⟩, ⟨"sibliar", "expl sibliar"⟩, ⟨"pop", "expl pop"⟩,
   ⟨"agito", "expl agito"⟩, ⟨"inox", "expl inox"⟩, ⟨"tamara", "expl tamara"⟩]

/-- A grid with another longest-word length and another attempt number. -/
def with_tags (g : grid) (a : Int) (n : Nat) : grid :=
  { g with m_longest := a, m_permutation_number := n }

/-- A grid that is a state of the grid of the permutation `p` with `R` rows and
`C` columns, placed in any way: the placements carry the entries of `p` in its
order, the dimensions are `R` and `C`, and the occupancy map has these
dimensions and `max_char` for an empty cell. -/
def state_of (p : permutation) (R C : Int) (g : grid) : Prop :=
  g.m_layouts.map (fun l => l.m_entry) = p ∧ g.m_num_rows = R ∧ g.m_num_cols = C ∧
  g.m_occupied.m_num_rows = R ∧ g.m_occupied.m_num_cols = C ∧
  g.m_occupied.m_initial = max_char

/-- The words of the test of the organizer: mouth, open, never. -/
def mouth_open_never : permutation :=
  [⟨"mouth", "expl 1"⟩, ⟨"open", "expl 2"⟩, ⟨"never", "expl 3"⟩]

/-- The placement of word `t` against the first earlier word, in the order of
the permutation, that accepts it (through its first accepted pair); none when
no earlier word accepts it. -/
def place_against_first (g : grid) (t : Nat) : Option grid :=
  (List.range t).findSome? (fun p =>
    if (position false g p t).1 then some (position false g p t).2 else none)

/-- One pass over the words from word `t` on, at most `k` of them: each is placed
against the first earlier word that accepts it; the pass ends at the first word
that no earlier word accepts.  No placement is revised. -/
def pass : Nat → Nat → grid → grid
  | 0, _, g => g
  | k + 1, t, g =>
    match place_against_first g t with
    | some g1 => pass k (t + 1) g1
    | none => g

/-- Call number `k` (from 0) of the successive calls of one anchor generator, each
on the grid `g` with no word placed: the result, the generator and the grid with
the first word at its anchor. -/
def nth_anchor : Nat → first_word_positioner → grid → Bool × first_word_positioner × grid
  | 0, s, g => s.call false g
  | k + 1, s, g => nth_anchor k (s.call false g).2.1 g

/-- The words before word `t` are placed and no other word is. -/
def placed_up_to (g : grid) (t : Nat) : Prop :=
  (∀ i : Nat, i < t → ∃ l, g.m_layouts.get? i = some l ∧ l.is_positioned = true) ∧
  (∀ (i : Nat) (l : layout), t ≤ i → g.m_layouts.get? i = some l → l.is_positioned = false)

/-- Three words for a grid of 2 rows and 2 columns. -/
def aa_ab_cb : permutation := [⟨"aa", ""⟩, ⟨"ab", ""⟩, ⟨"cb", ""⟩]

/-- The words of the entries are pairwise distinct. -/
def distinct_words (l : permutation) : Prop := (l.map (fun e => e.m_word)).Nodup

/-- The lexicographic order of two sequences of entries under `compare_entries`
(`std::lexicographical_compare`): the first position at which one entry is
below the other decides, and a sequence that ends first is below. -/
def lex_before : permutation → permutation → Bool
  | [], [] => false
  | [], _ :: _ => true
  | _ :: _, [] => false
  | a :: p, b :: q =>
    if compare_entries a b then true
    else if compare_entries b a then false
    else lex_before p q

/-- The number of permutations of `l` that are below `q` in the lexicographic
order: `q` is permutation number `preceding l q + 1` in ascending order. -/
def preceding (l q : permutation) : Nat := l.permutations.countP (fun p => lex_before p q)

/-- The jobs among the published events, oldest first. -/
def jobs_of (log : List event) : List grid :=
  log.filterMap (fun e =>
    match e with
    | event.new_grid_to_organize g => some g
    | event.new_attempt _ => none)

/-- The ordering of the entries that a grid carries. -/
def carried (g : grid) : permutation := g.m_layouts.map (fun l => l.m_entry)

/-- Three words without a common letter. -/
def ab_cd_ef : entries := [⟨"cd", ""⟩, ⟨"ef", ""⟩, ⟨"ab", ""⟩]

/-- The event is a job-finished notification. -/
def notice.is_finished : notice → Bool
  | notice.assembly_finished _ => true
  | notice.stop_organizing => false

/-- The event is the stop-all-workers signal. -/
def notice.is_stop : notice → Bool
  | notice.assembly_finished _ => false
  | notice.stop_organizing => true

/-- The grid a job-finished notification carries (none: the empty marker, or no
such notification). -/
def notice.carries : notice → Option grid
  | notice.assembly_finished g => g
  | notice.stop_organizing => none

/-- Job-finished notifications handled one after another, oldest first. -/
def handle_all (evs : List (Option grid)) (sh : shared) : shared :=
  evs.foldl (fun s e => handle_assembly_finished e s) sh

/-- The pairs (i, j), for j ascending from 0 and within each j for i ascending
from 0, with i and j below the lengths of both words and letter i of `to_place`
equal to letter j of `placed`. -/
def crossing_pairs (placed to_place : word) : coordinates :=
  (List.range (min placed.length to_place.length)).flatMap (fun j =>
    (List.range (min placed.length to_place.length)).filterMap (fun i =>
      if to_place.data.get? i = placed.data.get? j then some ((i : Int), (j : Int)) else none))

/-- The call `operator()(p_grid)` of the organizer with the test of
`two_first_words_intersect` taken out, and nothing else changed. -/
def organizer.call_unfiltered (o : organizer) (p_grid : grid) : Bool × organizer × grid :=
  if o.m_stop then (false, o, p_grid)
  else if p_grid.empty then (false, o, p_grid)
  else
    match organizer.anchors (organizer.anchor_bound p_grid) first_word_positioner.fresh
        p_grid.reset_positions with
    | some (true, g) => (true, { o with m_stop := true }, g)
    | some (false, g) => (false, o, g)
    | none => (false, o, p_grid)

/-- The grids with the first word at its anchors, in the order the generator
yields the anchors: what the successive calls of one generator leave of the
grid `g` (no word placed), up to the first call that returns false; at most `k`
calls. -/
def anchor_grids : Nat → first_word_positioner → grid → List grid
  | 0, _, _ => []
  | k + 1, s, g =>
    if (s.call false g).1 then (s.call false g).2.2 :: anchor_grids k (s.call false g).2.1 g
    else []

/-- The reference for the organizer: from the grid with no word placed, the
anchors of the first word in generator order; at each anchor the words 1, 2, ..
are placed one after the other, each against the first earlier word, in
permutation order, for which `position` succeeds; an anchor at which some word
cannot be placed is given up.  The result is true with the placements of the
first anchor at which all words are placed, and false, with no word placed,
when there is no such anchor. -/
def reference_organizer (g : grid) : Bool × grid :=
  match (anchor_grids (organizer.anchor_bound g) first_word_positioner.fresh
      g.reset_positions).find? (fun a => (pass a.m_layouts.length 1 a).organized) with
  | some a => (true, pass a.m_layouts.length 1 a)
  | none => (false, g.reset_positions)

/-- The cells the two nested loops of `horizontal` / `vertical` come to, in their
order: every row below `_num_rows`, and in a row the columns below `_num_cols`
up to the first at which the loop breaks. -/
def first_word_positioner.cells (brk : Int → Int → Bool) (_num_rows _num_cols : Int) :
    List (Int × Int) :=
  (indices _num_rows).flatMap (fun _row =>
    ((indices _num_cols).takeWhile (fun _col => !(brk _row _col))).map (fun _col => (_row, _col)))

/-- The first `k` cells of a list are taken in the scratch map, the others are free. -/
def marked (m : occupied) (cand : List (Int × Int)) (k : Nat) : Prop :=
  (∀ p ∈ cand.take k, m.get p.1 p.2 ≠ max_char) ∧ (∀ p ∈ cand.drop k, m.get p.1 p.2 = max_char)

/-- What a call of the anchor generator on the grid `g` has given, against the
anchor expected: true and the first word set at the anchor, or false when
there is no anchor. -/
def yields (g : grid) (a : Option (Int × Int × orientation))
    (r : Bool × first_word_positioner × grid) : Prop :=
  match a with
  | some x => r.1 = true ∧ r.2.2 = g.set 0 x.1 x.2.1 x.2.2
  | none => r.1 = false

/-- The horizontal anchors of a word of length `L` on a square grid of `n` rows
and columns: the cells (r, c) with c at most n - L, row after row. -/
def horizontal_anchors (n L : Nat) : List (Int × Int × orientation) :=
  (List.range n).flatMap (fun (r : Nat) =>
    (List.range (n - L + 1)).map (fun (c : Nat) => ((r : Int), (c : Int), orientation.hori)))

/-- The vertical anchors: the cells (r, c) with r at most n - L, row after row. -/
def vertical_anchors (n L : Nat) : List (Int × Int × orientation) :=
  (List.range (n - L + 1)).flatMap (fun (r : Nat) =>
    (List.range n).map (fun (c : Nat) => ((r : Int), (c : Int), orientation.vert)))

/-- The anchors of a word of length `L` on a square grid, in the order claimed. -/
def square_anchors (n L : Nat) : List (Int × Int × orientation) :=
  horizontal_anchors n L ++ vertical_anchors n L

/-- The cells the loops of `horizontal` come to on a scratch map of `N` rows. -/
def first_word_positioner.horizontal_cells (g : grid) (N : Int) : List (Int × Int) :=
  first_word_positioner.cells
    (fun _ _col => decide (_col + get_size (first_word_positioner.first_word g) > N)) N N

/-- The cells the loops of `vertical` come to on a scratch map of `N` rows. -/
def first_word_positioner.vertical_cells (g : grid) (N : Int) : List (Int × Int) :=
  first_word_positioner.cells
    (fun _row _ => decide (_row + get_size (first_word_positioner.first_word g) > N)) N N

/-- The generator before its vertical phase, with a scratch map of `N` rows in
which the first `k` of the cells `cand` are taken. -/
def in_horizontal (s : first_word_positioner) (N : Int) (cand : List (Int × Int)) (k : Nat) :
    Prop :=
  s.m_all_horizontal_tried = false ∧ s.m_vertical = false ∧ s.m_occupied.m_num_rows = N ∧
  s.m_occupied.m_initial = max_char ∧ marked s.m_occupied cand k

/-- The generator in its vertical phase, with a scratch map of `N` rows in which
the first `j` of the cells `cand` are taken. -/
def in_vertical (s : first_word_positioner) (N : Int) (cand : List (Int × Int)) (j : Nat) :
    Prop :=
  s.m_all_horizontal_tried = true ∧ s.m_vertical = true ∧ s.m_occupied.m_num_rows = N ∧
  marked s.m_occupied cand j

/-- The anchors the generator is to yield on the grid `g` with a scratch map of
`N` rows: the cells of the horizontal scan, then those of the vertical scan. -/
def first_word_positioner.anchors_of (g : grid) (N : Int) : List (Int × Int × orientation) :=
  (first_word_positioner.horizontal_cells g N).map (fun p => (p.1, p.2, orientation.hori)) ++
  (first_word_positioner.vertical_cells g N).map (fun p => (p.1, p.2, orientation.vert))

/-- Each cell of the footprint of a layout holds, in the occupancy map of the
grid, the letter the word has there. -/
def holds_letters (g : grid) (l : layout) : Bool :=
  (List.range l.get_word.length).all (fun k =>
    g.m_occupied.get (letter_cell (l.m_orientation == orientation.vert) l.m_row l.m_col k).1
      (letter_cell (l.m_orientation == orientation.vert) l.m_row l.m_col k).2
      == char_at l.get_word k)

/-- The invariant Inv of a grid: the footprint of every placed word lies inside
the grid, and each cell of the footprint holds the letter of the word. -/
def inv (g : grid) : Bool :=
  g.m_layouts.all (fun l => !l.is_positioned || (footprint_inside g l && holds_letters g l))

/-- A word of two letters and a word that begins with NUL, for 2 rows and 3 columns. -/
def ab_nul_cd : permutation := [⟨"ab", ""⟩, ⟨String.mk [Char.ofNat 0, 'c', 'd'], ""⟩]

/-! ## The constructor of `grid` -/

theorem to_index_of_small (z : Int) (h0 : 0 ≤ z) (h1 : z ≤ 32767) : to_index z = z := by
  show ((z + 32768) % 65536 - 32768 : Int) = z
  omega

theorem get_size_of_small (w : word) (h : w.length ≤ 32767) : get_size w = w.length := by
  unfold get_size
  exact to_index_of_small _ (by omega) (by omega)

theorem longest_word_of_foldl (p : permutation) (h : ∀ e ∈ p, e.m_word.length ≤ 32767) :
    ∀ init : Int, 0 ≤ init →
      p.foldl (fun _size _entry =>
        if get_size _entry.m_word > _size then get_size _entry.m_word else _size) init
      = max init (longest_length p) := by
  induction p with
  | nil =>
    intro init h0
    simp [longest_length, h0]
  | cons e p ih =>
    intro init h0
    have he := get_size_of_small e.m_word (h e (List.mem_cons_self _ _))
    have ih1 := ih (fun x hx => h x (List.mem_cons_of_mem _ hx))
    simp only [List.foldl_cons, he]
    rw [ih1 _ (by split <;> omega)]
    simp only [longest_length, List.map_cons, List.foldr_cons]
    split <;> omega

theorem longest_length_nonneg (p : permutation) : 0 ≤ longest_length p := by
  induction p with
  | nil => simp [longest_length]
  | cons e p ih =>
    simp only [longest_length, List.map_cons, List.foldr_cons] at ih ⊢
    omega

theorem longest_word_of_eq (p : permutation) (h : ∀ e ∈ p, e.m_word.length ≤ 32767) :
    grid.longest_word_of p = longest_length p := by
  unfold grid.longest_word_of
  rw [longest_word_of_foldl p h 0 (le_refl _)]
  have := longest_length_nonneg p
  omega

/-- C4: when every word length fits the type `index`, the constructor of `grid`
throws exactly when the length of the longest word is greater than the number of
rows and greater than the number of columns; in every other case it yields a grid. -/
theorem grid_construct_fails_iff (p : permutation) (R C : Int) (n : Nat)
    (h : ∀ e ∈ p, e.m_word.length ≤ 32767) :
    (grid.construct p R C n = none ↔ (longest_length p > R ∧ longest_length p > C)) ∧
    ((grid.construct p R C n).isSome = true ↔ ¬ (longest_length p > R ∧ longest_length p > C)) := by
  unfold grid.construct
  simp only [longest_word_of_eq p h]
  by_cases hc : longest_length p > R ∧ longest_length p > C
  · simp [hc]
  · simp [hc]

/-- C4, at an input: the single word "open" in a grid of 2 rows and 3 columns. -/
theorem grid_construct_fails_iff_witness :
    (∀ e ∈ [(⟨"open", "expl 1"⟩ : entry)], e.m_word.length ≤ 32767) ∧
    grid.construct [⟨"open", "expl 1"⟩] 2 3 0 = none :=
  ⟨by decide,
   ((grid_construct_fails_iff [⟨"open", "expl 1"⟩] 2 3 0 (by decide)).1).2 (by decide)⟩

/-! ## Orderings of the same entries give grids that can be constructed together -/

theorem mem_insert_sorted (e x : entry) (l : entries) :
    x ∈ insert_sorted e l ↔ x = e ∨ x ∈ l := by
  induction l with
  | nil => simp [insert_sorted]
  | cons b l ih =>
    unfold insert_sorted
    split
    · simp
    · simp only [List.mem_cons, ih]
      tauto

theorem mem_sort_entries (x : entry) (l : entries) : x ∈ sort_entries l ↔ x ∈ l := by
  induction l with
  | nil => simp [sort_entries]
  | cons b l ih =>
    have : sort_entries (b :: l) = insert_sorted b (sort_entries l) := rfl
    rw [this, mem_insert_sorted, ih]
    simp

theorem length_insert_sorted (e : entry) (l : entries) :
    (insert_sorted e l).length = l.length + 1 := by
  induction l with
  | nil => rfl
  | cons b l ih =>
    unfold insert_sorted
    split
    · rfl
    · simp [ih]

theorem length_sort_entries (l : entries) : (sort_entries l).length = l.length := by
  induction l with
  | nil => rfl
  | cons b l ih =>
    have : sort_entries (b :: l) = insert_sorted b (sort_entries l) := rfl
    rw [this, length_insert_sorted, ih]
    rfl

theorem mem_of_get? {α : Type} (l : List α) (i : Nat) (a : α) (h : l.get? i = some a) : a ∈ l :=
  List.get?_mem h

/-- Every entry of the next permutation is an entry of the permutation. -/
theorem mem_of_mem_next_permutation (comp : entry → entry → Bool) (l : permutation) (x : entry)
    (h : x ∈ next_permutation comp l) : x ∈ l := by
  have hset : ∀ (i j : Nat) (a b : entry), l.get? i = some a → l.get? j = some b →
      ∀ y, y ∈ (l.set i b).set j a → y ∈ l := by
    intro i j a b ha hb y hy
    rcases List.mem_or_eq_of_mem_set hy with h1 | h1
    · rcases List.mem_or_eq_of_mem_set h1 with h2 | h2
      · exact h2
      · rw [h2]; exact mem_of_get? _ _ _ hb
    · rw [h1]; exact mem_of_get? _ _ _ ha
  unfold next_permutation at h
  dsimp only at h
  split at h
  · exact List.mem_reverse.1 h
  · split at h
    · exact h
    · split at h
      · exact h
      · split at h
        · exact h
        · rename_i _ i _ _ a ha _ j _ _ b hb
          rcases List.mem_append.1 h with h1 | h1
          · exact hset _ _ _ _ ha hb _ (List.mem_of_mem_take h1)
          · exact hset _ _ _ _ ha hb _ (List.mem_of_mem_drop (List.mem_reverse.1 h1))

namespace grid

theorem foldl_longest_le (B : Int) (q : permutation)
    (hq : ∀ e ∈ q, get_size e.m_word ≤ B) :
    ∀ init : Int, init ≤ B →
      q.foldl (fun _size _entry =>
        if get_size _entry.m_word > _size then get_size _entry.m_word else _size) init ≤ B := by
  induction q with
  | nil => intro init h; simpa using h
  | cons e q ih =>
    intro init h
    simp only [List.foldl_cons]
    apply ih (fun x hx => hq x (List.mem_cons_of_mem _ hx))
    have := hq e (List.mem_cons_self _ _)
    split <;> omega

theorem foldl_longest_ge (q : permutation) :
    ∀ init : Int,
      init ≤ q.foldl (fun _size _entry =>
        if get_size _entry.m_word > _size then get_size _entry.m_word else _size) init ∧
      ∀ e ∈ q, get_size e.m_word ≤ q.foldl (fun _size _entry =>
        if get_size _entry.m_word > _size then get_size _entry.m_word else _size) init := by
  induction q with
  | nil => intro init; simp
  | cons e q ih =>
    intro init
    simp only [List.foldl_cons]
    obtain ⟨h1, h2⟩ := ih (if get_size e.m_word > init then get_size e.m_word else init)
    by_cases hgt : get_size e.m_word > init
    · simp only [hgt, if_true] at h1 h2 ⊢
      constructor
      · omega
      · intro x hx
        rcases List.mem_cons.1 hx with rfl | hx
        · omega
        · exact h2 x hx
    · simp only [hgt, if_false] at h1 h2 ⊢
      constructor
      · omega
      · intro x hx
        rcases List.mem_cons.1 hx with rfl | hx
        · omega
        · exact h2 x hx

/-- The longest word of a sequence made of entries of another one is not longer. -/
theorem longest_word_of_le (p q : permutation) (h : ∀ e ∈ q, e ∈ p) :
    longest_word_of q ≤ longest_word_of p := by
  unfold longest_word_of
  apply foldl_longest_le
  · intro e he
    exact (foldl_longest_ge p 0).2 e (h e he)
  · exact (foldl_longest_ge p 0).1

theorem construct_isSome_of_subset (p q : permutation) (R C : Int) (n m : Nat)
    (h : ∀ e ∈ q, e ∈ p) (hp : (construct p R C n).isSome = true) :
    construct q R C m = some (constructed q R C m) := by
  have hle := longest_word_of_le p q h
  unfold construct at hp ⊢
  dsimp only at hp ⊢
  split at hp
  · simp at hp
  · rename_i hn
    rw [if_neg]
    intro hc
    exact hn ⟨by omega, by omega⟩

theorem construct_none_of_subset (p q : permutation) (R C : Int) (n m : Nat)
    (h : ∀ e ∈ p, e ∈ q) (hp : construct p R C n = none) :
    construct q R C m = none := by
  have hle := longest_word_of_le q p h
  unfold construct at hp ⊢
  dsimp only at hp ⊢
  split at hp
  · rename_i hn
    rw [if_pos]
    exact ⟨by omega, by omega⟩
  · simp at hp

end grid

/-! ## The anchor generator: every call that places the word uses up a cell -/

theorem countP_lt_of_imp {α : Type} (P Q : α → Bool) (L : List α)
    (himp : ∀ x ∈ L, Q x = true → P x = true) (x : α) (hx : x ∈ L)
    (hP : P x = true) (hQ : Q x = false) : L.countP Q < L.countP P := by
  induction L with
  | nil => cases hx
  | cons a L ih =>
    have hle : L.countP Q ≤ L.countP P := by
      apply List.countP_mono_left
      intro y hy hq
      exact himp y (List.mem_cons_of_mem _ hy) hq
    rw [List.countP_cons, List.countP_cons]
    rcases List.mem_cons.1 hx with rfl | hmem
    · simp [hP, hQ]
      omega
    · have := ih (fun y hy => himp y (List.mem_cons_of_mem _ hy)) hmem
      have h4 := himp a (List.mem_cons_self _ _)
      by_cases hqa : Q a = true
      · simp [hqa, h4 hqa]
        omega
      · simp [hqa]
        omega

theorem hash_ne_max_char : ('#' == max_char) = false := by decide

theorem free_cells_put_lt (m : occupied) (r c : Int) (hr : r ∈ indices m.m_num_rows)
    (hc : c ∈ indices m.m_num_rows) (hfree : m.get r c = max_char) :
    free_cells (m.put r c '#') < free_cells m := by
  unfold free_cells
  have hs : scanned (m.put r c '#') = scanned m := rfl
  rw [hs]
  apply countP_lt_of_imp _ _ _ _ (r, c)
  · exact List.mem_product.2 ⟨hr, hc⟩
  · simp [hfree]
  · simp [matrix.put, matrix.get, hash_ne_max_char]
  · intro x _ hx
    simp only [matrix.put, matrix.get] at hx ⊢
    by_cases hxx : x.1 = r ∧ x.2 = c
    · simp [hxx, hash_ne_max_char] at hx
    · simpa [hxx] using hx

theorem free_cells_le (m : occupied) : free_cells m ≤ (scanned m).length :=
  List.countP_le_length _

namespace first_word_positioner

theorem scan_some (m : occupied) (brk : Int → Int → Bool) (R C r c : Int)
    (h : scan m brk R C = some (r, c)) :
    r ∈ indices R ∧ c ∈ indices C ∧ m.get r c = max_char := by
  unfold scan at h
  obtain ⟨r1, hr1, h1⟩ := List.exists_of_findSome?_eq_some h
  cases h2 : scan_row m (brk r1) C r1 with
  | none => simp [h2] at h1
  | some c1 =>
    simp only [h2, Option.map_some', Option.some.injEq, Prod.mk.injEq] at h1
    obtain ⟨rfl, rfl⟩ := h1
    unfold scan_row at h2
    have hp := List.find?_some h2
    have hm := List.mem_of_find?_eq_some h2
    have hm2 : c1 ∈ indices C := (List.takeWhile_sublist _).subset hm
    exact ⟨hr1, hm2, by simpa using hp⟩

theorem horizontal_true (s : first_word_positioner) (g : grid)
    (h : (horizontal s false g).1 = true) :
    ∃ r c, r ∈ indices s.m_occupied.m_num_rows ∧ c ∈ indices s.m_occupied.m_num_rows ∧
      s.m_occupied.get r c = max_char ∧
      horizontal s false g =
        (true, { s with m_occupied := s.m_occupied.put r c '#' }, g.set 0 r c orientation.hori) := by
  unfold horizontal at h ⊢
  simp only [Bool.false_eq_true, if_false] at h ⊢
  cases hs : scan s.m_occupied
      (fun _ _col => decide (_col + get_size (first_word g) > s.m_occupied.get_num_rows))
      s.m_occupied.get_num_rows s.m_occupied.get_num_rows with
  | none => simp [hs] at h
  | some rc =>
    obtain ⟨r, c⟩ := rc
    obtain ⟨h1, h2, h3⟩ := scan_some _ _ _ _ _ _ hs
    exact ⟨r, c, h1, h2, h3, rfl⟩

theorem horizontal_false (s : first_word_positioner) (p : Bool) (g : grid)
    (h : (horizontal s p g).1 = false) :
    horizontal s p g = (false, { s with m_all_horizontal_tried := true }, g) := by
  unfold horizontal at h ⊢
  cases hs : (if p = true then none
      else scan s.m_occupied
        (fun _ _col => decide (_col + get_size (first_word g) > s.m_occupied.get_num_rows))
        s.m_occupied.get_num_rows s.m_occupied.get_num_rows) with
  | none => simp [hs]
  | some rc => simp [hs] at h

theorem vertical_true (s : first_word_positioner) (g : grid)
    (h : (vertical s false g).1 = true) :
    ∃ r c, r ∈ indices s.m_occupied.m_num_rows ∧ c ∈ indices s.m_occupied.m_num_rows ∧
      s.m_occupied.get r c = max_char ∧
      vertical s false g =
        (true, { s with m_occupied := s.m_occupied.put r c '#' }, g.set 0 r c orientation.vert) := by
  unfold vertical at h ⊢
  simp only [Bool.false_eq_true, if_false] at h ⊢
  cases hs : scan s.m_occupied
      (fun _row _ => decide (_row + get_size (first_word g) > s.m_occupied.get_num_rows))
      s.m_occupied.get_num_rows s.m_occupied.get_num_rows with
  | none => simp [hs] at h
  | some rc =>
    obtain ⟨r, c⟩ := rc
    obtain ⟨h1, h2, h3⟩ := scan_some _ _ _ _ _ _ hs
    exact ⟨r, c, h1, h2, h3, rfl⟩

theorem vertical_false (s : first_word_positioner) (p : Bool) (g : grid)
    (h : (vertical s p g).1 = false) : vertical s p g = (false, s, g) := by
  unfold vertical at h ⊢
  cases hs : (if p = true then none
      else scan s.m_occupied
        (fun _row _ => decide (_row + get_size (first_word g) > s.m_occupied.get_num_rows))
        s.m_occupied.get_num_rows s.m_occupied.get_num_rows) with
  | none => simp [hs]
  | some rc => simp [hs] at h

/-- A call that returns false leaves the grid as it was. -/
theorem call_false_grid (s : first_word_positioner) (p : Bool) (g : grid)
    (h : (s.call p g).1 = false) : (s.call p g).2.2 = g := by
  cases p with
  | true => simp [call]
  | false =>
    unfold call at h ⊢
    simp only [Bool.false_eq_true, if_false] at h ⊢
    by_cases ht : (prepare s g).m_all_horizontal_tried = true
    · simp only [ht, Bool.not_true, Bool.false_eq_true, if_false] at h ⊢
      rw [vertical_false _ _ _ h]
    · simp only [ht, Bool.not_eq_true] at h ⊢
      simp only [Bool.not_false, if_true] at h ⊢
      by_cases hh : (horizontal (prepare s g) false g).1 = true
      · simp [hh] at h
      · simp only [hh, if_false] at h ⊢
        have hh2 := horizontal_false _ _ _ (by simpa using hh)
        rw [hh2] at h ⊢
        simp only [Bool.false_eq_true, if_false] at h ⊢
        rw [vertical_false _ _ _ h]

theorem indices_ne_zero (n r : Int) (h : r ∈ indices n) : n ≠ 0 := by
  unfold indices at h
  obtain ⟨k, hk, _⟩ := List.mem_map.1 h
  have := List.mem_range.1 hk
  omega

theorem horizontal_true_uses (s : first_word_positioner) (g : grid)
    (h : (horizontal s false g).1 = true) :
    (horizontal s false g).2.1.m_vertical = s.m_vertical ∧
    (horizontal s false g).2.1.m_occupied.m_num_rows = s.m_occupied.m_num_rows ∧
    s.m_occupied.m_num_rows ≠ 0 ∧
    free_cells (horizontal s false g).2.1.m_occupied < free_cells s.m_occupied := by
  obtain ⟨r, c, hr, hc, hfree, heq⟩ := horizontal_true s g h
  rw [heq]
  exact ⟨rfl, rfl, indices_ne_zero _ _ hr, free_cells_put_lt _ _ _ hr hc hfree⟩

theorem vertical_true_uses (s : first_word_positioner) (g : grid)
    (h : (vertical s false g).1 = true) :
    (vertical s false g).2.1.m_vertical = s.m_vertical ∧
    (vertical s false g).2.1.m_occupied.m_num_rows = s.m_occupied.m_num_rows ∧
    s.m_occupied.m_num_rows ≠ 0 ∧
    free_cells (vertical s false g).2.1.m_occupied < free_cells s.m_occupied := by
  obtain ⟨r, c, hr, hc, hfree, heq⟩ := vertical_true s g h
  rw [heq]
  exact ⟨rfl, rfl, indices_ne_zero _ _ hr, free_cells_put_lt _ _ _ hr hc hfree⟩

theorem scanned_length_eq (m1 m2 : occupied) (h : m1.m_num_rows = m2.m_num_rows) :
    (scanned m1).length = (scanned m2).length := by
  unfold scanned
  rw [h]

/-- The second phase of `call`, entered when the horizontal scan is over. -/
theorem vertical_phase_uses (s2 : first_word_positioner) (g : grid)
    (h : (vertical (enter_vertical s2) false g).1 = true) :
    (vertical (enter_vertical s2) false g).2.1.m_occupied.m_num_rows = s2.m_occupied.m_num_rows ∧
    s2.m_occupied.m_num_rows ≠ 0 ∧
    anchors_left (vertical (enter_vertical s2) false g).2.1 < anchors_left s2 := by
  obtain ⟨h1, h2, h3, h4⟩ := vertical_true_uses _ g h
  by_cases hv : s2.m_vertical = true
  · have he : enter_vertical s2 = s2 := by simp [enter_vertical, hv]
    rw [he] at h1 h2 h3 h4 ⊢
    refine ⟨h2, h3, ?_⟩
    unfold anchors_left
    rw [h1, hv]
    simpa using h4
  · have hv2 : s2.m_vertical = false := by simpa using hv
    have he : enter_vertical s2 =
        { s2 with m_occupied := s2.m_occupied.reset, m_vertical := true } := by
      simp [enter_vertical, hv2]
    rw [he] at h1 h2 h3 h4 ⊢
    refine ⟨h2, h3, ?_⟩
    unfold anchors_left
    rw [h1, hv2]
    have h5 := free_cells_le (matrix.reset s2.m_occupied)
    have h6 : (scanned (matrix.reset s2.m_occupied)).length = (scanned s2.m_occupied).length :=
      scanned_length_eq _ _ rfl
    simp only [if_true, Bool.false_eq_true, if_false, Nat.zero_add] at h4 ⊢
    omega

/-- A call that returns true uses up one of the anchors left, and the scratch map
it leaves has the rows it had after `prepare`, which are not none. -/
theorem call_true_uses (s : first_word_positioner) (g : grid)
    (h : (s.call false g).1 = true) :
    (s.call false g).2.1.m_occupied.m_num_rows = (prepare s g).m_occupied.m_num_rows ∧
    (prepare s g).m_occupied.m_num_rows ≠ 0 ∧
    anchors_left (s.call false g).2.1 < anchors_left (prepare s g) := by
  unfold call at h ⊢
  simp only [Bool.false_eq_true, if_false] at h ⊢
  by_cases ht : (prepare s g).m_all_horizontal_tried = true
  · simp only [ht, Bool.not_true, Bool.false_eq_true, if_false] at h ⊢
    exact vertical_phase_uses (prepare s g) g h
  · simp only [ht, Bool.not_eq_true] at h ⊢
    simp only [Bool.not_false, if_true] at h ⊢
    by_cases hh : (horizontal (prepare s g) false g).1 = true
    · simp only [hh, if_true] at h ⊢
      obtain ⟨h1, h2, h3, h4⟩ := horizontal_true_uses _ g hh
      refine ⟨h2, h3, ?_⟩
      have hlen := scanned_length_eq (horizontal (prepare s g) false g).2.1.m_occupied
        (prepare s g).m_occupied h2
      unfold anchors_left
      rw [h1, hlen]
      omega
    · simp only [hh, if_false] at h ⊢
      have hh2 := horizontal_false _ _ _ (by simpa using hh)
      rw [hh2] at h ⊢
      simp only at h ⊢
      exact vertical_phase_uses
        { (prepare s g) with m_all_horizontal_tried := true } g h

theorem prepare_of_rows (s : first_word_positioner) (g : grid)
    (h : s.m_occupied.m_num_rows ≠ 0) : prepare s g = s := by
  unfold prepare
  simp [matrix.get_num_rows, h]

theorem anchors_left_prepare_fresh (g : grid) :
    anchors_left (prepare fresh g) < organizer.anchor_bound g := by
  unfold prepare fresh anchors_left organizer.anchor_bound
  simp only [matrix.get_num_rows, matrix.empty, if_true, Bool.false_eq_true, if_false]
  have h1 := free_cells_le (matrix.create g.get_num_rows g.get_num_cols max_char)
  have h2 : (scanned (matrix.create g.get_num_rows g.get_num_cols max_char)).length
      = g.m_num_rows.toNat * g.m_num_rows.toNat := by
    have h3 := List.length_product (indices g.m_num_rows) (indices g.m_num_rows)
    simp only [indices, List.length_map, List.length_range] at h3
    exact h3
  omega

end first_word_positioner

/-! ## The number of layouts never changes -/

namespace grid

theorem set_length (g : grid) (i : Nat) (r c : Int) (o : orientation) :
    (g.set i r c o).m_layouts.length = g.m_layouts.length := by
  unfold set
  cases g.m_layouts.get? i with
  | none => rfl
  | some l => simp [occupy]

theorem reset_positions_length (g : grid) :
    g.reset_positions.m_layouts.length = g.m_layouts.length := by
  simp [reset_positions]

end grid

theorem position_horizontally_length (g : grid) (x : coordinate) (i j : Nat) :
    (position_horizontally g x i j).2.m_layouts.length = g.m_layouts.length := by
  unfold position_horizontally
  split
  · dsimp only
    split
    · rfl
    · split
      · rfl
      · split
        · exact grid.set_length _ _ _ _ _
        · rfl
  · rfl

theorem position_vertically_length (g : grid) (x : coordinate) (i j : Nat) :
    (position_vertically g x i j).2.m_layouts.length = g.m_layouts.length := by
  unfold position_vertically
  split
  · dsimp only
    split
    · rfl
    · split
      · rfl
      · split
        · exact grid.set_length _ _ _ _ _
        · rfl
  · rfl

theorem position_first_length (f : grid → coordinate → Bool × grid)
    (hf : ∀ g x, (f g x).2.m_layouts.length = g.m_layouts.length) :
    ∀ (xs : coordinates) (g : grid),
      (position_first f xs g).2.m_layouts.length = g.m_layouts.length := by
  intro xs
  induction xs with
  | nil => intro g; rfl
  | cons x xs ih =>
    intro g
    unfold position_first
    have h1 := hf g x
    cases hfx : f g x with
    | mk b g1 =>
      rw [hfx] at h1
      cases b with
      | true => exact h1
      | false =>
        simp only
        rw [ih g1]
        exact h1

theorem position_length (p : Bool) (g : grid) (i j : Nat) :
    (position p g i j).2.m_layouts.length = g.m_layouts.length := by
  unfold position
  split
  · split
    · exact position_first_length _ (fun g x => position_vertically_length g x i j) _ _
    · exact position_first_length _ (fun g x => position_horizontally_length g x i j) _ _
  · rfl

namespace organizer

theorem try_layouts_length (t : Nat) :
    ∀ (k l : Nat) (g : grid), (try_layouts t k l g).m_layouts.length = g.m_layouts.length := by
  intro k
  induction k with
  | zero => intro l g; rfl
  | succ k ih =>
    intro l g
    unfold try_layouts
    cases g.m_layouts.get? l with
    | none => rfl
    | some x =>
      simp only
      split
      · have h1 := position_length false g l t
        cases hp : position false g l t with
        | mk b g1 =>
          rw [hp] at h1
          cases b with
          | true => exact h1
          | false =>
            simp only
            rw [ih]
            exact h1
      · rfl

theorem place_words_length :
    ∀ (k t : Nat) (g : grid), (place_words k t g).m_layouts.length = g.m_layouts.length := by
  intro k
  induction k with
  | zero => intro t g; rfl
  | succ k ih =>
    intro t g
    unfold place_words
    split
    · have h1 := try_layouts_length t (g.m_layouts.length + 1) 0 g
      simp only
      split
      · exact h1
      · split
        · exact h1
        · rw [ih]
          exact h1
    · rfl

end organizer

namespace first_word_positioner

theorem call_length (s : first_word_positioner) (p : Bool) (g : grid) :
    (s.call p g).2.2.m_layouts.length = g.m_layouts.length := by
  by_cases h : (s.call p g).1 = true
  · cases p with
    | true => simp [call] at h
    | false =>
      unfold call at h ⊢
      simp only [Bool.false_eq_true, if_false] at h ⊢
      by_cases ht : (prepare s g).m_all_horizontal_tried = true
      · simp only [ht, Bool.not_true, Bool.false_eq_true, if_false] at h ⊢
        obtain ⟨r, c, _, _, _, heq⟩ := vertical_true _ g h
        rw [heq]
        exact grid.set_length _ _ _ _ _
      · simp only [ht, Bool.not_eq_true] at h ⊢
        simp only [Bool.not_false, if_true] at h ⊢
        by_cases hh : (horizontal (prepare s g) false g).1 = true
        · simp only [hh, if_true] at h ⊢
          obtain ⟨r, c, _, _, _, heq⟩ := horizontal_true _ g hh
          rw [heq]
          exact grid.set_length _ _ _ _ _
        · simp only [hh, if_false] at h ⊢
          have hh2 := horizontal_false _ _ _ (by simpa using hh)
          rw [hh2] at h ⊢
          simp only at h ⊢
          obtain ⟨r, c, _, _, _, heq⟩ := vertical_true _ g h
          rw [heq]
          exact grid.set_length _ _ _ _ _
  · rw [call_false_grid s p g (by simpa using h)]

end first_word_positioner

/-! ## The organizer -/

theorem blank_not_organized (g : grid) (h : blank g) : g.organized = false := by
  obtain ⟨h1, h2⟩ := h
  unfold grid.organized
  cases hl : g.m_layouts with
  | nil => exact absurd hl h1
  | cons l ls =>
    have := h2 l (by simp [hl])
    simp [layout.get_orientation, this]

theorem blank_reset_positions (g : grid) (h : g.m_layouts ≠ []) : blank g.reset_positions := by
  constructor
  · simpa [grid.reset_positions] using h
  · intro l hl
    simp only [grid.reset_positions, List.mem_map] at hl
    obtain ⟨l0, _, rfl⟩ := hl
    rfl

theorem layouts_ne_nil_of_length (g1 g2 : grid)
    (h : g1.m_layouts.length = g2.m_layouts.length) (h2 : g2.m_layouts ≠ []) :
    g1.m_layouts ≠ [] := by
  intro h3
  rw [h3] at h
  exact h2 (List.length_eq_zero.1 h.symm)

namespace organizer

/-- The anchor loop returns true exactly with an organized grid, when it starts
from a blank grid. -/
theorem anchors_true_iff :
    ∀ (k : Nat) (s : first_word_positioner) (g : grid) (b : Bool) (g1 : grid),
      blank g → anchors k s g = some (b, g1) → (b = true ↔ g1.organized = true) := by
  intro k
  induction k with
  | zero => intro s g b g1 _ h; simp [anchors] at h
  | succ k ih =>
    intro s g b g1 hb h
    unfold anchors at h
    have hlen := first_word_positioner.call_length s false g
    have hfalse := first_word_positioner.call_false_grid s false g
    cases hc : s.call false g with
    | mk r rest =>
      obtain ⟨s1, g2⟩ := rest
      rw [hc] at h hlen hfalse
      cases r with
      | false =>
        simp only [Option.some.injEq, Prod.mk.injEq] at h
        obtain ⟨rfl, rfl⟩ := h
        have : g2 = g := hfalse rfl
        rw [this]
        simp [blank_not_organized g hb]
      | true =>
        simp only at h hlen
        by_cases ho : (place_words g2.m_layouts.length 1 g2).organized = true
        · simp only [ho, if_true, Option.some.injEq, Prod.mk.injEq] at h
          obtain ⟨rfl, rfl⟩ := h
          simp [ho]
        · simp only [ho, if_false] at h
          apply ih _ _ _ _ _ h
          apply blank_reset_positions
          apply layouts_ne_nil_of_length _ g _ hb.1
          rw [place_words_length]
          exact hlen

/-- The anchor loop comes to its end within the anchors left. -/
theorem anchors_some :
    ∀ (k : Nat) (s : first_word_positioner) (g : grid),
      anchors_left (first_word_positioner.prepare s g) < k → (anchors k s g).isSome = true := by
  intro k
  induction k with
  | zero => intro s g h; omega
  | succ k ih =>
    intro s g h
    unfold anchors
    have hu := first_word_positioner.call_true_uses s g
    cases hc : s.call false g with
    | mk r rest =>
      obtain ⟨s1, g2⟩ := rest
      rw [hc] at hu
      cases r with
      | false => rfl
      | true =>
        simp only at hu ⊢
        obtain ⟨h1, h2, h3⟩ := hu trivial
        split
        · rfl
        · apply ih
          rw [first_word_positioner.prepare_of_rows _ _ (by rw [h1]; exact h2)]
          omega

/-- The bound `anchor_bound` suffices: the anchor loop of `call` ends by itself. -/
theorem anchors_enough (g : grid) :
    (anchors (anchor_bound g) first_word_positioner.fresh g).isSome = true :=
  anchors_some _ _ _ (first_word_positioner.anchors_left_prepare_fresh g)

/-- C2: for an organizer that has not been stopped and a grid with at least one
word whose placements are all unplaced, the call returns true if and only if the
grid is organized on return. -/
theorem call_true_iff_organized (g : grid) (h : blank g) :
    (organizer.call ⟨false⟩ g).1 = true ↔ (organizer.call ⟨false⟩ g).2.2.organized = true := by
  have hb := blank_not_organized g h
  unfold call
  simp only [Bool.false_eq_true, if_false]
  split
  · simp [hb]
  · split
    · simp [hb]
    · have he := anchors_enough g.reset_positions
      have hi := anchors_true_iff (anchor_bound g) first_word_positioner.fresh g.reset_positions
      have hbd : anchor_bound g.reset_positions = anchor_bound g := rfl
      rw [hbd] at he
      cases ha : anchors (anchor_bound g) first_word_positioner.fresh g.reset_positions with
      | none => simp [ha] at he
      | some r =>
        obtain ⟨b, g1⟩ := r
        have := hi b g1 (blank_reset_positions g h.1) ha
        cases b with
        | true => simpa using this
        | false => simpa using this

end organizer

/-! ## `find_intersections` on words without NUL -/

theorem to_index_le (z : Int) (h : 0 ≤ z) : to_index z ≤ z := by
  show ((z + 32768) % 65536 - 32768 : Int) ≤ z
  omega

theorem mem_indices_get_size (w : word) (i : Int) (h : i ∈ indices (get_size w)) :
    ∃ k : Nat, i = k ∧ k < w.data.length := by
  unfold indices at h
  obtain ⟨k, hk, rfl⟩ := List.mem_map.1 h
  refine ⟨k, rfl, ?_⟩
  have h1 := List.mem_range.1 hk
  have h2 := to_index_le (w.length : Int) (by omega)
  have h3 : w.length = w.data.length := rfl
  unfold get_size at h1
  omega

theorem char_at_mem (w : word) (k : Nat) (h : k < w.data.length) : char_at w k ∈ w.data := by
  unfold char_at
  rw [List.getD_eq_getElem _ _ h]
  exact List.getElem_mem _

theorem char_at_outside (w : word) (k : Nat) (h : w.data.length ≤ k) :
    char_at w k = Char.ofNat 0 := by
  unfold char_at
  exact List.getD_eq_default _ _ h

/-- Two words without NUL that share no character have no intersection. -/
theorem find_intersections_eq_nil (p : Bool) (w1 w2 : word)
    (h1 : Char.ofNat 0 ∉ w1.data) (h2 : Char.ofNat 0 ∉ w2.data)
    (h : ∀ c ∈ w1.data, c ∉ w2.data) : find_intersections p w1 w2 = [] := by
  unfold find_intersections
  dsimp only
  split
  · rfl
  · rw [List.eq_nil_iff_forall_not_mem]
    intro x hx
    obtain ⟨i2, hi2, hx2⟩ := List.mem_flatMap.1 hx
    obtain ⟨i1, hi1, hx1⟩ := List.mem_filterMap.1 hx2
    obtain ⟨k2, rfl, hk2⟩ := mem_indices_get_size w2 i2 hi2
    obtain ⟨k1, rfl, hk1⟩ := mem_indices_get_size w1 i1 hi1
    simp only [Int.toNat_ofNat] at hx1
    split at hx1
    · rename_i heq
      by_cases hin : k2 < w1.data.length
      · have hm := char_at_mem w1 k2 hin
        by_cases hin1 : k1 < w2.data.length
        · exact h _ hm (heq ▸ char_at_mem w2 k1 hin1)
        · rw [heq, char_at_outside w2 k1 (by omega)] at hm
          exact h1 hm
      · rw [char_at_outside w1 k2 (by omega)] at heq
        by_cases hin1 : k1 < w2.data.length
        · exact h2 (heq ▸ char_at_mem w2 k1 hin1)
        · omega
    · simp at hx1

/-! ## The organizer: the pre-filter and the stop flag -/

namespace organizer

/-- A call that returns false leaves the organizer as it was; a call that returns
true leaves it stopped. -/
theorem call_state (o : organizer) (g : grid) :
    (o.call g).2.1 = if (o.call g).1 = true then ⟨true⟩ else o := by
  unfold call
  split
  · rfl
  · split
    · rfl
    · split
      · rfl
      · split <;> simp

/-- A grid the pre-filter rejects is returned as it was, with the result false. -/
theorem call_of_not_intersect (o : organizer) (g : grid)
    (h : two_first_words_intersect o.m_stop g = false) : o.call g = (false, o, g) := by
  unfold call
  split
  · rfl
  · split
    · rfl
    · simp [h]

/-- On a grid with exactly one word every call returns false and changes nothing. -/
theorem call_one_word (o : organizer) (g : grid) (l : layout) (h : g.m_layouts = [l]) :
    o.call g = (false, o, g) := by
  apply call_of_not_intersect
  unfold two_first_words_intersect
  rw [h]

/-- The pre-filter on words without NUL: when the first two words share no
character, every call returns false and leaves the organizer and the grid as
they were (the anchor generator is not reached). -/
theorem call_without_common_character (o : organizer) (g : grid) (l1 l2 : layout)
    (rest : List layout) (hg : g.m_layouts = l1 :: l2 :: rest)
    (h1 : Char.ofNat 0 ∉ l1.get_word.data) (h2 : Char.ofNat 0 ∉ l2.get_word.data)
    (h : ∀ c ∈ l1.get_word.data, c ∉ l2.get_word.data) : o.call g = (false, o, g) := by
  apply call_of_not_intersect
  unfold two_first_words_intersect
  rw [hg]
  simp [find_intersections_eq_nil _ _ _ h1 h2 h]

/-- C9, as amended: for every single-word input whose grid can be constructed (the
word fits the grid), the call of an unstopped organizer reports failure and
leaves the organizer and the grid as they were: the word stays unplaced, the
grid is not organized. -/
theorem call_single_word_fails (e : entry) (R C : Int) (n : Nat) (g : grid)
    (h : grid.construct [e] R C n = some g) :
    organizer.call ⟨false⟩ g = (false, ⟨false⟩, g) ∧
    placements g = [(max_row, max_col, orientation.undef)] ∧ g.organized = false := by
  have hg : g = grid.constructed [e] R C n := by
    unfold grid.construct at h
    dsimp only at h
    split at h
    · simp at h
    · simpa using h.symm
  subst hg
  exact ⟨call_one_word _ _ (layout.of_entry e) rfl, rfl, rfl⟩

end organizer

/-! ## The generation loop of `start` -/

theorem jobs_in_append_attempt (log : List event) (n : Nat) :
    jobs_in (log ++ [event.new_attempt n]) = jobs_in log := by
  simp [jobs_in, List.countP_append, event.is_job]

theorem jobs_in_append_job (log : List event) (g : grid) :
    jobs_in (log ++ [event.new_grid_to_organize g]) = jobs_in log + 1 := by
  simp [jobs_in, List.countP_append, event.is_job]

theorem factorial_small (n : Nat) (h : n ≤ 20) : factorial n = n.factorial := by
  unfold factorial
  apply Nat.mod_eq_of_lt
  calc n.factorial ≤ (20 : Nat).factorial := Nat.factorial_le h
    _ < 2 ^ 64 := by decide

namespace assembler

theorem max_permutations_small (p_entries : entries) (p_max_tries : Nat)
    (h : p_entries.length ≤ 20) :
    max_permutations p_entries p_max_tries = min p_entries.length.factorial p_max_tries := by
  unfold max_permutations get_num_entries
  rw [length_sort_entries, Nat.mod_eq_of_lt (by omega), factorial_small _ h]
  dsimp only
  split <;> omega

/-- The bound on the rounds of `generate` is never what ends the loop: with the
counter `k` rounds below the cap, more than `k` rounds allowed change nothing. -/
theorem generate_rounds (d : dispatcher) (R C : Int) (M : Nat) :
    ∀ (k j : Nat) (q : permutation) (a : assembler) (log : List event),
      a.m_permutation_counter + k = M →
      generate d R C M (k + j) q a log = generate d R C M k q a log := by
  intro k
  induction k with
  | zero =>
    intro j q a log h
    cases j with
    | zero => rfl
    | succ j =>
      rw [Nat.zero_add]
      unfold generate
      have : a.m_permutation_counter = M := by omega
      simp [this]
  | succ k ih =>
    intro j q a log h
    have hk : k + 1 + j = (k + j) + 1 := by omega
    rw [hk]
    unfold generate
    split
    · rfl
    · split
      · rfl
      · split
        · rfl
        · dsimp only
          split
          · rfl
          · apply ih
            simp only
            omega

/-- One round of the loop that goes through. -/
theorem generate_step (d : dispatcher) (R C : Int) (M k : Nat) (q : permutation) (a : assembler)
    (log : List event) (hs : a.m_shared.m_stop = false) (hne : a.m_permutation_counter ≠ M)
    (hv : a.m_shared.m_solved = none) (g : grid)
    (hc : grid.construct q.reverse R C (a.m_permutation_counter + 1) = some g) :
    generate d R C M (k + 1) q a log =
      generate d R C M k (next_permutation compare_entries q)
        { a with m_permutation_counter := a.m_permutation_counter + 1,
                 m_shared := d.publish_new_grid_to_organize g
                   (d.publish_new_attempt (a.m_permutation_counter + 1) a.m_shared) }
        (log ++ [event.new_attempt (a.m_permutation_counter + 1)] ++
          [event.new_grid_to_organize g]) := by
  conv => lhs; unfold generate
  simp only [hs, hne, hv, Bool.false_eq_true, if_false, Option.isSome_none, hc]

/-- The counter never passes the cap, and no job is published without an attempt
counted for it. -/
theorem generate_bound (d : dispatcher) (R C : Int) (M : Nat) :
    ∀ (k : Nat) (q : permutation) (a : assembler) (log : List event),
      a.m_permutation_counter ≤ M →
      (generate d R C M k q a log).2.1.m_permutation_counter ≤ M ∧
      a.m_permutation_counter ≤ (generate d R C M k q a log).2.1.m_permutation_counter ∧
      jobs_in (generate d R C M k q a log).2.2 + a.m_permutation_counter
        ≤ jobs_in log + (generate d R C M k q a log).2.1.m_permutation_counter := by
  intro k
  induction k with
  | zero =>
    intro q a log h
    simp [generate, h]
  | succ k ih =>
    intro q a log h
    unfold generate
    split
    · simp [h]
    · split
      · simp [h]
      · split
        · simp [h]
        · rename_i hne _
          dsimp only
          split
          · simp only [jobs_in_append_attempt]
            omega
          · rename_i g hg
            have := ih (next_permutation compare_entries q)
              { m_num_threads := a.m_num_threads, m_entries := a.m_entries,
                m_permutation_counter := a.m_permutation_counter + 1,
                m_shared := d.publish_new_grid_to_organize g
                  (d.publish_new_attempt (a.m_permutation_counter + 1) a.m_shared) }
              (log ++ [event.new_attempt (a.m_permutation_counter + 1)] ++
                [event.new_grid_to_organize g]) (by simp only; omega)
            simp only [jobs_in_append_attempt, jobs_in_append_job] at this
            obtain ⟨h1, h2, h3⟩ := this
            refine ⟨h1, by omega, by omega⟩

/-- When the constructor of `grid` does not throw, every attempt counted has its job. -/
theorem generate_jobs (d : dispatcher) (R C : Int) (M : Nat) :
    ∀ (k : Nat) (q : permutation) (a : assembler) (log : List event),
      (generate d R C M k q a log).1 = false →
      jobs_in (generate d R C M k q a log).2.2 + a.m_permutation_counter
        = jobs_in log + (generate d R C M k q a log).2.1.m_permutation_counter := by
  intro k
  induction k with
  | zero => intro q a log _; rfl
  | succ k ih =>
    intro q a log
    unfold generate
    split
    · intro _; rfl
    · split
      · intro _; rfl
      · split
        · intro _; rfl
        · dsimp only
          split
          · intro h
            simp at h
          · rename_i g hg
            intro h
            have := ih _ _ _ h
            simp only [jobs_in_append_attempt, jobs_in_append_job] at this
            omega

/-- When every grid can be constructed and the loop leaves the stop flag unset and
no solved grid recorded, it has run up to the cap and published one job for each
attempt. -/
theorem generate_clean (d : dispatcher) (p_entries : entries) (R C : Int) (M : Nat)
    (hfit : (grid.construct p_entries R C 0).isSome = true) :
    ∀ (k : Nat) (q : permutation) (a : assembler) (log : List event),
      a.m_permutation_counter + k = M → (∀ e ∈ q, e ∈ p_entries) →
      (generate d R C M k q a log).2.1.m_shared.m_stop = false →
      (generate d R C M k q a log).2.1.m_shared.m_solved = none →
      (generate d R C M k q a log).1 = false ∧
      (generate d R C M k q a log).2.1.m_permutation_counter = M ∧
      jobs_in (generate d R C M k q a log).2.2 = jobs_in log + k := by
  intro k
  induction k with
  | zero =>
    intro q a log h _ _ _
    simp only [generate]
    exact ⟨trivial, by omega, by omega⟩
  | succ k ih =>
    intro q a log h hq
    have hne : a.m_permutation_counter ≠ M := by omega
    have hc := grid.construct_isSome_of_subset p_entries q.reverse R C 0
      (a.m_permutation_counter + 1) (fun e he => hq e (List.mem_reverse.1 he)) hfit
    unfold generate
    by_cases hs : a.m_shared.m_stop = true
    · simp only [hs, if_true]
      intro h1 _
      simp [hs] at h1
    · simp only [hs, hne, if_false, Bool.false_eq_true]
      by_cases hv : a.m_shared.m_solved.isSome = true
      · simp only [hv, if_true]
        intro _ h2
        simp [h2] at hv
      · simp only [hv, if_false, hc, Bool.false_eq_true]
        intro h1 h2
        have := ih (next_permutation compare_entries q)
          { m_num_threads := a.m_num_threads, m_entries := a.m_entries,
            m_permutation_counter := a.m_permutation_counter + 1,
            m_shared := d.publish_new_grid_to_organize
              (grid.constructed q.reverse R C (a.m_permutation_counter + 1))
              (d.publish_new_attempt (a.m_permutation_counter + 1) a.m_shared) }
          (log ++ [event.new_attempt (a.m_permutation_counter + 1)] ++
            [event.new_grid_to_organize
              (grid.constructed q.reverse R C (a.m_permutation_counter + 1))])
          (by simp only; omega)
          (fun e he => hq e (mem_of_mem_next_permutation _ _ _ he)) h1 h2
        simp only [jobs_in_append_attempt, jobs_in_append_job] at this
        obtain ⟨h3, h4, h5⟩ := this
        exact ⟨h3, h4, by omega⟩

theorem start_snd (d : dispatcher) (a : assembler) (p_entries : entries) (R C : Int)
    (p_num_threads p_max_tries : Nat) :
    (start d a p_entries R C p_num_threads p_max_tries).2 =
      (generate d R C (max_permutations p_entries p_max_tries)
        (max_permutations p_entries p_max_tries) (sort_entries p_entries)
        (configured a p_entries p_num_threads) []).2 := by
  unfold start
  dsimp only
  split <;> rfl

theorem start_fst (d : dispatcher) (a : assembler) (p_entries : entries) (R C : Int)
    (p_num_threads p_max_tries : Nat) :
    (start d a p_entries R C p_num_threads p_max_tries).1 =
      if (generate d R C (max_permutations p_entries p_max_tries)
        (max_permutations p_entries p_max_tries) (sort_entries p_entries)
        (configured a p_entries p_num_threads) []).1 = true then outcome.dimension_error
      else finish (generate d R C (max_permutations p_entries p_max_tries)
        (max_permutations p_entries p_max_tries) (sort_entries p_entries)
        (configured a p_entries p_num_threads) []).2.1 := by
  unfold start
  dsimp only
  split <;> rfl

/-- C5, as amended: for at most 20 entries the value of `get_num_attempts` after
`start`, and the number of jobs published, never exceed `min(n!, max_attempts)`;
the two are equal unless `start` ends with the dimension error; both equal
`min(n!, max_attempts)` when no word is longer than both dimensions (the grid of
the entries can be constructed) and the loop ends with no stop requested and no
solved grid recorded. -/
theorem attempts_made_bound (d : dispatcher) (a : assembler) (p_entries : entries) (R C : Int)
    (p_num_threads p_max_tries : Nat) (hn : p_entries.length ≤ 20) :
    ((start d a p_entries R C p_num_threads p_max_tries).2.1.get_num_attempts
        ≤ min p_entries.length.factorial p_max_tries ∧
      jobs_in (start d a p_entries R C p_num_threads p_max_tries).2.2
        ≤ (start d a p_entries R C p_num_threads p_max_tries).2.1.get_num_attempts) ∧
    ((start d a p_entries R C p_num_threads p_max_tries).1 ≠ outcome.dimension_error →
      jobs_in (start d a p_entries R C p_num_threads p_max_tries).2.2
        = (start d a p_entries R C p_num_threads p_max_tries).2.1.get_num_attempts) ∧
    ((grid.construct p_entries R C 0).isSome = true →
      (start d a p_entries R C p_num_threads p_max_tries).2.1.m_shared.m_stop = false →
      (start d a p_entries R C p_num_threads p_max_tries).2.1.m_shared.m_solved = none →
      (start d a p_entries R C p_num_threads p_max_tries).2.1.get_num_attempts
        = min p_entries.length.factorial p_max_tries ∧
      jobs_in (start d a p_entries R C p_num_threads p_max_tries).2.2
        = min p_entries.length.factorial p_max_tries) := by
  have hM := max_permutations_small p_entries p_max_tries hn
  have h0 : jobs_in ([] : List event) = 0 := rfl
  have hc : (configured a p_entries p_num_threads).m_permutation_counter = 0 := rfl
  rw [start_fst, start_snd]
  unfold get_num_attempts
  refine ⟨?_, ?_, ?_⟩
  · obtain ⟨h1, _, h3⟩ := generate_bound d R C (max_permutations p_entries p_max_tries)
      (max_permutations p_entries p_max_tries) (sort_entries p_entries)
      (configured a p_entries p_num_threads) [] (Nat.zero_le _)
    refine ⟨le_of_le_of_eq h1 hM, ?_⟩
    rw [h0, hc] at h3
    omega
  · intro hne
    have hj := generate_jobs d R C (max_permutations p_entries p_max_tries)
      (max_permutations p_entries p_max_tries) (sort_entries p_entries)
      (configured a p_entries p_num_threads) []
    cases hg : (generate d R C (max_permutations p_entries p_max_tries)
      (max_permutations p_entries p_max_tries) (sort_entries p_entries)
      (configured a p_entries p_num_threads) []).1 with
    | true => simp [hg] at hne
    | false =>
      have := hj hg
      rw [h0, hc] at this
      omega
  · intro hfit hs hv
    obtain ⟨_, h2, h3⟩ := generate_clean d p_entries R C
      (max_permutations p_entries p_max_tries) hfit
      (max_permutations p_entries p_max_tries) (sort_entries p_entries)
      (configured a p_entries p_num_threads) [] (Nat.zero_add _)
      (fun e he => (mem_sort_entries e p_entries).1 he) hs hv
    rw [h0, Nat.zero_add] at h3
    exact ⟨h2.trans hM, h3.trans hM⟩

/-- C7, as amended: when some word is longer than both dimensions (the grid of the
entries cannot be constructed), on an assembler with no stop requested and no
solved grid recorded, with at least one attempt allowed and at most 20 entries,
`start` ends with the dimension error of the first grid it constructs: attempt 1
has been counted, its new-attempt event is the only event published, and no job
has been published. -/
theorem dimension_error_at_first_attempt (d : dispatcher) (a : assembler) (p_entries : entries)
    (R C : Int) (p_num_threads p_max_tries : Nat)
    (hs : a.m_shared.m_stop = false) (hv : a.m_shared.m_solved = none)
    (hT : 1 ≤ p_max_tries) (hn : p_entries.length ≤ 20)
    (hbad : grid.construct p_entries R C 0 = none) :
    (start d a p_entries R C p_num_threads p_max_tries).1 = outcome.dimension_error ∧
    (start d a p_entries R C p_num_threads p_max_tries).2.1.get_num_attempts = 1 ∧
    (start d a p_entries R C p_num_threads p_max_tries).2.2 = [event.new_attempt 1] := by
  have hM := max_permutations_small p_entries p_max_tries hn
  have hpos : 0 < p_entries.length.factorial := Nat.factorial_pos _
  obtain ⟨m, hm⟩ : ∃ m, max_permutations p_entries p_max_tries = m + 1 :=
    ⟨max_permutations p_entries p_max_tries - 1, by omega⟩
  have hc := grid.construct_none_of_subset p_entries (sort_entries p_entries).reverse R C 0 1
    (fun e he => List.mem_reverse.2 ((mem_sort_entries e p_entries).2 he)) hbad
  have hg : generate d R C (m + 1) (m + 1) (sort_entries p_entries)
      (configured a p_entries p_num_threads) [] =
      (true, { (configured a p_entries p_num_threads) with
                m_permutation_counter := 1,
                m_shared := d.publish_new_attempt 1
                  (configured a p_entries p_num_threads).m_shared },
        [event.new_attempt 1]) := by
    unfold generate
    have h1 : (configured a p_entries p_num_threads).m_shared.m_stop = false := hs
    have h2 : (configured a p_entries p_num_threads).m_shared.m_solved = none := hv
    have h3 : (configured a p_entries p_num_threads).m_permutation_counter = 0 := rfl
    simp only [h1, h2, h3, Bool.false_eq_true, if_false, Option.isSome_none, Nat.zero_add, hc,
      List.nil_append]
    simp
  rw [start_fst, start_snd, hm, hg]
  exact ⟨rfl, rfl, rfl⟩

/-- C6: for every bus, once the stop flag of the assembler is set the generation
loop ends at once, whatever it was about to do: it publishes nothing more and
the counter stays; the statements after the loop return no solution, also when a
solved grid is recorded; a `start` entered with the flag set publishes nothing,
counts no attempt and returns no solution.  And when the flag is set while a
round is in progress (by a handler of an event the round publishes), that
round is the last: `get_num_attempts` stays at the attempt of the round and no
solution is returned. -/
theorem stop_ends_generation (d : dispatcher) :
    (∀ (a : assembler), a.m_shared.m_stop = true →
      (∀ (R C : Int) (M k : Nat) (q : permutation) (log : List event),
        generate d R C M k q a log = (false, a, log)) ∧
      finish a = outcome.no_solution ∧
      (∀ (p_entries : entries) (R C : Int) (p_num_threads p_max_tries : Nat),
        start d a p_entries R C p_num_threads p_max_tries =
          (outcome.no_solution, configured a p_entries p_num_threads, []))) ∧
    (∀ (a : assembler) (R C : Int) (M k : Nat) (q : permutation) (log : List event) (g : grid),
      a.m_shared.m_stop = false → a.m_permutation_counter ≠ M → a.m_shared.m_solved = none →
      grid.construct q.reverse R C (a.m_permutation_counter + 1) = some g →
      (d.publish_new_grid_to_organize g
        (d.publish_new_attempt (a.m_permutation_counter + 1) a.m_shared)).m_stop = true →
      (generate d R C M (k + 1) q a log).1 = false ∧
      (generate d R C M (k + 1) q a log).2.1.get_num_attempts = a.m_permutation_counter + 1 ∧
      finish (generate d R C M (k + 1) q a log).2.1 = outcome.no_solution) := by
  have hgen : ∀ (b : assembler), b.m_shared.m_stop = true →
      ∀ (R C : Int) (M k : Nat) (q : permutation) (log : List event),
        generate d R C M k q b log = (false, b, log) := by
    intro b hb R C M k q log
    cases k with
    | zero => rfl
    | succ k =>
      unfold generate
      simp [hb]
  have hfin : ∀ (b : assembler), b.m_shared.m_stop = true → finish b = outcome.no_solution := by
    intro b hb
    simp [finish, hb]
  constructor
  · intro a h
    refine ⟨hgen a h, hfin a h, ?_⟩
    intro p_entries R C p_num_threads p_max_tries
    have hc : (configured a p_entries p_num_threads).m_shared.m_stop = true := h
    unfold start
    dsimp only
    rw [hgen _ hc]
    simp [hfin _ hc]
  · intro a R C M k q log g hs hne hv hc hstop
    rw [generate_step d R C M k q a log hs hne hv g hc, hgen _ hstop]
    exact ⟨rfl, rfl, hfin _ hstop⟩

/-! ### The bus that delivers at once -/

/-- A job delivered to the only worker, unstopped, with no solved grid recorded. -/
theorem synchronous_job (slot : Nat → Nat) (hook : Nat → Bool) (g : grid) (f : Nat) :
    (dispatcher.synchronous 1 slot hook).publish_new_grid_to_organize g
        ⟨false, [⟨false⟩], none, f⟩ =
      if (organizer.call ⟨false⟩ g).1 = true then
        ⟨false, [⟨true⟩], some (organizer.call ⟨false⟩ g).2.2, f + 1⟩
      else ⟨false, [⟨false⟩], none, f + 1⟩ := by
  have hst := organizer.call_state ⟨false⟩ g
  simp only [dispatcher.synchronous, Nat.mod_one, handle_new_grid_to_organize,
    List.get?_cons_zero, one_ne_zero, if_false]
  by_cases hc : (organizer.call ⟨false⟩ g).1 = true
  · rw [hc] at hst ⊢
    simp only [if_true] at hst ⊢
    simp [handle_stop_organizing, handle_assembly_finished, hst, organizer.stop]
  · have hc2 : (organizer.call ⟨false⟩ g).1 = false := by simpa using hc
    rw [hc2] at hst ⊢
    simp only [Bool.false_eq_true, if_false] at hst ⊢
    simp [handle_assembly_finished, hst]

/-- With a solved grid recorded the loop ends at once. -/
theorem generate_solved (d : dispatcher) (R C : Int) (M k : Nat) (q : permutation)
    (a : assembler) (log : List event) (h : a.m_shared.m_solved.isSome = true) :
    generate d R C M k q a log = (false, a, log) := by
  cases k with
  | zero => rfl
  | succ k =>
    unfold generate
    simp [h]

theorem first_success_cons (g : grid) (gs : List grid) :
    first_success (g :: gs) =
      if (organizer.call ⟨false⟩ g).1 = true then outcome.solved (organizer.call ⟨false⟩ g).2.2
      else first_success gs := by
  unfold first_success
  by_cases h : (organizer.call ⟨false⟩ g).1 = true
  · simp [List.find?_cons, h]
  · simp [List.find?_cons, h]

/-- One worker, every job organized before the next ordering is generated, no
stop: the loop and the statements after it give the first success among the
grids of the orderings still to come. -/
theorem generate_synchronous (slot : Nat → Nat) (p_entries : entries) (R C : Int) (M : Nat)
    (hfit : (grid.construct p_entries R C 0).isSome = true) :
    ∀ (k : Nat) (q : permutation) (a : assembler) (log : List event),
      a.m_shared = ⟨false, [⟨false⟩], none, a.m_permutation_counter⟩ →
      a.m_permutation_counter + k = M → (∀ e ∈ q, e ∈ p_entries) →
      (generate (dispatcher.synchronous 1 slot (fun _ => false)) R C M k q a log).1 = false ∧
      finish (generate (dispatcher.synchronous 1 slot (fun _ => false)) R C M k q a log).2.1
        = first_success (grids_of R C (a.m_permutation_counter + 1) (orderings k q)) := by
  intro k
  induction k with
  | zero =>
    intro q a log ha _ _
    simp [generate, finish, ha, orderings, grids_of, first_success]
  | succ k ih =>
    intro q a log ha h hq
    have hne : a.m_permutation_counter ≠ M := by omega
    have hc := grid.construct_isSome_of_subset p_entries q.reverse R C 0
      (a.m_permutation_counter + 1) (fun e he => hq e (List.mem_reverse.1 he)) hfit
    have hs : a.m_shared.m_stop = false := by rw [ha]
    have hv : a.m_shared.m_solved = none := by rw [ha]
    have hatt : (dispatcher.synchronous 1 slot (fun _ => false)).publish_new_attempt
        (a.m_permutation_counter + 1) a.m_shared = a.m_shared := by
      simp [dispatcher.synchronous]
    have hjob : (dispatcher.synchronous 1 slot (fun _ => false)).publish_new_grid_to_organize
        (grid.constructed q.reverse R C (a.m_permutation_counter + 1)) a.m_shared =
        if (organizer.call ⟨false⟩
          (grid.constructed q.reverse R C (a.m_permutation_counter + 1))).1 = true then
          ⟨false, [⟨true⟩], some (organizer.call ⟨false⟩
            (grid.constructed q.reverse R C (a.m_permutation_counter + 1))).2.2,
            a.m_permutation_counter + 1⟩
        else ⟨false, [⟨false⟩], none, a.m_permutation_counter + 1⟩ := by
      rw [ha]
      exact synchronous_job slot _ _ _
    unfold generate
    simp only [hs, hv, hne, Bool.false_eq_true, if_false, Option.isSome_none, hc, hatt, hjob]
    rw [orderings, grids_of, first_success_cons]
    by_cases hok : (organizer.call ⟨false⟩
        (grid.constructed q.reverse R C (a.m_permutation_counter + 1))).1 = true
    · simp only [hok, if_true]
      rw [generate_solved _ _ _ _ _ _ _ _ (by rfl)]
      simp [finish]
    · simp only [hok, if_false]
      exact ih _ _ _ rfl (by simp only; omega)
        (fun e he => hq e (mem_of_mem_next_permutation _ _ _ he))

/-- C3, as amended: with one worker, every job organized to completion before the
next ordering is generated, and no stop requested, for at most 20 entries none
of which is longer than both dimensions (the grid of the entries can be
constructed), `start` on a newly constructed assembler returns the grid of the
first ordering, in submission order among the first `min(n!, max_attempts)`
orderings, on which the organizer succeeds, and no solution when there is none. -/
theorem start_returns_first_success (slot : Nat → Nat) (p_entries : entries) (R C : Int)
    (p_max_tries : Nat) (hn : p_entries.length ≤ 20)
    (hfit : (grid.construct p_entries R C 0).isSome = true) :
    (start (dispatcher.synchronous 1 slot (fun _ => false)) fresh p_entries R C 1
        p_max_tries).1 = first_success (submitted p_entries R C p_max_tries) := by
  have hM := max_permutations_small p_entries p_max_tries hn
  obtain ⟨h1, h2⟩ := generate_synchronous slot p_entries R C
    (max_permutations p_entries p_max_tries) hfit
    (max_permutations p_entries p_max_tries) (sort_entries p_entries)
    (configured fresh p_entries 1) [] rfl (Nat.zero_add _)
    (fun e he => (mem_sort_entries e p_entries).1 he)
  rw [start_fst, h1]
  simp only [Bool.false_eq_true, if_false]
  rw [h2]
  unfold submitted
  rw [← hM]
  rfl

/-- A job with a grid of one word, delivered to any of the workers of a newly
configured assembler: the organization is counted as finished, nothing else
changes but the slot of the organizer, written back as it was. -/
theorem synchronous_job_one_word (N : Nat) (slot : Nat → Nat) (hook : Nat → Bool) (hN : 0 < N)
    (g : grid) (l : layout) (hg : g.m_layouts = [l]) (st : Bool) (f : Nat) :
    (dispatcher.synchronous N slot hook).publish_new_grid_to_organize g
        ⟨st, List.replicate N ⟨false⟩, none, f⟩ =
      ⟨st, (List.replicate N ⟨false⟩).set (slot g.m_permutation_number % N) ⟨false⟩, none,
        f + 1⟩ := by
  have hi : slot g.m_permutation_number % N < N := Nat.mod_lt _ hN
  have hget : (List.replicate N (⟨false⟩ : organizer)).get? (slot g.m_permutation_number % N)
      = some ⟨false⟩ := by
    rw [List.get?_eq_getElem?, List.getElem?_replicate]
    simp [hi]
  have hN0 : N ≠ 0 := by omega
  simp only [dispatcher.synchronous, hN0, if_false, handle_new_grid_to_organize, hget,
    organizer.call_one_word _ g l hg, Bool.false_eq_true, handle_assembly_finished]

/-- C10: on a grid with exactly one word, whatever its dimensions, every call of an
organizer returns false and changes nothing; so a search over one entry, for
a word the grid can be constructed with, returns no solution with any number of
workers (at least one), any choice of the worker, and whether or not a stop is
requested at some attempt. -/
theorem one_word_no_solution :
    (∀ (o : organizer) (g : grid) (l : layout), g.m_layouts = [l] → o.call g = (false, o, g)) ∧
    (∀ (e : entry) (R C : Int) (N : Nat) (slot : Nat → Nat) (hook : Nat → Bool)
      (p_max_tries : Nat), 0 < N → (grid.construct [e] R C 0).isSome = true →
      (start (dispatcher.synchronous N slot hook) fresh [e] R C N p_max_tries).1
        = outcome.no_solution) := by
  refine ⟨fun o g l h => organizer.call_one_word o g l h, ?_⟩
  intro e R C N slot hook p_max_tries hN hfit
  have hM := max_permutations_small [e] p_max_tries
    (by simp only [List.length_singleton]; omega)
  have hc := grid.construct_isSome_of_subset [e] [e].reverse R C 0 1
    (fun x hx => List.mem_reverse.1 hx) hfit
  have hsort : sort_entries [e] = [e] := rfl
  rw [start_fst, hsort]
  rcases Nat.eq_zero_or_pos p_max_tries with h0 | hpos
  · have hM0 : max_permutations [e] p_max_tries = 0 := by rw [hM, h0]; rfl
    rw [hM0]
    simp [generate, finish, configured, fresh]
  · obtain ⟨m, hm, hm0⟩ : ∃ m, max_permutations [e] p_max_tries = m + 1 ∧ m = 0 := by
      refine ⟨0, ?_, rfl⟩
      rw [hM]
      have : ([e] : entries).length.factorial = 1 := rfl
      rw [this]
      omega
    rw [hm]
    have hc : grid.construct [e].reverse R C 1 = some (grid.constructed [e] R C 1) := hc
    have hjob := synchronous_job_one_word N slot hook hN (grid.constructed [e] R C 1)
      (layout.of_entry e) rfl
    have hstep := generate_step (dispatcher.synchronous N slot hook) R C (m + 1) m [e]
      (configured fresh [e] N) [] rfl (by rw [hm0]; exact Nat.zero_ne_one) rfl _ hc
    rw [hstep, hm0]
    have hzero : ∀ (M : Nat) (q : permutation) (a : assembler) (log : List event),
        generate (dispatcher.synchronous N slot hook) R C M 0 q a log = (false, a, log) :=
      fun _ _ _ _ => rfl
    rw [hzero]
    have hatt : ∀ sh : shared, (dispatcher.synchronous N slot hook).publish_new_attempt 1 sh =
        if hook 1 = true then { sh with m_stop := true } else sh := fun _ => rfl
    have h4 : (configured fresh [e] N).m_shared = ⟨false, List.replicate N ⟨false⟩, none, 0⟩ := rfl
    have h3 : (configured fresh [e] N).m_permutation_counter = 0 := rfl
    simp only [h3, h4, Nat.zero_add, hatt, Bool.false_eq_true, if_false]
    by_cases hh : hook 1 = true
    · simp only [hh, if_true, hjob]
      simp [finish]
    · simp only [hh, Bool.false_eq_true, if_false, hjob]
      simp [finish]

end assembler

/-! ## `find_intersections`: the pairs it returns and their order -/

theorem mem_indices (n i : Int) : i ∈ indices n ↔ 0 ≤ i ∧ i < n := by
  unfold indices
  constructor
  · intro h
    obtain ⟨k, hk, rfl⟩ := List.mem_map.1 h
    have := List.mem_range.1 hk
    simp only [Int.ofNat_eq_coe]
    omega
  · intro ⟨h0, h1⟩
    exact List.mem_map.2 ⟨i.toNat, List.mem_range.2 (by omega), by simp [Int.toNat_of_nonneg h0]⟩

/-- The pairs `find_intersections` returns, for all words: the first component
runs below the size of the placed word, the second below the size of the word
to place, and the test reads the placed word at the second component. -/
theorem mem_find_intersections (w1 w2 : word) (x : coordinate) :
    x ∈ find_intersections false w1 w2 ↔
      (0 ≤ x.1 ∧ x.1 < get_size w1) ∧ (0 ≤ x.2 ∧ x.2 < get_size w2) ∧
        char_at w1 x.2.toNat = char_at w2 x.1.toNat := by
  unfold find_intersections
  simp only [Bool.false_eq_true, if_false]
  constructor
  · intro hx
    obtain ⟨i2, hi2, hx2⟩ := List.mem_flatMap.1 hx
    obtain ⟨i1, hi1, hx1⟩ := List.mem_filterMap.1 hx2
    split at hx1
    · rename_i heq
      injection hx1 with hx1
      subst hx1
      exact ⟨(mem_indices _ _).1 hi1, (mem_indices _ _).1 hi2, heq⟩
    · simp at hx1
  · intro ⟨h1, h2, h3⟩
    refine List.mem_flatMap.2 ⟨x.2, (mem_indices _ _).2 h2, ?_⟩
    refine List.mem_filterMap.2 ⟨x.1, (mem_indices _ _).2 h1, ?_⟩
    rw [if_pos h3]

theorem pairwise_lt_indices (n : Int) : (indices n).Pairwise (fun a b => a < b) := by
  unfold indices
  exact (List.pairwise_lt_range _).map _ (fun a b h => Int.ofNat_lt.2 h)

theorem get_size_le (w : word) : get_size w ≤ w.data.length := by
  have h := to_index_le (w.length : Int) (by omega)
  have h3 : w.length = w.data.length := rfl
  unfold get_size
  omega

/-- For words without NUL a returned pair indexes a letter of each word, and
the two letters are the same. -/
theorem find_intersections_letters (p : Bool) (placed to_place : word)
    (h1 : Char.ofNat 0 ∉ placed.data) (h2 : Char.ofNat 0 ∉ to_place.data)
    (x : coordinate) (hx : x ∈ find_intersections p placed to_place) :
    ∃ i j : Nat, x = ((i : Int), (j : Int)) ∧ i < to_place.data.length ∧
      j < placed.data.length ∧ to_place.data.get? i = placed.data.get? j := by
  cases p with
  | true => simp [find_intersections] at hx
  | false =>
    obtain ⟨⟨a0, a1⟩, ⟨b0, b1⟩, heq⟩ := (mem_find_intersections _ _ _).1 hx
    have ha := get_size_le placed
    have hb := get_size_le to_place
    obtain ⟨a, b⟩ := x
    simp only at a0 a1 b0 b1 heq
    obtain ⟨i, rfl⟩ := Int.eq_ofNat_of_zero_le a0
    obtain ⟨j, rfl⟩ := Int.eq_ofNat_of_zero_le b0
    simp only [Int.toNat_ofNat] at heq
    have hi : i < placed.data.length := by omega
    have hj : j < to_place.data.length := by omega
    have hj1 : j < placed.data.length := by
      by_contra hc
      rw [char_at_outside placed j (by omega)] at heq
      by_cases hin : i < to_place.data.length
      · exact h2 (heq ▸ char_at_mem to_place i hin)
      · omega
    have hi1 : i < to_place.data.length := by
      by_contra hc
      rw [char_at_outside to_place i (by omega)] at heq
      exact h1 (heq ▸ char_at_mem placed j hj1)
    refine ⟨i, j, rfl, hi1, hj1, ?_⟩
    unfold char_at at heq
    rw [List.getD_eq_getElem _ _ hj1, List.getD_eq_getElem _ _ hi1] at heq
    rw [List.get?_eq_get hi1, List.get?_eq_get hj1]
    simp [heq]

/-- C11: for words without NUL, every pair (i, j) that `find_intersections`
returns has i below the length of the word to place, j below the length of the
placed word and the same letter at the two positions; the result is empty when
the words have no character in common. -/
theorem find_intersections_sound (p : Bool) (placed to_place : word)
    (h1 : Char.ofNat 0 ∉ placed.data) (h2 : Char.ofNat 0 ∉ to_place.data) :
    (∀ x ∈ find_intersections p placed to_place,
      ∃ i j : Nat, x = ((i : Int), (j : Int)) ∧ i < to_place.data.length ∧
        j < placed.data.length ∧ to_place.data.get? i = placed.data.get? j) ∧
    ((∀ c ∈ placed.data, c ∉ to_place.data) → find_intersections p placed to_place = []) :=
  ⟨fun x hx => find_intersections_letters p placed to_place h1 h2 x hx,
   fun h => find_intersections_eq_nil p placed to_place h1 h2 h⟩

/-- C13, as the code has it: the pairs come in ascending order of the index in
the placed word (the second component), and for the same index in the placed
word in ascending order of the index in the word to place. -/
theorem find_intersections_order (p : Bool) (placed to_place : word) :
    (find_intersections p placed to_place).Pairwise
      (fun a b => a.2 < b.2 ∨ (a.2 = b.2 ∧ a.1 < b.1)) := by
  unfold find_intersections
  dsimp only
  split
  · exact List.Pairwise.nil
  · rw [List.pairwise_flatMap]
    constructor
    · intro i2 _
      refine List.Pairwise.filterMap _ ?_ (pairwise_lt_indices _)
      intro a a1 hlt b hb b1 hb1
      simp only [Option.mem_def] at hb hb1
      split at hb
      · split at hb1
        · injection hb with hb
          injection hb1 with hb1
          subst hb
          subst hb1
          exact Or.inr ⟨rfl, hlt⟩
        · simp at hb1
      · simp at hb
    · refine (pairwise_lt_indices _).imp ?_
      intro a b hlt x hx y hy
      obtain ⟨i1, _, hx1⟩ := List.mem_filterMap.1 hx
      obtain ⟨j1, _, hy1⟩ := List.mem_filterMap.1 hy
      split at hx1
      · split at hy1
        · injection hx1 with hx1
          injection hy1 with hy1
          subst hx1
          subst hy1
          exact Or.inl hlt
        · simp at hy1
      · simp at hx1

/-! ## The two positioners -/

theorem to_index_of_fits (z : Int) (h0 : -32768 ≤ z) (h1 : z ≤ 32767) : to_index z = z := by
  show ((z + 32768) % 65536 - 32768 : Int) = z
  omega

theorem letter_cell_read (g : grid) (p_vert : Bool) (r c : Int) (n : Nat)
    (h0 : 0 ≤ (if p_vert then r else c)) (h1 : (if p_vert then r else c) + n ≤ 32767) :
    (if p_vert then g.is_occupied (to_index (r + n)) c else g.is_occupied r (to_index (c + n)))
      = g.is_occupied (letter_cell p_vert r c n).1 (letter_cell p_vert r c n).2 := by
  cases p_vert
  · simp only [Bool.false_eq_true, if_false] at h0 h1
    simp only [letter_cell, Bool.false_eq_true, if_false]
    rw [to_index_of_fits _ (by omega) (by omega)]
  · simp only [if_true] at h0 h1
    simp only [letter_cell, if_true]
    rw [to_index_of_fits _ (by omega) (by omega)]

theorem letters_fit_cons (g : grid) (p_vert : Bool) (r c : Int) (ch : Char) (rest : List Char)
    (n : Nat) (h0 : 0 ≤ (if p_vert then r else c))
    (h1 : (if p_vert then r else c) + n + 1 ≤ 32767) :
    (letters_fit g p_vert r c (ch :: rest) n = true ↔
      cell_allows g p_vert r c n ch ∧ letters_fit g p_vert r c rest ((n + 1 : Nat) : Int) = true) := by
  have hc1 : to_index ((n : Int) + 1) = ((n + 1 : Nat) : Int) := by
    rw [to_index_of_fits _ (by omega) (by omega)]
    omega
  rw [letters_fit]
  rw [letter_cell_read g p_vert r c n h0 (by omega), hc1]
  unfold cell_allows
  cases g.is_occupied (letter_cell p_vert r c n).1 (letter_cell p_vert r c n).2 with
  | none => simp
  | some v =>
    by_cases hv : v = ch
    · simp [hv]
    · simp [hv]

theorem letters_fit_iff (g : grid) (p_vert : Bool) (r c : Int)
    (h0 : 0 ≤ (if p_vert then r else c)) :
    ∀ (chars : List Char) (n : Nat),
      (if p_vert then r else c) + n + chars.length ≤ 32767 →
      (letters_fit g p_vert r c chars n = true ↔
        ∀ k : Nat, k < chars.length →
          cell_allows g p_vert r c (n + k) (chars.getD k (Char.ofNat 0))) := by
  intro chars
  induction chars with
  | nil => intro n _; simp [letters_fit]
  | cons ch rest ih =>
    intro n hn
    simp only [List.length_cons] at hn
    rw [letters_fit_cons g p_vert r c ch rest n h0 (by omega), ih (n + 1) (by omega)]
    constructor
    · intro ⟨ha, hb⟩ k hk
      cases k with
      | zero => exact ha
      | succ k =>
        have h2 := hb k (by simp only [List.length_cons] at hk; omega)
        have h3 : n + 1 + k = n + (k + 1) := by omega
        rw [h3] at h2
        exact h2
    · intro h
      refine ⟨h 0 (by simp), ?_⟩
      intro k hk
      have h2 := h (k + 1) (by simp only [List.length_cons]; omega)
      have h3 : n + 1 + k = n + (k + 1) := by omega
      rw [h3]
      exact h2

theorem letter_cell_write (m : occupied) (p_vert : Bool) (r c : Int) (n : Nat) (ch : Char)
    (h0 : 0 ≤ (if p_vert then r else c)) (h1 : (if p_vert then r else c) + n ≤ 32767) :
    (if p_vert then m.put (to_index (r + n)) c ch else m.put r (to_index (c + n)) ch)
      = m.put (letter_cell p_vert r c n).1 (letter_cell p_vert r c n).2 ch := by
  cases p_vert
  · simp only [Bool.false_eq_true, if_false] at h0 h1
    simp only [letter_cell, Bool.false_eq_true, if_false]
    rw [to_index_of_fits _ (by omega) (by omega)]
  · simp only [if_true] at h0 h1
    simp only [letter_cell, if_true]
    rw [to_index_of_fits _ (by omega) (by omega)]

theorem letter_cell_inj (p_vert : Bool) (r c : Int) (a b : Nat)
    (h : letter_cell p_vert r c a = letter_cell p_vert r c b) : a = b := by
  cases p_vert
  · simp only [letter_cell, Bool.false_eq_true, if_false, Prod.mk.injEq] at h
    omega
  · simp only [letter_cell, if_true, Prod.mk.injEq] at h
    omega

theorem matrix.get_put (m : matrix) (r c x y : Int) (ch : Char) :
    (m.put r c ch).get x y = if x = r ∧ y = c then ch else m.get x y := rfl

/-- The loop of `grid::occupy` writes letter `k` into the cell of letter `k` and
leaves every other cell alone, as long as the running coordinate stays in the
range of `index`. -/
theorem occupy_chars_get (p_vert : Bool) (r c : Int) (h0 : 0 ≤ (if p_vert then r else c)) :
    ∀ (chars : List Char) (n : Nat) (m : occupied),
      (if p_vert then r else c) + n + chars.length ≤ 32767 →
      (∀ k : Nat, k < chars.length →
        (grid.occupy_chars p_vert r c chars n m).get (letter_cell p_vert r c (n + k)).1
          (letter_cell p_vert r c (n + k)).2 = chars.getD k (Char.ofNat 0)) ∧
      (∀ x y : Int, (∀ k : Nat, k < chars.length → (x, y) ≠ letter_cell p_vert r c (n + k)) →
        (grid.occupy_chars p_vert r c chars n m).get x y = m.get x y) := by
  intro chars
  induction chars with
  | nil =>
    intro n m _
    exact ⟨fun k hk => absurd hk (by simp), fun x y _ => rfl⟩
  | cons ch rest ih =>
    intro n m hn
    simp only [List.length_cons] at hn
    have hc1 : to_index ((n : Int) + 1) = ((n + 1 : Nat) : Int) := by
      rw [to_index_of_fits _ (by omega) (by omega)]
      omega
    rw [grid.occupy_chars, letter_cell_write m p_vert r c n ch h0 (by omega), hc1]
    obtain ⟨ih1, ih2⟩ := ih (n + 1)
      (m.put (letter_cell p_vert r c n).1 (letter_cell p_vert r c n).2 ch) (by omega)
    constructor
    · intro k hk
      cases k with
      | zero =>
        have h5 := ih2 (letter_cell p_vert r c n).1 (letter_cell p_vert r c n).2
          (fun k _ heq => by
            have h6 := letter_cell_inj p_vert r c n (n + 1 + k) heq
            omega)
        show matrix.get _ (letter_cell p_vert r c n).1 (letter_cell p_vert r c n).2 = ch
        rw [h5, matrix.get_put]
        simp
      | succ k =>
        have h2 := ih1 k (by simp only [List.length_cons] at hk; omega)
        have h3 : n + 1 + k = n + (k + 1) := by omega
        rw [h3] at h2
        simpa using h2
    · intro x y hxy
      rw [ih2 x y (fun k hk => by
        have h2 := hxy (k + 1) (by simp only [List.length_cons]; omega)
        have h3 : n + 1 + k = n + (k + 1) := by omega
        rw [h3]
        exact h2), matrix.get_put]
      have h4 := hxy 0 (by simp)
      rw [Nat.add_zero] at h4
      rw [if_neg]
      intro ⟨hx, hy⟩
      exact h4 (Prod.ext hx hy)

theorem grid.set_eq (g : grid) (t : Nat) (l : layout) (h : g.m_layouts.get? t = some l)
    (r c : Int) (o : orientation) :
    g.set t r c o =
      { g with
        m_layouts := g.m_layouts.set t ⟨l.m_entry, r, c, o⟩
        m_occupied := grid.occupy_chars (o == orientation.vert) r c l.get_word.data 0 g.m_occupied } := by
  unfold grid.set
  rw [h]
  rfl

/-- What `grid::set` does, for a position whose cells are in the range of `index`. -/
theorem committed_set (g : grid) (t : Nat) (l : layout) (h : g.m_layouts.get? t = some l)
    (r c : Int) (o : orientation)
    (h0 : 0 ≤ (if (o == orientation.vert) = true then r else c))
    (h1 : (if (o == orientation.vert) = true then r else c) + l.get_word.length ≤ 32767) :
    committed g (g.set t r c o) t r c o := by
  rw [grid.set_eq g t l h]
  have hlen : l.get_word.length = l.get_word.data.length := rfl
  obtain ⟨hc1, hc2⟩ := occupy_chars_get (o == orientation.vert) r c h0 l.get_word.data 0
    g.m_occupied (by rw [hlen] at h1; simpa using h1)
  simp only [Nat.zero_add, Nat.cast_zero] at hc1 hc2
  have hlt : t < g.m_layouts.length := by
    rcases Nat.lt_or_ge t g.m_layouts.length with h2 | h2
    · exact h2
    · rw [List.get?_eq_none.2 h2] at h
      cases h
  refine ⟨rfl, rfl, ?_, l, h, ?_, ?_, ?_⟩
  · intro n hn
    rw [List.get?_eq_getElem?, List.get?_eq_getElem?]
    exact List.getElem?_set_ne (Ne.symm hn)
  · rw [List.get?_eq_getElem?]
    exact List.getElem?_set_self hlt
  · intro k hk
    exact hc1 k hk
  · intro x y hxy
    exact hc2 x y hxy

theorem letters_fit_iff_cells_allow (g : grid) (p_vert : Bool) (r c : Int) (w : word)
    (h0 : 0 ≤ (if p_vert then r else c))
    (h1 : (if p_vert then r else c) + w.length ≤ 32767) :
    letters_fit g p_vert r c w.data 0 = true ↔ cells_allow g p_vert r c w := by
  have hlen : w.length = w.data.length := rfl
  have h := letters_fit_iff g p_vert r c h0 w.data 0 (by rw [hlen] at h1; simpa using h1)
  simp only [Nat.cast_zero, Nat.zero_add] at h
  exact h

/-- The function `position_horizontally` when the coordinates it computes are in
the range of `index`. -/
theorem position_horizontally_eq (g : grid) (i j : Int) (p t : Nat) (placed to_place : layout)
    (hp : g.m_layouts.get? p = some placed) (ht : g.m_layouts.get? t = some to_place)
    (hr : -32768 ≤ placed.m_row + j ∧ placed.m_row + j ≤ 32767)
    (hc : -32768 ≤ placed.m_col - i ∧ placed.m_col - i ≤ 32767)
    (he : placed.m_col - i + to_place.get_word.length ≤ 32767) :
    position_horizontally g (i, j) p t =
      if 0 ≤ placed.m_col - i ∧ placed.m_col - i + to_place.get_word.length ≤ g.m_num_cols ∧
          letters_fit g false (placed.m_row + j) (placed.m_col - i) to_place.get_word.data 0 = true
      then (true, g.set t (placed.m_row + j) (placed.m_col - i) orientation.hori)
      else (false, g) := by
  unfold position_horizontally
  rw [hp, ht]
  simp only [layout.get_row, layout.get_col, grid.get_num_cols]
  rw [to_index_of_fits _ hr.1 hr.2, to_index_of_fits _ hc.1 hc.2]
  by_cases hneg : placed.m_col - i < 0
  · rw [if_pos hneg, if_neg (fun h => absurd h.1 (by omega))]
  · rw [if_neg hneg, get_size_of_small _ (by omega), to_index_of_fits _ (by omega) he]
    by_cases hend : placed.m_col - i + to_place.get_word.length > g.m_num_cols
    · rw [if_pos hend, if_neg (fun h => absurd h.2.1 (by omega))]
    · rw [if_neg hend]
      by_cases hfit : letters_fit g false (placed.m_row + j) (placed.m_col - i)
          to_place.get_word.data 0 = true
      · rw [if_pos hfit, if_pos ⟨by omega, by omega, hfit⟩]
      · rw [if_neg hfit, if_neg (fun h => hfit h.2.2)]

/-- The function `position_vertically` when the coordinates it computes are in
the range of `index`. -/
theorem position_vertically_eq (g : grid) (i j : Int) (p t : Nat) (placed to_place : layout)
    (hp : g.m_layouts.get? p = some placed) (ht : g.m_layouts.get? t = some to_place)
    (hr : -32768 ≤ placed.m_row - i ∧ placed.m_row - i ≤ 32767)
    (hc : -32768 ≤ placed.m_col + j ∧ placed.m_col + j ≤ 32767)
    (he : placed.m_row - i + to_place.get_word.length ≤ 32767) :
    position_vertically g (i, j) p t =
      if 0 ≤ placed.m_row - i ∧ placed.m_row - i + to_place.get_word.length ≤ g.m_num_rows ∧
          letters_fit g true (placed.m_row - i) (placed.m_col + j) to_place.get_word.data 0 = true
      then (true, g.set t (placed.m_row - i) (placed.m_col + j) orientation.vert)
      else (false, g) := by
  unfold position_vertically
  rw [hp, ht]
  simp only [layout.get_row, layout.get_col, grid.get_num_rows]
  rw [to_index_of_fits _ hr.1 hr.2, to_index_of_fits _ hc.1 hc.2]
  by_cases hneg : placed.m_row - i < 0
  · rw [if_pos hneg, if_neg (fun h => absurd h.1 (by omega))]
  · rw [if_neg hneg, get_size_of_small _ (by omega), to_index_of_fits _ (by omega) he]
    by_cases hend : placed.m_row - i + to_place.get_word.length > g.m_num_rows
    · rw [if_pos hend, if_neg (fun h => absurd h.2.1 (by omega))]
    · rw [if_neg hend]
      by_cases hfit : letters_fit g true (placed.m_row - i) (placed.m_col + j)
          to_place.get_word.data 0 = true
      · rw [if_pos hfit, if_pos ⟨by omega, by omega, hfit⟩]
      · rw [if_neg hfit, if_neg (fun h => hfit h.2.2)]

/-- C14: `position_horizontally` through the pair (i, j), with r = pr + j and
c = pc - i (and these coordinates and the end c + length in the range of
`index`), returns true exactly when c >= 0, c + length <= number of columns and
every cell (r, c + k) of the word is empty or holds its letter k; on true the
word is committed horizontally at (r, c), all its letters in the occupancy map;
on false the grid is unchanged. -/
theorem position_horizontally_spec (g : grid) (i j : Int) (p t : Nat)
    (placed to_place : layout)
    (hp : g.m_layouts.get? p = some placed) (ht : g.m_layouts.get? t = some to_place)
    (hr : -32768 ≤ placed.m_row + j ∧ placed.m_row + j ≤ 32767)
    (hc : -32768 ≤ placed.m_col - i ∧ placed.m_col - i ≤ 32767)
    (he : placed.m_col - i + to_place.get_word.length ≤ 32767) :
    ((position_horizontally g (i, j) p t).1 = true ↔
      0 ≤ placed.m_col - i ∧ placed.m_col - i + to_place.get_word.length ≤ g.m_num_cols ∧
      cells_allow g false (placed.m_row + j) (placed.m_col - i) to_place.get_word) ∧
    ((position_horizontally g (i, j) p t).1 = true →
      committed g (position_horizontally g (i, j) p t).2 t (placed.m_row + j) (placed.m_col - i)
        orientation.hori) ∧
    ((position_horizontally g (i, j) p t).1 = false → (position_horizontally g (i, j) p t).2 = g) := by
  rw [position_horizontally_eq g i j p t placed to_place hp ht hr hc he]
  by_cases hcond : 0 ≤ placed.m_col - i ∧
      placed.m_col - i + to_place.get_word.length ≤ g.m_num_cols ∧
      letters_fit g false (placed.m_row + j) (placed.m_col - i) to_place.get_word.data 0 = true
  · rw [if_pos hcond]
    refine ⟨⟨fun _ => ⟨hcond.1, hcond.2.1, ?_⟩, fun _ => rfl⟩, fun _ => ?_, fun h => ?_⟩
    · exact (letters_fit_iff_cells_allow g false _ _ _ hcond.1 he).1 hcond.2.2
    · exact committed_set g t to_place ht _ _ _ hcond.1 he
    · cases h
  · rw [if_neg hcond]
    refine ⟨⟨fun h => ?_, fun h => ?_⟩, fun h => ?_, fun _ => rfl⟩
    · cases h
    · exact absurd ⟨h.1, h.2.1, (letters_fit_iff_cells_allow g false _ _ _ h.1 he).2 h.2.2⟩ hcond
    · cases h

/-- C15: `position_vertically` through the pair (i, j), with r = pr - i and
c = pc + j (and these coordinates and the end r + length in the range of
`index`), returns true exactly when r >= 0, r + length <= number of rows and
every cell (r + k, c) of the word is empty or holds its letter k; on true the
word is committed vertically at (r, c), all its letters in the occupancy map; on
false the grid is unchanged. -/
theorem position_vertically_spec (g : grid) (i j : Int) (p t : Nat)
    (placed to_place : layout)
    (hp : g.m_layouts.get? p = some placed) (ht : g.m_layouts.get? t = some to_place)
    (hr : -32768 ≤ placed.m_row - i ∧ placed.m_row - i ≤ 32767)
    (hc : -32768 ≤ placed.m_col + j ∧ placed.m_col + j ≤ 32767)
    (he : placed.m_row - i + to_place.get_word.length ≤ 32767) :
    ((position_vertically g (i, j) p t).1 = true ↔
      0 ≤ placed.m_row - i ∧ placed.m_row - i + to_place.get_word.length ≤ g.m_num_rows ∧
      cells_allow g true (placed.m_row - i) (placed.m_col + j) to_place.get_word) ∧
    ((position_vertically g (i, j) p t).1 = true →
      committed g (position_vertically g (i, j) p t).2 t (placed.m_row - i) (placed.m_col + j)
        orientation.vert) ∧
    ((position_vertically g (i, j) p t).1 = false → (position_vertically g (i, j) p t).2 = g) := by
  rw [position_vertically_eq g i j p t placed to_place hp ht hr hc he]
  by_cases hcond : 0 ≤ placed.m_row - i ∧
      placed.m_row - i + to_place.get_word.length ≤ g.m_num_rows ∧
      letters_fit g true (placed.m_row - i) (placed.m_col + j) to_place.get_word.data 0 = true
  · rw [if_pos hcond]
    refine ⟨⟨fun _ => ⟨hcond.1, hcond.2.1, ?_⟩, fun _ => rfl⟩, fun _ => ?_, fun h => ?_⟩
    · exact (letters_fit_iff_cells_allow g true _ _ _ hcond.1 he).1 hcond.2.2
    · exact committed_set g t to_place ht _ _ _ hcond.1 he
    · cases h
  · rw [if_neg hcond]
    refine ⟨⟨fun h => ?_, fun h => ?_⟩, fun h => ?_, fun _ => rfl⟩
    · cases h
    · exact absurd ⟨h.1, h.2.1, (letters_fit_iff_cells_allow g true _ _ _ h.1 he).2 h.2.2⟩ hcond
    · cases h

/-! ## `position`: the pairs in their order, the first accepted one -/

theorem position_horizontally_false (g : grid) (x : coordinate) (p t : Nat)
    (h : (position_horizontally g x p t).1 = false) : (position_horizontally g x p t).2 = g := by
  revert h
  unfold position_horizontally
  split
  · dsimp only
    split
    · intro _; rfl
    · split
      · intro _; rfl
      · split
        · intro h; cases h
        · intro _; rfl
  · intro _; rfl

theorem position_vertically_false (g : grid) (x : coordinate) (p t : Nat)
    (h : (position_vertically g x p t).1 = false) : (position_vertically g x p t).2 = g := by
  revert h
  unfold position_vertically
  split
  · dsimp only
    split
    · intro _; rfl
    · split
      · intro _; rfl
      · split
        · intro h; cases h
        · intro _; rfl
  · intro _; rfl

theorem position_first_eq (f : grid → coordinate → Bool × grid)
    (hf : ∀ g x, (f g x).1 = false → (f g x).2 = g) :
    ∀ (xs : coordinates) (g : grid), position_first f xs g = first_accepted (f g) xs g := by
  intro xs
  induction xs with
  | nil => intro g; rfl
  | cons x xs ih =>
    intro g
    unfold position_first first_accepted
    have h1 := hf g x
    cases hfx : f g x with
    | mk b g1 =>
      rw [hfx] at h1
      cases b with
      | true =>
        rw [List.find?_cons_of_pos _ (by simp [hfx])]
        simp only [hfx]
      | false =>
        have h2 : g1 = g := h1 rfl
        subst h2
        rw [List.find?_cons_of_neg _ (by simp [hfx])]
        simp only
        rw [ih g1]
        rfl

theorem first_accepted_true (f : coordinate → Bool × grid) (xs : coordinates) (g : grid)
    (h : (first_accepted f xs g).1 = true) :
    ∃ x ∈ xs, (f x).1 = true ∧ first_accepted f xs g = f x := by
  unfold first_accepted at h ⊢
  cases hfind : xs.find? (fun x => (f x).1) with
  | none => rw [hfind] at h; cases h
  | some x =>
    have h2 : (f x).1 = true := by
      have h3 := List.find?_some hfind
      simpa using h3
    exact ⟨x, List.mem_of_find?_eq_some hfind, h2, rfl⟩

theorem first_accepted_iff (f : coordinate → Bool × grid) (xs : coordinates) (g : grid) :
    (first_accepted f xs g).1 = true ↔ ∃ x ∈ xs, (f x).1 = true := by
  constructor
  · intro h
    obtain ⟨x, hx, hfx, _⟩ := first_accepted_true f xs g h
    exact ⟨x, hx, hfx⟩
  · intro ⟨x, hx, hfx⟩
    unfold first_accepted
    cases hfind : xs.find? (fun x => (f x).1) with
    | none =>
      have h1 := List.find?_eq_none.1 hfind x hx
      exact absurd hfx h1
    | some y =>
      have h3 := List.find?_some hfind
      show (f y).1 = true
      simpa using h3

theorem first_accepted_none (f : coordinate → Bool × grid) (xs : coordinates) (g : grid)
    (h : ∀ x ∈ xs, (f x).1 = false) : first_accepted f xs g = (false, g) := by
  unfold first_accepted
  rw [List.find?_eq_none.2 (fun x hx => by simp [h x hx])]

theorem position_eq_first_accepted (p_stop : Bool) (g : grid) (p t : Nat)
    (placed to_place : layout)
    (hp : g.m_layouts.get? p = some placed) (ht : g.m_layouts.get? t = some to_place)
    (hpos : placed.m_orientation ≠ orientation.undef) :
    position p_stop g p t = first_accepted (orthogonal_positioner placed.m_orientation g p t)
      (find_intersections p_stop placed.get_word to_place.get_word) g := by
  unfold position
  rw [hp, ht]
  simp only [layout.get_orientation]
  have ho : placed.m_orientation = orientation.hori ∨
      placed.m_orientation = orientation.vert := by
    revert hpos
    cases placed.m_orientation <;> simp
  rcases ho with ho | ho
  · rw [if_pos ho, congrArg (fun o => orthogonal_positioner o g p t) ho]
    exact position_first_eq _ (fun g x => position_vertically_false g x p t) _ _
  · rw [if_neg (by rw [ho]; simp), congrArg (fun o => orthogonal_positioner o g p t) ho]
    exact position_first_eq _ (fun g x => position_horizontally_false g x p t) _ _

/-- C18: `position` against a placed word tries the pairs of `find_intersections`
in their order with the orthogonal positioner: its result is that of the first
pair the positioner accepts, it returns true iff some pair is accepted, and when
every pair is rejected it returns false with the grid unchanged. -/
theorem position_tries_in_order (p_stop : Bool) (g : grid) (p t : Nat)
    (placed to_place : layout)
    (hp : g.m_layouts.get? p = some placed) (ht : g.m_layouts.get? t = some to_place)
    (hpos : placed.m_orientation ≠ orientation.undef) :
    position p_stop g p t = first_accepted (orthogonal_positioner placed.m_orientation g p t)
      (find_intersections p_stop placed.get_word to_place.get_word) g ∧
    ((position p_stop g p t).1 = true ↔
      ∃ x ∈ find_intersections p_stop placed.get_word to_place.get_word,
        (orthogonal_positioner placed.m_orientation g p t x).1 = true) ∧
    ((∀ x ∈ find_intersections p_stop placed.get_word to_place.get_word,
        (orthogonal_positioner placed.m_orientation g p t x).1 = false) →
      position p_stop g p t = (false, g)) := by
  rw [position_eq_first_accepted p_stop g p t placed to_place hp ht hpos]
  exact ⟨rfl, first_accepted_iff _ _ _, first_accepted_none _ _ _⟩

theorem get_size_le_max (w : word) : get_size w ≤ 32767 := by
  show ((w.length + 32768 : Int) % 65536 - 32768 : Int) ≤ 32767
  omega

/-- C16, as the code has it: against a horizontal placed word, `position` that
succeeds does so through a pair (i, j) of `find_intersections` and leaves the new
word vertical at row placed_row - i and column placed_col + j; a pair is
rejected when that row is negative or the row plus the length of the new word
exceeds the number of rows. -/
theorem position_against_horizontal (p_stop : Bool) (g : grid) (p t : Nat)
    (placed to_place : layout)
    (hp : g.m_layouts.get? p = some placed) (ht : g.m_layouts.get? t = some to_place)
    (hh : placed.m_orientation = orientation.hori)
    (h0 : 0 ≤ placed.m_row ∧ placed.m_row + to_place.get_word.length ≤ 32767)
    (h1 : 0 ≤ placed.m_col ∧ placed.m_col + to_place.get_word.length ≤ 32767) :
    ((position p_stop g p t).1 = true →
      ∃ i j : Int, (i, j) ∈ find_intersections p_stop placed.get_word to_place.get_word ∧
        position p_stop g p t = position_vertically g (i, j) p t ∧
        (position p_stop g p t).2.m_layouts.get? t
          = some ⟨to_place.m_entry, placed.m_row - i, placed.m_col + j, orientation.vert⟩) ∧
    (∀ i j : Int, (i, j) ∈ find_intersections p_stop placed.get_word to_place.get_word →
      placed.m_row - i < 0 ∨ placed.m_row - i + to_place.get_word.length > g.m_num_rows →
      position_vertically g (i, j) p t = (false, g)) := by
  have hrange : ∀ i j : Int,
      (i, j) ∈ find_intersections p_stop placed.get_word to_place.get_word →
      (-32768 ≤ placed.m_row - i ∧ placed.m_row - i ≤ 32767) ∧
      (-32768 ≤ placed.m_col + j ∧ placed.m_col + j ≤ 32767) ∧
      placed.m_row - i + to_place.get_word.length ≤ 32767 := by
    intro i j hx
    cases p_stop with
    | true => simp [find_intersections] at hx
    | false =>
      obtain ⟨⟨a0, a1⟩, ⟨b0, b1⟩, _⟩ := (mem_find_intersections _ _ _).1 hx
      simp only at a0 a1 b0 b1
      have ha := get_size_le_max placed.get_word
      have hb := get_size_le to_place.get_word
      have hlen : to_place.get_word.length = to_place.get_word.data.length := rfl
      omega
  constructor
  · intro htrue
    rw [position_eq_first_accepted p_stop g p t placed to_place hp ht (by rw [hh]; simp)] at htrue ⊢
    obtain ⟨x, hx, hfx, heq⟩ := first_accepted_true _ _ _ htrue
    obtain ⟨i, j⟩ := x
    obtain ⟨hr, hc, he⟩ := hrange i j hx
    rw [hh] at hfx heq
    refine ⟨i, j, hx, ?_, ?_⟩
    · rw [hh]; exact heq
    · rw [hh, heq]
      change (position_vertically g (i, j) p t).1 = true at hfx
      change (position_vertically g (i, j) p t).2.m_layouts.get? t = _
      rw [position_vertically_eq g i j p t placed to_place hp ht hr hc he] at hfx ⊢
      split at hfx
      · rename_i hcond
        rw [if_pos hcond]
        obtain ⟨_, _, _, l, hl, hl1, _⟩ := committed_set g t to_place ht (placed.m_row - i)
          (placed.m_col + j) orientation.vert hcond.1 he
        exact hl1.trans (by rw [ht] at hl; injection hl with hl; rw [hl])
      · cases hfx
  · intro i j hx hrej
    obtain ⟨hr, hc, he⟩ := hrange i j hx
    rw [position_vertically_eq g i j p t placed to_place hp ht hr hc he, if_neg]
    intro hcond
    omega

theorem intersections_in_range (p_stop : Bool) (placed to_place : layout) (i j : Int)
    (hx : (i, j) ∈ find_intersections p_stop placed.get_word to_place.get_word) :
    (0 ≤ i ∧ i ≤ 32767) ∧ (0 ≤ j ∧ j < to_place.get_word.length) := by
  cases p_stop with
  | true => simp [find_intersections] at hx
  | false =>
    obtain ⟨⟨a0, a1⟩, ⟨b0, b1⟩, _⟩ := (mem_find_intersections _ _ _).1 hx
    simp only at a0 a1 b0 b1
    have ha := get_size_le_max placed.get_word
    have hb := get_size_le to_place.get_word
    have hlen : to_place.get_word.length = to_place.get_word.data.length := rfl
    omega

/-- For words without NUL, a word that `position` places lies across the placed
word: through a pair (i, j) of equal letters, orthogonal to the placed word, its
letter i on the cell of letter j of the placed word. -/
theorem position_crosses (p_stop : Bool) (g : grid) (p t : Nat) (placed to_place : layout)
    (hp : g.m_layouts.get? p = some placed) (ht : g.m_layouts.get? t = some to_place)
    (hpos : placed.m_orientation ≠ orientation.undef)
    (hn1 : Char.ofNat 0 ∉ placed.get_word.data) (hn2 : Char.ofNat 0 ∉ to_place.get_word.data)
    (h0 : 0 ≤ placed.m_row ∧ placed.m_row + to_place.get_word.length ≤ 32767)
    (h1 : 0 ≤ placed.m_col ∧ placed.m_col + to_place.get_word.length ≤ 32767)
    (htrue : (position p_stop g p t).1 = true) :
    ∃ i j : Nat,
      ((i : Int), (j : Int)) ∈ find_intersections p_stop placed.get_word to_place.get_word ∧
      i < to_place.get_word.data.length ∧ j < placed.get_word.data.length ∧
      to_place.get_word.data.get? i = placed.get_word.data.get? j ∧
      ∃ l1 : layout, (position p_stop g p t).2.m_layouts.get? t = some l1 ∧
        l1.m_entry = to_place.m_entry ∧
        l1.m_orientation ≠ orientation.undef ∧ l1.m_orientation ≠ placed.m_orientation ∧
        letter_cell (l1.m_orientation == orientation.vert) l1.m_row l1.m_col i
          = letter_cell (placed.m_orientation == orientation.vert) placed.m_row placed.m_col j := by
  rw [position_eq_first_accepted p_stop g p t placed to_place hp ht hpos] at htrue ⊢
  obtain ⟨x, hx, hfx, heq⟩ := first_accepted_true _ _ _ htrue
  obtain ⟨i, j, rfl, hi, hj, hlet⟩ :=
    find_intersections_letters p_stop _ _ hn1 hn2 x hx
  obtain ⟨⟨_, hi1⟩, ⟨_, hj1⟩⟩ := intersections_in_range p_stop placed to_place i j hx
  refine ⟨i, j, hx, hi, hj, hlet, ?_⟩
  rw [heq]
  have ho : placed.m_orientation = orientation.hori ∨
      placed.m_orientation = orientation.vert := by
    revert hpos
    cases placed.m_orientation <;> simp
  rcases ho with ho | ho
  · rw [congrArg (fun o => orthogonal_positioner o g p t) ho] at hfx ⊢
    change (position_vertically g ((i : Int), (j : Int)) p t).1 = true at hfx
    change ∃ l1 : layout,
      (position_vertically g ((i : Int), (j : Int)) p t).2.m_layouts.get? t = some l1 ∧ _
    have he : placed.m_row - (i : Int) + to_place.get_word.length ≤ 32767 := by omega
    rw [position_vertically_eq g i j p t placed to_place hp ht ⟨by omega, by omega⟩
      ⟨by omega, by omega⟩ he] at hfx ⊢
    split at hfx
    · rename_i hcond
      rw [if_pos hcond]
      obtain ⟨_, _, _, l, hl, hl1, _⟩ := committed_set g t to_place ht (placed.m_row - i)
        (placed.m_col + j) orientation.vert hcond.1 he
      rw [ht] at hl
      injection hl with hl
      subst hl
      refine ⟨_, hl1, rfl, by simp, by rw [ho]; simp, ?_⟩
      rw [ho]
      simp [letter_cell]
    · cases hfx
  · rw [congrArg (fun o => orthogonal_positioner o g p t) ho] at hfx ⊢
    change (position_horizontally g ((i : Int), (j : Int)) p t).1 = true at hfx
    change ∃ l1 : layout,
      (position_horizontally g ((i : Int), (j : Int)) p t).2.m_layouts.get? t = some l1 ∧ _
    have he : placed.m_col - (i : Int) + to_place.get_word.length ≤ 32767 := by omega
    rw [position_horizontally_eq g i j p t placed to_place hp ht ⟨by omega, by omega⟩
      ⟨by omega, by omega⟩ he] at hfx ⊢
    split at hfx
    · rename_i hcond
      rw [if_pos hcond]
      obtain ⟨_, _, _, l, hl, hl1, _⟩ := committed_set g t to_place ht (placed.m_row + j)
        (placed.m_col - i) orientation.hori hcond.1 he
      rw [ht] at hl
      injection hl with hl
      subst hl
      refine ⟨_, hl1, rfl, by simp, by rw [ho]; simp, ?_⟩
      rw [ho]
      simp [letter_cell]
    · cases hfx

/-! ## The grid: `set`, `reset_positions` and the constructor -/

theorem occupy_chars_reset (p_vert : Bool) (r c : Int) :
    ∀ (chars : List Char) (n : Int) (m : occupied),
      (grid.occupy_chars p_vert r c chars n m).reset = m.reset := by
  intro chars
  induction chars with
  | nil => intro n m; rfl
  | cons ch rest ih =>
    intro n m
    rw [grid.occupy_chars, ih]
    cases p_vert <;> rfl

theorem map_set_same {β : Type} (f : layout → β) (ls : List layout) (k : Nat) (l l1 : layout)
    (h : ls.get? k = some l) (h1 : f l1 = f l) :
    (ls.set k l1).map f = ls.map f := by
  rw [List.map_set, h1]
  apply List.ext_getElem?
  intro n
  by_cases hn : k = n
  · subst hn
    rw [List.get?_eq_getElem?] at h
    have hlt : k < (ls.map f).length := by
      rw [List.length_map]
      rcases Nat.lt_or_ge k ls.length with h2 | h2
      · exact h2
      · rw [List.getElem?_eq_none h2] at h
        cases h
    rw [List.getElem?_set_self hlt, List.getElem?_map, h]
    rfl
  · rw [List.getElem?_set_ne hn]

/-- A `set` is undone by `reset_positions`. -/
theorem set_reset_positions (g : grid) (k : Nat) (r c : Int) (o : orientation) :
    (g.set k r c o).reset_positions = g.reset_positions := by
  cases hk : g.m_layouts.get? k with
  | none =>
    unfold grid.set
    rw [hk]
  | some l =>
    rw [grid.set_eq g k l hk]
    unfold grid.reset_positions
    simp only
    rw [occupy_chars_reset, map_set_same layout.reset g.m_layouts k l ⟨l.m_entry, r, c, o⟩ hk rfl]

theorem apply_sets_reset_positions (ops : List (Nat × Int × Int × orientation)) :
    ∀ g : grid, (apply_sets ops g).reset_positions = g.reset_positions := by
  induction ops with
  | nil => intro g; rfl
  | cons op ops ih =>
    intro g
    show (apply_sets ops (g.set op.1 op.2.1 op.2.2.1 op.2.2.2)).reset_positions = _
    rw [ih, set_reset_positions]

theorem constructed_reset_positions (p : permutation) (R C : Int) (n : Nat) :
    (grid.constructed p R C n).reset_positions = grid.constructed p R C n := by
  unfold grid.constructed grid.reset_positions
  simp only [List.map_map]
  rfl

theorem reset_positions_idem (g : grid) :
    g.reset_positions.reset_positions = g.reset_positions := by
  unfold grid.reset_positions
  simp only [List.map_map]
  rfl

theorem constructed_is_occupied (p : permutation) (R C : Int) (n : Nat) (r c : Int) :
    (grid.constructed p R C n).is_occupied r c = none := by
  rfl

theorem constructed_unplaced (p : permutation) (R C : Int) (n : Nat) :
    ∀ l ∈ (grid.constructed p R C n).m_layouts, l.is_positioned = false := by
  intro l hl
  obtain ⟨e, _, rfl⟩ := List.mem_map.1 hl
  rfl

/-- C27: after any sequence of `set` calls on a newly constructed grid,
`reset_positions` gives back the grid as it was constructed (same permutation,
dimensions and attempt number): every placement unplaced and `is_occupied`
none at every cell; and `reset_positions` of any grid is idempotent. -/
theorem reset_positions_restores (p : permutation) (R C : Int) (n : Nat)
    (ops : List (Nat × Int × Int × orientation)) :
    (apply_sets ops (grid.constructed p R C n)).reset_positions = grid.constructed p R C n ∧
    (∀ l ∈ (apply_sets ops (grid.constructed p R C n)).reset_positions.m_layouts,
      l.is_positioned = false) ∧
    (∀ r c : Int,
      (apply_sets ops (grid.constructed p R C n)).reset_positions.is_occupied r c = none) ∧
    ∀ g : grid, g.reset_positions.reset_positions = g.reset_positions := by
  rw [apply_sets_reset_positions, constructed_reset_positions]
  exact ⟨rfl, constructed_unplaced p R C n, constructed_is_occupied p R C n,
    reset_positions_idem⟩

/-- C28: a grid that the constructor returns has one placement for each entry of
the permutation, in its order and with its entry; every placement is unplaced and
every cell empty; the dimensions are the given ones and `longest_word` is the
greatest word length, 0 without words (for words whose length `index` holds). -/
theorem construct_gives (p : permutation) (R C : Int) (n : Nat) (g : grid)
    (hlen : ∀ e ∈ p, e.m_word.length ≤ 32767)
    (h : grid.construct p R C n = some g) :
    g.m_layouts.map (fun l => l.m_entry) = p ∧
    g.m_layouts.map layout.get_word = p.map (fun e => e.m_word) ∧
    (∀ l ∈ g.m_layouts, l.is_positioned = false) ∧
    (∀ r c : Int, g.is_occupied r c = none) ∧
    g.get_num_rows = R ∧ g.get_num_cols = C ∧
    g.longest_word = longest_length p ∧
    g.get_permutation_number = n := by
  unfold grid.construct at h
  simp only at h
  split at h
  · cases h
  · injection h with h
    subst h
    refine ⟨?_, ?_, constructed_unplaced p R C n, constructed_is_occupied p R C n, rfl, rfl,
      ?_, rfl⟩
    · unfold grid.constructed
      simp only [List.map_map]
      exact List.map_id _
    · unfold grid.constructed
      simp only [List.map_map]
      rfl
    · exact longest_word_of_eq p hlen

theorem mem_footprint (l : layout) (x : Int × Int) :
    x ∈ footprint l ↔ ∃ t : Nat, t < l.get_word.length ∧
      x = letter_cell (l.m_orientation == orientation.vert) l.m_row l.m_col t := by
  unfold footprint
  constructor
  · intro h
    obtain ⟨t, ht, rfl⟩ := List.mem_map.1 h
    exact ⟨t, List.mem_range.1 ht, rfl⟩
  · intro ⟨t, ht, hx⟩
    exact List.mem_map.2 ⟨t, List.mem_range.2 ht, hx.symm⟩

/-- C25: `set` of placement `k` at (r, c), horizontal or vertical, with the
footprint inside the grid (dimensions that `index` holds, letters other than the
empty sentinel): afterwards placement `k` has row r, column c and the
orientation, and `is_occupied` returns letter `t` of the word at (r, c + t) when
horizontal and at (r + t, c) when vertical. -/
theorem set_places_word (g : grid) (k : Nat) (l : layout) (r c : Int) (o : orientation)
    (hk : g.m_layouts.get? k = some l)
    (ho : o = orientation.hori ∨ o = orientation.vert)
    (hdim : g.m_num_rows ≤ 32767 ∧ g.m_num_cols ≤ 32767)
    (hin : footprint_inside g ⟨l.m_entry, r, c, o⟩ = true)
    (hlet : max_char ∉ l.get_word.data) :
    (g.set k r c o).m_layouts.get? k = some ⟨l.m_entry, r, c, o⟩ ∧
    (o = orientation.hori → ∀ t : Nat, t < l.get_word.length →
      (g.set k r c o).is_occupied r (c + t) = some (char_at l.get_word t)) ∧
    (o = orientation.vert → ∀ t : Nat, t < l.get_word.length →
      (g.set k r c o).is_occupied (r + t) c = some (char_at l.get_word t)) := by
  have hne : ∀ t : Nat, t < l.get_word.length → char_at l.get_word t ≠ max_char := by
    intro t ht heq
    exact hlet (heq ▸ char_at_mem l.get_word t ht)
  rcases ho with ho | ho
  · subst ho
    have hin1 : 0 ≤ r ∧ r < g.m_num_rows ∧ 0 ≤ c ∧ c + l.get_word.length ≤ g.m_num_cols := by
      simpa [footprint_inside, layout.get_word] using hin
    obtain ⟨_, _, _, l2, hl2, hl3, hcell, _⟩ := committed_set g k l hk r c orientation.hori
      hin1.2.2.1 (by show c + (l.get_word.length : Int) ≤ 32767; omega)
    rw [hk] at hl2
    injection hl2 with hl2
    subst hl2
    refine ⟨hl3, ?_, (fun h => by cases h)⟩
    intro _ t ht
    have h2 := hcell t ht
    change (g.set k r c orientation.hori).m_occupied.get r (c + t) = _ at h2
    unfold grid.is_occupied
    simp only [h2, hne t ht, if_false]
  · subst ho
    have hin1 : 0 ≤ c ∧ c < g.m_num_cols ∧ 0 ≤ r ∧ r + l.get_word.length ≤ g.m_num_rows := by
      simpa [footprint_inside, layout.get_word] using hin
    obtain ⟨_, _, _, l2, hl2, hl3, hcell, _⟩ := committed_set g k l hk r c orientation.vert
      hin1.2.2.1 (by show r + (l.get_word.length : Int) ≤ 32767; omega)
    rw [hk] at hl2
    injection hl2 with hl2
    subst hl2
    refine ⟨hl3, (fun h => by cases h), ?_⟩
    intro _ t ht
    have h2 := hcell t ht
    change (g.set k r c orientation.vert).m_occupied.get (r + t) c = _ at h2
    unfold grid.is_occupied
    simp only [h2, hne t ht, if_false]

/-- C26: `set` of placement `k` (position and end of the word in the range of
`index`) changes nothing but placement `k` and the cells of its footprint: the
dimensions, the longest-word length, the attempt number, the number of
placements and the word of every placement are as before, every other placement
is as before, and so is every cell of the occupancy map outside the footprint. -/
theorem set_changes_only (g : grid) (k : Nat) (l : layout) (r c : Int) (o : orientation)
    (hk : g.m_layouts.get? k = some l)
    (hr : 0 ≤ r ∧ r + l.get_word.length ≤ 32767)
    (hc : 0 ≤ c ∧ c + l.get_word.length ≤ 32767) :
    (g.set k r c o).m_num_rows = g.m_num_rows ∧
    (g.set k r c o).m_num_cols = g.m_num_cols ∧
    (g.set k r c o).m_longest = g.m_longest ∧
    (g.set k r c o).m_permutation_number = g.m_permutation_number ∧
    (g.set k r c o).m_layouts.length = g.m_layouts.length ∧
    (g.set k r c o).m_layouts.map layout.get_word = g.m_layouts.map layout.get_word ∧
    (∀ n : Nat, n ≠ k → (g.set k r c o).m_layouts.get? n = g.m_layouts.get? n) ∧
    (∀ x y : Int, (x, y) ∉ footprint ⟨l.m_entry, r, c, o⟩ →
      (g.set k r c o).m_occupied.get x y = g.m_occupied.get x y ∧
      (g.set k r c o).is_occupied x y = g.is_occupied x y) := by
  have h0 : 0 ≤ (if (o == orientation.vert) = true then r else c) := by
    split
    · exact hr.1
    · exact hc.1
  have h1 : (if (o == orientation.vert) = true then r else c) + l.get_word.length ≤ 32767 := by
    split
    · exact hr.2
    · exact hc.2
  obtain ⟨hd1, hd2, hoth, l2, hl2, _, _, hframe⟩ := committed_set g k l hk r c o h0 h1
  rw [hk] at hl2
  injection hl2 with hl2
  subst hl2
  refine ⟨hd1, hd2, ?_, ?_, grid.set_length g k r c o, ?_, hoth, ?_⟩
  · rw [grid.set_eq g k l hk]
  · rw [grid.set_eq g k l hk]
  · rw [grid.set_eq g k l hk]
    exact map_set_same layout.get_word g.m_layouts k l ⟨l.m_entry, r, c, o⟩ hk rfl
  · intro x y hxy
    have h2 := hframe x y (fun t ht heq => hxy ((mem_footprint _ _).2 ⟨t, ht, heq⟩))
    refine ⟨h2, ?_⟩
    unfold grid.is_occupied
    simp only [h2]

/-! ## The organizer after `stop` -/

theorem stopped_call_eq (g : grid) : organizer.call ⟨true⟩ g = (false, ⟨true⟩, g) := by
  unfold organizer.call
  simp

/-- C23: once `stop` has been called on an organizer, every later call, on any
grid, returns false and leaves the grid as it was, and the organizer stays
stopped: the calls on any sequence of grids all return false with the grids
unchanged. -/
theorem stopped_never_resumes (o : organizer) (g : grid) (gs : List grid) :
    (o.stop.call g).1 = false ∧ (o.stop.call g).2.2 = g ∧ (o.stop.call g).2.1 = o.stop ∧
    call_each o.stop gs = gs.map (fun g1 => (false, g1)) := by
  refine ⟨by rw [organizer.stop, stopped_call_eq], by rw [organizer.stop, stopped_call_eq],
    by rw [organizer.stop, stopped_call_eq], ?_⟩
  unfold organizer.stop
  induction gs with
  | nil => rfl
  | cons g1 gs ih =>
    unfold call_each
    rw [stopped_call_eq]
    simp only [List.map_cons]
    rw [ih]

/-! ## `sort_entries` -/

theorem entry_le_of_not_compare (a b : entry) (h : ¬ compare_entries b a = true) :
    entry_le a b := by
  unfold compare_entries at h
  unfold entry_le
  split at h
  · rename_i heq
    right
    refine ⟨heq.symm, ?_⟩
    simpa using h
  · rename_i hne
    left
    have h2 : ¬ b.m_word.length < a.m_word.length := by simpa using h
    omega

theorem entry_le_of_compare (a b : entry) (h : compare_entries a b = true) : entry_le a b := by
  unfold compare_entries at h
  unfold entry_le
  split at h
  · rename_i heq
    right
    exact ⟨heq, le_of_lt (by simpa using h)⟩
  · left
    simpa using h

theorem entry_le_trans (a b c : entry) (h1 : entry_le a b) (h2 : entry_le b c) :
    entry_le a c := by
  unfold entry_le at *
  rcases h1 with h1 | ⟨h1, h1d⟩
  · rcases h2 with h2 | ⟨h2, _⟩
    · left; omega
    · left; omega
  · rcases h2 with h2 | ⟨h2, h2d⟩
    · left; omega
    · right
      exact ⟨by omega, le_trans h1d h2d⟩

theorem perm_insert_sorted (e : entry) : ∀ l : entries, (insert_sorted e l).Perm (e :: l) := by
  intro l
  induction l with
  | nil => exact List.Perm.refl _
  | cons b l ih =>
    unfold insert_sorted
    split
    · exact List.Perm.refl _
    · exact (List.Perm.cons b ih).trans (List.Perm.swap e b l)

theorem perm_sort_entries (es : entries) : (sort_entries es).Perm es := by
  induction es with
  | nil => exact List.Perm.refl _
  | cons e es ih =>
    show (insert_sorted e (sort_entries es)).Perm (e :: es)
    exact (perm_insert_sorted e _).trans (List.Perm.cons e ih)

theorem pairwise_insert_sorted (e : entry) :
    ∀ l : entries, l.Pairwise entry_le → (insert_sorted e l).Pairwise entry_le := by
  intro l
  induction l with
  | nil => intro _; exact List.pairwise_singleton _ _
  | cons b l ih =>
    intro h
    obtain ⟨hb, hl⟩ := List.pairwise_cons.1 h
    unfold insert_sorted
    split
    · rename_i hc
      have heb := entry_le_of_compare e b hc
      refine List.pairwise_cons.2 ⟨?_, h⟩
      intro x hx
      rcases List.mem_cons.1 hx with rfl | hx
      · exact heb
      · exact entry_le_trans _ _ _ heb (hb x hx)
    · rename_i hc
      refine List.pairwise_cons.2 ⟨?_, ih hl⟩
      intro x hx
      rcases List.mem_cons.1 ((perm_insert_sorted e l).mem_iff.1 hx) with rfl | hx
      · exact entry_le_of_not_compare _ _ hc
      · exact hb x hx

theorem pairwise_sort_entries (es : entries) : (sort_entries es).Pairwise entry_le := by
  induction es with
  | nil => exact List.Pairwise.nil
  | cons e es ih => exact pairwise_insert_sorted e _ ih

/-- C29: `sort_entries` returns a rearrangement of its input (the same entries,
each as often), in which every two consecutive entries - and so every entry and
every later one - are ascending by word length and, for the same length,
ascending lexicographically. -/
theorem sort_entries_sorted (es : entries) :
    (sort_entries es).Perm es ∧ (sort_entries es).Chain' entry_le ∧
    (sort_entries es).Pairwise entry_le :=
  ⟨perm_sort_entries es, (pairwise_sort_entries es).chain', pairwise_sort_entries es⟩

/-! ## The organizer does not read the longest-word length or the attempt number -/

theorem set_with_tags (g : grid) (a : Int) (n : Nat) (k : Nat) (r c : Int) (o : orientation) :
    (with_tags g a n).set k r c o = with_tags (g.set k r c o) a n := by
  unfold grid.set with_tags
  simp only
  cases g.m_layouts.get? k <;> rfl

theorem letters_fit_with_tags (g : grid) (a : Int) (n : Nat) (p_vert : Bool) (r c : Int) :
    ∀ (chars : List Char) (k : Int),
      letters_fit (with_tags g a n) p_vert r c chars k = letters_fit g p_vert r c chars k := by
  intro chars
  induction chars with
  | nil => intro k; rfl
  | cons ch rest ih =>
    intro k
    rw [letters_fit, letters_fit, ih]
    rfl

theorem position_horizontally_with_tags (g : grid) (a : Int) (n : Nat) (x : coordinate)
    (p t : Nat) :
    position_horizontally (with_tags g a n) x p t
      = ((position_horizontally g x p t).1, with_tags (position_horizontally g x p t).2 a n) := by
  unfold position_horizontally
  have h1 : (with_tags g a n).m_layouts = g.m_layouts := rfl
  have h2 : (with_tags g a n).get_num_cols = g.get_num_cols := rfl
  rw [h1]
  split
  · simp only [h2, letters_fit_with_tags, set_with_tags]
    split
    · rfl
    · split
      · rfl
      · split <;> rfl
  · rfl

theorem position_vertically_with_tags (g : grid) (a : Int) (n : Nat) (x : coordinate)
    (p t : Nat) :
    position_vertically (with_tags g a n) x p t
      = ((position_vertically g x p t).1, with_tags (position_vertically g x p t).2 a n) := by
  unfold position_vertically
  have h1 : (with_tags g a n).m_layouts = g.m_layouts := rfl
  have h2 : (with_tags g a n).get_num_rows = g.get_num_rows := rfl
  rw [h1]
  split
  · simp only [h2, letters_fit_with_tags, set_with_tags]
    split
    · rfl
    · split
      · rfl
      · split <;> rfl
  · rfl

theorem position_first_with_tags (f : grid → coordinate → Bool × grid) (a : Int) (n : Nat)
    (hf : ∀ g x, f (with_tags g a n) x = ((f g x).1, with_tags (f g x).2 a n)) :
    ∀ (xs : coordinates) (g : grid),
      position_first f xs (with_tags g a n)
        = ((position_first f xs g).1, with_tags (position_first f xs g).2 a n) := by
  intro xs
  induction xs with
  | nil => intro g; rfl
  | cons x xs ih =>
    intro g
    unfold position_first
    rw [hf g x]
    cases hfx : f g x with
    | mk b g1 =>
      cases b with
      | true => rfl
      | false =>
        simp only
        exact ih g1

theorem position_with_tags (p_stop : Bool) (g : grid) (a : Int) (n : Nat) (p t : Nat) :
    position p_stop (with_tags g a n) p t
      = ((position p_stop g p t).1, with_tags (position p_stop g p t).2 a n) := by
  unfold position
  have h1 : (with_tags g a n).m_layouts = g.m_layouts := rfl
  rw [h1]
  split
  · split
    · exact position_first_with_tags _ a n
        (fun g x => position_vertically_with_tags g a n x p t) _ _
    · exact position_first_with_tags _ a n
        (fun g x => position_horizontally_with_tags g a n x p t) _ _
  · rfl

namespace organizer

theorem try_layouts_with_tags (a : Int) (n : Nat) (t : Nat) :
    ∀ (k i : Nat) (g : grid),
      try_layouts t k i (with_tags g a n) = with_tags (try_layouts t k i g) a n := by
  intro k
  induction k with
  | zero => intro i g; rfl
  | succ k ih =>
    intro i g
    unfold try_layouts
    have h1 : (with_tags g a n).m_layouts = g.m_layouts := rfl
    rw [h1]
    cases g.m_layouts.get? i with
    | none => rfl
    | some l =>
      simp only
      split
      · rw [position_with_tags]
        cases hpos : position false g i t with
        | mk b g1 =>
          cases b with
          | true => rfl
          | false =>
            simp only
            exact ih (i + 1) g1
      · rfl

theorem place_words_with_tags (a : Int) (n : Nat) :
    ∀ (k t : Nat) (g : grid),
      place_words k t (with_tags g a n) = with_tags (place_words k t g) a n := by
  intro k
  induction k with
  | zero => intro t g; rfl
  | succ k ih =>
    intro t g
    unfold place_words
    have h1 : (with_tags g a n).m_layouts = g.m_layouts := rfl
    rw [h1]
    split
    · simp only
      rw [try_layouts_with_tags]
      have h2 : (with_tags (try_layouts t (g.m_layouts.length + 1) 0 g) a n).m_layouts
          = (try_layouts t (g.m_layouts.length + 1) 0 g).m_layouts := rfl
      rw [h2]
      cases (try_layouts t (g.m_layouts.length + 1) 0 g).m_layouts.get? t with
      | none => rfl
      | some l =>
        simp only
        split
        · rfl
        · exact ih (t + 1) _
    · rfl

end organizer

namespace first_word_positioner

theorem horizontal_with_tags (s : first_word_positioner) (p_stop : Bool) (g : grid) (a : Int)
    (n : Nat) :
    s.horizontal p_stop (with_tags g a n)
      = ((s.horizontal p_stop g).1, (s.horizontal p_stop g).2.1,
          with_tags (s.horizontal p_stop g).2.2 a n) := by
  unfold horizontal
  have h1 : first_word (with_tags g a n) = first_word g := rfl
  simp only [h1]
  split
  · rw [set_with_tags]
  · rfl

theorem vertical_with_tags (s : first_word_positioner) (p_stop : Bool) (g : grid) (a : Int)
    (n : Nat) :
    s.vertical p_stop (with_tags g a n)
      = ((s.vertical p_stop g).1, (s.vertical p_stop g).2.1,
          with_tags (s.vertical p_stop g).2.2 a n) := by
  unfold vertical
  have h1 : first_word (with_tags g a n) = first_word g := rfl
  simp only [h1]
  split
  · rw [set_with_tags]
  · rfl

theorem call_with_tags (s : first_word_positioner) (p_stop : Bool) (g : grid) (a : Int)
    (n : Nat) :
    s.call p_stop (with_tags g a n)
      = ((s.call p_stop g).1, (s.call p_stop g).2.1, with_tags (s.call p_stop g).2.2 a n) := by
  have h1 : prepare s (with_tags g a n) = prepare s g := rfl
  cases p_stop with
  | true => rfl
  | false =>
    unfold call
    simp only [h1, Bool.false_eq_true, if_false]
    by_cases ht : (!(prepare s g).m_all_horizontal_tried) = true
    · simp only [ht, if_true, horizontal_with_tags]
      by_cases hh : ((prepare s g).horizontal false g).1 = true
      · simp only [hh, if_true]
      · simp only [hh, if_false, Bool.false_eq_true, vertical_with_tags]
    · simp only [ht, if_false, Bool.false_eq_true, vertical_with_tags]

end first_word_positioner

namespace organizer

theorem anchors_with_tags (a : Int) (n : Nat) :
    ∀ (k : Nat) (s : first_word_positioner) (g : grid),
      anchors k s (with_tags g a n)
        = (anchors k s g).map (fun r => (r.1, with_tags r.2 a n)) := by
  intro k
  induction k with
  | zero => intro s g; rfl
  | succ k ih =>
    intro s g
    unfold anchors
    rw [first_word_positioner.call_with_tags]
    cases hc : s.call false g with
    | mk b rest =>
      obtain ⟨s1, g1⟩ := rest
      cases b with
      | false => rfl
      | true =>
        simp only
        have h1 : (with_tags g1 a n).m_layouts = g1.m_layouts := rfl
        rw [h1, place_words_with_tags]
        have h2 : (with_tags (place_words g1.m_layouts.length 1 g1) a n).organized
            = (place_words g1.m_layouts.length 1 g1).organized := rfl
        rw [h2]
        split
        · rfl
        · exact ih s1 (place_words g1.m_layouts.length 1 g1).reset_positions

theorem call_forgets_tags (o : organizer) (g : grid) (a : Int) (n : Nat) :
    o.call (with_tags g a n) = ((o.call g).1, (o.call g).2.1, with_tags (o.call g).2.2 a n) := by
  unfold call
  have h1 : (with_tags g a n).empty = g.empty := rfl
  have h2 : two_first_words_intersect o.m_stop (with_tags g a n)
      = two_first_words_intersect o.m_stop g := rfl
  have h3 : (with_tags g a n).reset_positions = with_tags g.reset_positions a n := rfl
  have h4 : anchor_bound (with_tags g a n) = anchor_bound g := rfl
  rw [h1, h2, h3, h4, anchors_with_tags]
  split
  · rfl
  · split
    · rfl
    · split
      · rfl
      · cases anchors (anchor_bound g) first_word_positioner.fresh g.reset_positions with
        | none => rfl
        | some r =>
          obtain ⟨b, g1⟩ := r
          cases b <;> rfl

theorem two_first_words_intersect_reset (p_stop : Bool) (g : grid) :
    two_first_words_intersect p_stop g.reset_positions = two_first_words_intersect p_stop g := by
  unfold two_first_words_intersect grid.reset_positions
  simp only
  cases g.m_layouts with
  | nil => rfl
  | cons l0 ls =>
    cases ls with
    | nil => rfl
    | cons l1 ls => rfl

/-- The organizer sees of the grid it is given only the grid after
`reset_positions`. -/
theorem call_of_reset (g : grid) :
    (organizer.call ⟨false⟩ g).1 = (organizer.call ⟨false⟩ g.reset_positions).1 ∧
    ((organizer.call ⟨false⟩ g).1 = true →
      (organizer.call ⟨false⟩ g).2.2 = (organizer.call ⟨false⟩ g.reset_positions).2.2) := by
  unfold call
  have h1 : g.reset_positions.empty = g.empty := by
    unfold grid.empty grid.reset_positions
    cases g.m_layouts <;> rfl
  have h4 : anchor_bound g.reset_positions = anchor_bound g := rfl
  rw [h1, two_first_words_intersect_reset, reset_positions_idem, h4]
  simp only [Bool.false_eq_true, if_false]
  split
  · exact ⟨rfl, fun h => by cases h⟩
  · split
    · exact ⟨rfl, fun h => by cases h⟩
    · cases anchors (anchor_bound g) first_word_positioner.fresh g.reset_positions with
      | none => exact ⟨rfl, fun h => by cases h⟩
      | some r =>
        obtain ⟨b, g1⟩ := r
        cases b
        · exact ⟨rfl, fun h => by cases h⟩
        · exact ⟨rfl, fun _ => rfl⟩

end organizer

theorem state_of_constructed (p : permutation) (R C : Int) (n : Nat) :
    state_of p R C (grid.constructed p R C n) := by
  refine ⟨?_, rfl, rfl, rfl, rfl, rfl⟩
  unfold grid.constructed
  simp only [List.map_map]
  exact List.map_id _

theorem state_of_set (p : permutation) (R C : Int) (g : grid) (h : state_of p R C g)
    (k : Nat) (r c : Int) (o : orientation) : state_of p R C (g.set k r c o) := by
  have h1 := set_reset_positions g k r c o
  obtain ⟨e1, e2, e3, e4, e5, e6⟩ := h
  have hl := congrArg (fun x => x.m_layouts.map (fun l => l.m_entry)) h1
  have ho := congrArg (fun x => x.m_occupied) h1
  simp only [grid.reset_positions, List.map_map] at hl ho
  have hid : ((fun l : layout => l.m_entry) ∘ layout.reset) = (fun l => l.m_entry) := rfl
  rw [hid] at hl
  have hr := congrArg (fun x => x.m_num_rows) ho
  have hc := congrArg (fun x => x.m_num_cols) ho
  have hi := congrArg (fun x => x.m_initial) ho
  simp only [matrix.reset] at hr hc hi
  have hd1 := congrArg (fun x => x.m_num_rows) h1
  have hd2 := congrArg (fun x => x.m_num_cols) h1
  simp only [grid.reset_positions] at hd1 hd2
  exact ⟨hl.trans e1, hd1.trans e2, hd2.trans e3, hr.trans e4, hc.trans e5, hi.trans e6⟩

theorem state_of_reset_positions (p : permutation) (R C : Int) (g : grid)
    (h : state_of p R C g) : state_of p R C g.reset_positions := by
  obtain ⟨e1, e2, e3, e4, e5, e6⟩ := h
  refine ⟨?_, e2, e3, e4, e5, e6⟩
  unfold grid.reset_positions
  simp only [List.map_map]
  exact e1

theorem reset_positions_of_state (p : permutation) (R C : Int) (g : grid) (n : Nat)
    (h : state_of p R C g) :
    g.reset_positions = with_tags (grid.constructed p R C n) g.m_longest g.m_permutation_number := by
  obtain ⟨e1, e2, e3, e4, e5, e6⟩ := h
  unfold grid.reset_positions with_tags grid.constructed matrix.reset matrix.create
  rw [e2, e3, e4, e5, e6, ← e1]
  simp only [List.map_map]
  rfl

/-- C22: for an organizer that has not been stopped, the call on a grid in any
placement state (and so on a grid after `reset_positions`) returns what the call
of such an organizer returns on the newly constructed grid of the same
permutation and dimensions, whatever the attempt number, and on success every
word has the same row, column and orientation. -/
theorem placement_depends_on_permutation (p : permutation) (R C : Int) (g : grid) (n : Nat)
    (h : state_of p R C g) :
    (organizer.call ⟨false⟩ g).1 = (organizer.call ⟨false⟩ (grid.constructed p R C n)).1 ∧
    ((organizer.call ⟨false⟩ g).1 = true →
      placements (organizer.call ⟨false⟩ g).2.2
        = placements (organizer.call ⟨false⟩ (grid.constructed p R C n)).2.2) ∧
    (organizer.call ⟨false⟩ g.reset_positions).1
      = (organizer.call ⟨false⟩ (grid.constructed p R C n)).1 ∧
    ((organizer.call ⟨false⟩ g.reset_positions).1 = true →
      placements (organizer.call ⟨false⟩ g.reset_positions).2.2
        = placements (organizer.call ⟨false⟩ (grid.constructed p R C n)).2.2) := by
  have hr := reset_positions_of_state p R C g n h
  obtain ⟨h1, h2⟩ := organizer.call_of_reset g
  rw [hr, organizer.call_forgets_tags] at h1 h2
  refine ⟨h1, fun ht => ?_, ?_, fun ht => ?_⟩
  · rw [h2 ht]
    rfl
  · rw [hr, organizer.call_forgets_tags]
  · rw [hr, organizer.call_forgets_tags]
    rfl

/-! ## The organizer: one pass for each anchor, no placement revised -/

theorem position_horizontally_true (g : grid) (x : coordinate) (p t : Nat)
    (h : (position_horizontally g x p t).1 = true) :
    ∃ r c, position_horizontally g x p t = (true, g.set t r c orientation.hori) := by
  revert h
  unfold position_horizontally
  split
  · dsimp only
    split
    · intro h; cases h
    · split
      · intro h; cases h
      · split
        · intro _; exact ⟨_, _, rfl⟩
        · intro h; cases h
  · intro h; cases h

theorem position_vertically_true (g : grid) (x : coordinate) (p t : Nat)
    (h : (position_vertically g x p t).1 = true) :
    ∃ r c, position_vertically g x p t = (true, g.set t r c orientation.vert) := by
  revert h
  unfold position_vertically
  split
  · dsimp only
    split
    · intro h; cases h
    · split
      · intro h; cases h
      · split
        · intro _; exact ⟨_, _, rfl⟩
        · intro h; cases h
  · intro h; cases h

/-- What `position` gives: the grid as it was and false, or true and the grid
with the word set, horizontally or vertically. -/
theorem position_cases (p_stop : Bool) (g : grid) (p t : Nat) :
    position p_stop g p t = (false, g) ∨
    ∃ r c o, (o = orientation.hori ∨ o = orientation.vert) ∧
      position p_stop g p t = (true, g.set t r c o) := by
  unfold position
  split
  · split
    · rw [position_first_eq _ (fun g x => position_vertically_false g x p t)]
      cases hb : (first_accepted (fun x => position_vertically g x p t)
          (find_intersections p_stop _ _) g).1 with
      | false =>
        left
        unfold first_accepted at hb ⊢
        cases hfind : (find_intersections p_stop _ _).find?
            (fun x => (position_vertically g x p t).1) with
        | none => rfl
        | some x =>
          rw [hfind] at hb
          have h3 := List.find?_some hfind
          simp only at hb h3
          rw [hb] at h3
          cases h3
      | true =>
        right
        obtain ⟨x, _, hx, heq⟩ := first_accepted_true _ _ _ hb
        obtain ⟨r, c, hrc⟩ := position_vertically_true g x p t hx
        exact ⟨r, c, orientation.vert, Or.inr rfl, heq.trans hrc⟩
    · rw [position_first_eq _ (fun g x => position_horizontally_false g x p t)]
      cases hb : (first_accepted (fun x => position_horizontally g x p t)
          (find_intersections p_stop _ _) g).1 with
      | false =>
        left
        unfold first_accepted at hb ⊢
        cases hfind : (find_intersections p_stop _ _).find?
            (fun x => (position_horizontally g x p t).1) with
        | none => rfl
        | some x =>
          rw [hfind] at hb
          have h3 := List.find?_some hfind
          simp only at hb h3
          rw [hb] at h3
          cases h3
      | true =>
        right
        obtain ⟨x, _, hx, heq⟩ := first_accepted_true _ _ _ hb
        obtain ⟨r, c, hrc⟩ := position_horizontally_true g x p t hx
        exact ⟨r, c, orientation.hori, Or.inl rfl, heq.trans hrc⟩
  · left; rfl

theorem position_of_no_layout (p_stop : Bool) (g : grid) (p t : Nat)
    (h : g.m_layouts.get? t = none) : position p_stop g p t = (false, g) := by
  unfold position
  rw [h]
  cases g.m_layouts.get? p <;> rfl

theorem placed_up_to_set (g : grid) (t : Nat) (l : layout) (r c : Int) (o : orientation)
    (hinv : placed_up_to g t) (ht : g.m_layouts.get? t = some l)
    (ho : o = orientation.hori ∨ o = orientation.vert) :
    placed_up_to (g.set t r c o) (t + 1) := by
  have hlt : t < g.m_layouts.length := by
    rcases Nat.lt_or_ge t g.m_layouts.length with h2 | h2
    · exact h2
    · rw [List.get?_eq_none.2 h2] at ht
      cases ht
  rw [grid.set_eq g t l ht]
  constructor
  · intro i hi
    by_cases hit : i = t
    · subst hit
      refine ⟨⟨l.m_entry, r, c, o⟩, ?_, ?_⟩
      · show (g.m_layouts.set i _).get? i = _
        rw [List.get?_eq_getElem?]
        exact List.getElem?_set_self hlt
      · rcases ho with rfl | rfl <;> rfl
    · obtain ⟨l1, h1, h2⟩ := hinv.1 i (by omega)
      refine ⟨l1, ?_, h2⟩
      show (g.m_layouts.set t _).get? i = _
      rw [List.get?_eq_getElem?, List.getElem?_set_ne (Ne.symm hit), ← List.get?_eq_getElem?]
      exact h1
  · intro i l1 hi h1
    apply hinv.2 i l1 (by omega)
    have h2 : (g.m_layouts.set t ⟨l.m_entry, r, c, o⟩).get? i = some l1 := h1
    rw [List.get?_eq_getElem?, List.getElem?_set_ne (by omega), ← List.get?_eq_getElem?] at h2
    exact h2

namespace organizer

/-- The loop over the placed words, as the spec has it: the first earlier word
that accepts the word `t` takes it. -/
theorem try_layouts_eq (g : grid) (t : Nat) (l : layout) (hinv : placed_up_to g t)
    (ht : g.m_layouts.get? t = some l) :
    ∀ (d i fuel : Nat), i + d = t → d < fuel →
      try_layouts t fuel i g = ((List.range' i d).findSome? (fun p =>
        if (position false g p t).1 then some (position false g p t).2 else none)).getD g := by
  intro d
  induction d with
  | zero =>
    intro i fuel hi hf
    obtain ⟨k, rfl⟩ : ∃ k, fuel = k + 1 := ⟨fuel - 1, by omega⟩
    have hit : i = t := by omega
    subst hit
    unfold try_layouts
    rw [ht]
    have hl := hinv.2 i l (le_refl _) ht
    simp [hl]
  | succ d ih =>
    intro i fuel hi hf
    obtain ⟨k, rfl⟩ : ∃ k, fuel = k + 1 := ⟨fuel - 1, by omega⟩
    obtain ⟨li, hli, hpos⟩ := hinv.1 i (by omega)
    unfold try_layouts
    rw [hli, List.range'_succ]
    simp only [hpos, if_true]
    rcases position_cases false g i t with hc | ⟨r, c, o, _, hc⟩
    · rw [hc]
      simp only
      rw [List.findSome?_cons_of_isNone _ (by simp [hc])]
      exact ih (i + 1) k (by omega) (by omega)
    · rw [hc]
      simp only
      rw [List.findSome?_cons_of_isSome _ (by simp [hc])]
      simp [hc]

theorem place_words_eq_pass :
    ∀ (k t : Nat) (g : grid), placed_up_to g t → place_words k t g = pass k t g := by
  intro k
  induction k with
  | zero => intro t g _; rfl
  | succ k ih =>
    intro t g hinv
    unfold place_words pass
    by_cases hlt : t < g.m_layouts.length
    · obtain ⟨l, hl⟩ : ∃ l, g.m_layouts.get? t = some l := by
        rw [List.get?_eq_getElem?, List.getElem?_eq_getElem hlt]
        exact ⟨_, rfl⟩
      have htry := try_layouts_eq g t l hinv hl t 0 (g.m_layouts.length + 1) (by omega)
        (by omega)
      rw [← List.range_eq_range'] at htry
      simp only [hlt, if_true]
      rw [htry]
      unfold place_against_first
      cases hpf : (List.range t).findSome? (fun p =>
          if (position false g p t).1 then some (position false g p t).2 else none) with
      | none =>
        simp only [Option.getD_none, hl]
        have h2 := hinv.2 t l (le_refl _) hl
        simp [h2]
      | some g1 =>
        simp only [Option.getD_some]
        obtain ⟨p, _, hp⟩ := List.exists_of_findSome?_eq_some hpf
        rcases position_cases false g p t with hc | ⟨r, c, o, ho, hc⟩
        · rw [hc] at hp
          simp at hp
        · rw [hc] at hp
          simp only [if_true, Option.some.injEq] at hp
          subst hp
          have hinv2 := placed_up_to_set g t l r c o hinv hl ho
          obtain ⟨l2, hl2, hpos2⟩ := hinv2.1 t (by omega)
          rw [hl2]
          simp only [hpos2, Bool.not_true, Bool.false_eq_true, if_false]
          exact ih (t + 1) _ hinv2
    · have hnone : g.m_layouts.get? t = none := List.get?_eq_none.2 (by omega)
      simp only [hlt, if_false]
      unfold place_against_first
      rw [List.findSome?_eq_none_iff.2 (fun p _ => by
        rw [position_of_no_layout false g p t hnone]
        simp)]

end organizer

namespace first_word_positioner

/-- A call that returns true has set the first word, horizontally or vertically. -/
theorem call_true_sets (s : first_word_positioner) (g : grid)
    (h : (s.call false g).1 = true) :
    ∃ r c o, (o = orientation.hori ∨ o = orientation.vert) ∧
      (s.call false g).2.2 = g.set 0 r c o := by
  unfold call at h ⊢
  simp only [Bool.false_eq_true, if_false] at h ⊢
  by_cases ht : (prepare s g).m_all_horizontal_tried = true
  · simp only [ht, Bool.not_true, Bool.false_eq_true, if_false] at h ⊢
    obtain ⟨r, c, _, _, _, heq⟩ := vertical_true _ g h
    rw [heq]
    exact ⟨r, c, orientation.vert, Or.inr rfl, rfl⟩
  · simp only [ht, Bool.not_eq_true] at h ⊢
    simp only [Bool.not_false, if_true] at h ⊢
    by_cases hh : (horizontal (prepare s g) false g).1 = true
    · simp only [hh, if_true] at h ⊢
      obtain ⟨r, c, _, _, _, heq⟩ := horizontal_true _ g hh
      rw [heq]
      exact ⟨r, c, orientation.hori, Or.inl rfl, rfl⟩
    · simp only [hh, if_false] at h ⊢
      have hh2 := horizontal_false _ _ _ (by simpa using hh)
      rw [hh2] at h ⊢
      simp only at h ⊢
      obtain ⟨r, c, _, _, _, heq⟩ := vertical_true _ g h
      rw [heq]
      exact ⟨r, c, orientation.vert, Or.inr rfl, rfl⟩

theorem call_reset_positions (s : first_word_positioner) (g : grid) :
    (s.call false g).2.2.reset_positions = g.reset_positions := by
  cases hb : (s.call false g).1 with
  | false => rw [call_false_grid s false g hb]
  | true =>
    obtain ⟨r, c, o, _, heq⟩ := call_true_sets s g hb
    rw [heq, set_reset_positions]

end first_word_positioner

theorem position_reset_positions (p_stop : Bool) (g : grid) (p t : Nat) :
    (position p_stop g p t).2.reset_positions = g.reset_positions := by
  rcases position_cases p_stop g p t with hc | ⟨r, c, o, _, hc⟩
  · rw [hc]
  · rw [hc, set_reset_positions]

namespace organizer

theorem try_layouts_reset_positions (t : Nat) :
    ∀ (k i : Nat) (g : grid), (try_layouts t k i g).reset_positions = g.reset_positions := by
  intro k
  induction k with
  | zero => intro i g; rfl
  | succ k ih =>
    intro i g
    unfold try_layouts
    cases g.m_layouts.get? i with
    | none => rfl
    | some l =>
      simp only
      split
      · have hp := position_reset_positions false g i t
        cases hpos : position false g i t with
        | mk b g1 =>
          rw [hpos] at hp
          cases b with
          | true => exact hp
          | false =>
            simp only
            rw [ih (i + 1) g1]
            exact hp
      · rfl

theorem place_words_reset_positions :
    ∀ (k t : Nat) (g : grid), (place_words k t g).reset_positions = g.reset_positions := by
  intro k
  induction k with
  | zero => intro t g; rfl
  | succ k ih =>
    intro t g
    unfold place_words
    split
    · simp only
      have h1 := try_layouts_reset_positions t (g.m_layouts.length + 1) 0 g
      cases (try_layouts t (g.m_layouts.length + 1) 0 g).m_layouts.get? t with
      | none => exact h1
      | some l =>
        simp only
        split
        · exact h1
        · rw [ih]
          exact h1
    · rfl

/-- When the anchor loop ends with false, every anchor that the generator yields
has had its pass, and no pass has left the grid organized. -/
theorem anchors_false_tried (g0 : grid) (hg0 : g0.reset_positions = g0)
    (hblank : placed_up_to g0 0) (l0 : layout) (hl0 : g0.m_layouts.get? 0 = some l0) :
    ∀ (k : Nat) (s : first_word_positioner) (gf : grid),
      anchors k s g0 = some (false, gf) →
      ∃ n : Nat, (nth_anchor n s g0).1 = false ∧
        ∀ j : Nat, j < n → (nth_anchor j s g0).1 = true ∧
          (pass (nth_anchor j s g0).2.2.m_layouts.length 1 (nth_anchor j s g0).2.2).organized
            = false := by
  intro k
  induction k with
  | zero => intro s gf h; simp [anchors] at h
  | succ k ih =>
    intro s gf h
    unfold anchors at h
    have hreset := first_word_positioner.call_reset_positions s g0
    have hsets := first_word_positioner.call_true_sets s g0
    cases hc : s.call false g0 with
    | mk b rest =>
      obtain ⟨s1, g1⟩ := rest
      rw [hc] at h hreset hsets
      cases b with
      | false =>
        refine ⟨0, ?_, fun j hj => absurd hj (by omega)⟩
        show (s.call false g0).1 = false
        rw [hc]
      | true =>
        simp only at h hreset hsets
        obtain ⟨r, c, o, ho, hg1⟩ := hsets trivial
        have hinv : placed_up_to g1 1 := by
          rw [hg1]
          exact placed_up_to_set g0 0 l0 r c o hblank hl0 ho
        have hpass := place_words_eq_pass g1.m_layouts.length 1 g1 hinv
        by_cases horg : (place_words g1.m_layouts.length 1 g1).organized = true
        · simp [horg] at h
        · simp only [horg, if_false] at h
          rw [place_words_reset_positions, hreset, hg0] at h
          obtain ⟨n, hn, hall⟩ := ih s1 gf h
          have hs1 : (s.call false g0).2.1 = s1 := by rw [hc]
          refine ⟨n + 1, ?_, ?_⟩
          · show (nth_anchor n (s.call false g0).2.1 g0).1 = false
            rw [hs1]
            exact hn
          · intro j hj
            cases j with
            | zero =>
              show (s.call false g0).1 = true ∧
                (pass (s.call false g0).2.2.m_layouts.length 1 (s.call false g0).2.2).organized
                  = false
              rw [hc]
              refine ⟨rfl, ?_⟩
              simp only
              rw [← hpass]
              simpa using horg
            | succ j =>
              show (nth_anchor j (s.call false g0).2.1 g0).1 = true ∧
                (pass (nth_anchor j (s.call false g0).2.1 g0).2.2.m_layouts.length 1
                  (nth_anchor j (s.call false g0).2.1 g0).2.2).organized = false
              rw [hs1]
              exact hall j (by omega)

end organizer

theorem placed_up_to_reset_positions (g : grid) : placed_up_to g.reset_positions 0 := by
  constructor
  · intro i hi
    omega
  · intro i l _ hl
    unfold grid.reset_positions at hl
    simp only at hl
    rw [List.get?_eq_getElem?, List.getElem?_map] at hl
    cases hgi : g.m_layouts[i]? with
    | none => rw [hgi] at hl; cases hl
    | some l1 =>
      rw [hgi] at hl
      simp only [Option.map_some', Option.some.injEq] at hl
      subst hl
      rfl

/-- C24, as the code and section 4.5 have it: when an organizer that has not been
stopped returns false for a grid with at least two words, then either the first
two words have no intersection pair, or the anchor generator has been called
until it returned false, and for every anchor it yielded the pass over the later
words - each placed against the first earlier word that accepts it through its
first accepted pair, no placement revised - has left a word unplaced. -/
theorem call_false_every_anchor_tried (g : grid) (hw : 2 ≤ g.m_layouts.length)
    (hfalse : (organizer.call ⟨false⟩ g).1 = false) :
    (∃ l0 l1 rest, g.m_layouts = l0 :: l1 :: rest ∧
      find_intersections false l0.get_word l1.get_word = []) ∨
    ∃ n : Nat, (nth_anchor n first_word_positioner.fresh g.reset_positions).1 = false ∧
      ∀ j : Nat, j < n →
        (nth_anchor j first_word_positioner.fresh g.reset_positions).1 = true ∧
        (pass (nth_anchor j first_word_positioner.fresh g.reset_positions).2.2.m_layouts.length 1
          (nth_anchor j first_word_positioner.fresh g.reset_positions).2.2).organized = false := by
  obtain ⟨l0, l1, rest, hls⟩ : ∃ l0 l1 rest, g.m_layouts = l0 :: l1 :: rest := by
    cases hl : g.m_layouts with
    | nil => rw [hl] at hw; simp at hw
    | cons a t =>
      cases t with
      | nil => rw [hl] at hw; simp at hw
      | cons b t => exact ⟨a, b, t, rfl⟩
  by_cases hpre : find_intersections false l0.get_word l1.get_word = []
  · exact Or.inl ⟨l0, l1, rest, hls, hpre⟩
  · right
    have hempty : g.empty = false := by
      unfold grid.empty
      rw [hls]
      rfl
    have htwo : two_first_words_intersect false g = true := by
      unfold two_first_words_intersect
      rw [hls]
      simp only
      cases hx : find_intersections false l0.get_word l1.get_word with
      | nil => exact absurd hx hpre
      | cons x xs => rfl
    unfold organizer.call at hfalse
    simp only [Bool.false_eq_true, if_false, hempty, htwo, Bool.not_true] at hfalse
    have he := organizer.anchors_enough g.reset_positions
    have hbd : organizer.anchor_bound g.reset_positions = organizer.anchor_bound g := rfl
    rw [hbd] at he
    cases ha : organizer.anchors (organizer.anchor_bound g) first_word_positioner.fresh
        g.reset_positions with
    | none => simp [ha] at he
    | some rr =>
      obtain ⟨b, gf⟩ := rr
      rw [ha] at hfalse
      cases b with
      | true => simp at hfalse
      | false =>
        have hl0 : g.reset_positions.m_layouts.get? 0 = some l0.reset := by
          unfold grid.reset_positions
          rw [hls]
          rfl
        exact organizer.anchors_false_tried g.reset_positions (reset_positions_idem g)
          (placed_up_to_reset_positions g) l0.reset hl0 _ _ gf ha

/-! ## `next_permutation`: the next permutation in the lexicographic order -/

theorem find?_reverse_range (P : Nat → Bool) :
    ∀ (n i : Nat), i < n → P i = true → (∀ k, i < k → k < n → P k = false) →
      (List.range n).reverse.find? P = some i := by
  intro n
  induction n with
  | zero => intro i hi; omega
  | succ n ih =>
    intro i hi hP hlast
    rw [List.range_succ, List.reverse_append]
    simp only [List.reverse_cons, List.reverse_nil, List.nil_append, List.singleton_append]
    by_cases hin : i = n
    · subst hin
      rw [List.find?_cons_of_pos _ hP]
    · rw [List.find?_cons_of_neg _ (by rw [hlast n (by omega) (by omega)]; simp)]
      exact ih i (by omega) hP (fun k h1 h2 => hlast k h1 (by omega))

theorem find?_reverse_range_none (P : Nat → Bool) (n : Nat) (h : ∀ k, k < n → P k = false) :
    (List.range n).reverse.find? P = none := by
  rw [List.find?_eq_none]
  intro x hx
  have := List.mem_range.1 (List.mem_reverse.1 hx)
  rw [h x this]
  simp

theorem chain_get? {R : entry → entry → Prop} :
    ∀ (l : permutation) (i : Nat) (x y : entry), l.Chain' R → l.get? i = some x →
      l.get? (i + 1) = some y → R x y := by
  intro l
  induction l with
  | nil => intro i x y _ h; simp at h
  | cons a l ih =>
    intro i x y hc hx hy
    cases i with
    | zero =>
      cases l with
      | nil => simp at hy
      | cons b l =>
        simp only [List.get?_cons_zero, Option.some.injEq] at hx
        simp only [List.get?_cons_succ, List.get?_cons_zero, Option.some.injEq] at hy
        subst hx
        subst hy
        exact (List.chain'_cons.1 hc).1
    | succ i =>
      simp only [List.get?_cons_succ] at hx hy
      exact ih i x y (List.chain'_cons'.1 hc).2 hx hy

/-- A permutation without ascent is followed by its reverse. -/
theorem next_permutation_of_descending (comp : entry → entry → Bool) (l : permutation)
    (h : l.Chain' (fun x y => comp x y = false)) : next_permutation comp l = l.reverse := by
  unfold next_permutation
  dsimp only
  rw [find?_reverse_range_none]
  intro k _
  cases hx : l.get? k with
  | none => rfl
  | some x =>
    cases hy : l.get? (k + 1) with
    | none => rfl
    | some y => exact chain_get? l k x y h hx hy

theorem get?_append_mid (pre : permutation) (a : entry) (suf : permutation) :
    (pre ++ a :: suf).get? pre.length = some a := by
  rw [List.get?_eq_getElem?, List.getElem?_append_right (le_refl _)]
  simp

theorem get?_append_after (pre : permutation) (a : entry) (suf : permutation) (k : Nat) :
    (pre ++ a :: suf).get? (pre.length + 1 + k) = suf.get? k := by
  rw [List.get?_eq_getElem?, List.getElem?_append_right (by omega)]
  have h : pre.length + 1 + k - pre.length = k + 1 := by omega
  rw [h, List.get?_eq_getElem?, List.getElem?_cons_succ]

/-- The step of `next_permutation` on a permutation with an ascent: `a` is the
entry at the last ascent, `b` the last entry above `a` in the part after it. -/
theorem next_permutation_of_ascent (comp : entry → entry → Bool) (pre : permutation) (a : entry)
    (s1 : permutation) (b : entry) (s2 : permutation)
    (hchain : (s1 ++ b :: s2).Chain' (fun x y => comp x y = false))
    (hs1 : ∀ x ∈ s1, comp a x = true) (hb : comp a b = true)
    (hs2 : ∀ x ∈ s2, comp a x = false) :
    next_permutation comp (pre ++ a :: (s1 ++ b :: s2))
      = pre ++ b :: (s2.reverse ++ a :: s1.reverse) := by
  have hlen : (pre ++ a :: (s1 ++ b :: s2)).length = pre.length + 1 + (s1.length + 1 + s2.length) := by
    simp only [List.length_append, List.length_cons]
    omega
  have hi : (pre ++ a :: (s1 ++ b :: s2)).get? pre.length = some a := get?_append_mid _ _ _
  have hj : (pre ++ a :: (s1 ++ b :: s2)).get? (pre.length + 1 + s1.length) = some b := by
    rw [get?_append_after]
    exact get?_append_mid _ _ _
  have hascent : (List.range ((pre ++ a :: (s1 ++ b :: s2)).length - 1)).reverse.find?
      (fun i => match (pre ++ a :: (s1 ++ b :: s2)).get? i,
          (pre ++ a :: (s1 ++ b :: s2)).get? (i + 1) with
        | some x, some y => comp x y
        | _, _ => false) = some pre.length := by
    apply find?_reverse_range
    · rw [hlen]; omega
    · simp only [hi]
      have h1 : (pre ++ a :: (s1 ++ b :: s2)).get? (pre.length + 1) = (s1 ++ b :: s2).get? 0 :=
        get?_append_after pre a _ 0
      rw [h1]
      cases s1 with
      | nil => simpa using hb
      | cons x s1 => simpa using hs1 x (List.mem_cons_self _ _)
    · intro k hk1 hk2
      obtain ⟨m, rfl⟩ : ∃ m, k = pre.length + 1 + m := ⟨k - pre.length - 1, by omega⟩
      have h1 : pre.length + 1 + m + 1 = pre.length + 1 + (m + 1) := by omega
      rw [h1, get?_append_after, get?_append_after]
      cases hx : (s1 ++ b :: s2).get? m with
      | none => rfl
      | some x =>
        cases hy : (s1 ++ b :: s2).get? (m + 1) with
        | none => rfl
        | some y => exact chain_get? _ m x y hchain hx hy
  have habove : (List.range (pre ++ a :: (s1 ++ b :: s2)).length).reverse.find?
      (fun j => match (pre ++ a :: (s1 ++ b :: s2)).get? j with
        | some y => comp a y
        | none => false) = some (pre.length + 1 + s1.length) := by
    apply find?_reverse_range
    · rw [hlen]; omega
    · simp only [hj]
      exact hb
    · intro k hk1 hk2
      obtain ⟨m, rfl⟩ : ∃ m, k = pre.length + 1 + (s1.length + 1 + m) :=
        ⟨k - pre.length - 1 - s1.length - 1, by omega⟩
      rw [get?_append_after]
      have h2 : (s1 ++ b :: s2).get? (s1.length + 1 + m) = s2.get? m := get?_append_after s1 b s2 m
      rw [h2]
      cases hx : s2.get? m with
      | none => rfl
      | some x => exact hs2 x (List.get?_mem hx)
  unfold next_permutation
  dsimp only
  rw [hascent]
  simp only [hi]
  rw [habove]
  simp only [hj]
  have hset1 : (pre ++ a :: (s1 ++ b :: s2)).set pre.length b = pre ++ b :: (s1 ++ b :: s2) := by
    rw [List.set_append_right _ _ (le_refl _)]
    simp
  have hset2 : (pre ++ b :: (s1 ++ b :: s2)).set (pre.length + 1 + s1.length) a
      = pre ++ b :: (s1 ++ a :: s2) := by
    rw [List.set_append_right _ _ (by omega)]
    have h3 : pre.length + 1 + s1.length - pre.length = s1.length + 1 := by omega
    rw [h3, List.set_cons_succ, List.set_append_right _ _ (le_refl _)]
    simp
  rw [hset1, hset2]
  have htake : (pre ++ b :: (s1 ++ a :: s2)).take (pre.length + 1) = pre ++ [b] := by
    rw [List.take_append_eq_append_take]
    simp
  have hdrop : (pre ++ b :: (s1 ++ a :: s2)).drop (pre.length + 1) = s1 ++ a :: s2 := by
    rw [List.drop_append_eq_append_drop]
    simp
  rw [htake, hdrop]
  simp

theorem compare_iff (a b : entry) :
    compare_entries a b = true ↔
      a.m_word.length < b.m_word.length ∨
      (a.m_word.length = b.m_word.length ∧ a.m_word.data < b.m_word.data) := by
  unfold compare_entries
  by_cases e1 : a.m_word.length = b.m_word.length
  · rw [if_pos e1]
    simp only [decide_eq_true_eq]
    constructor
    · intro h; exact Or.inr ⟨e1, h⟩
    · rintro (h | ⟨_, h⟩)
      · omega
      · exact h
  · rw [if_neg e1]
    simp only [decide_eq_true_eq]
    constructor
    · intro h; exact Or.inl h
    · rintro (h | ⟨h, _⟩)
      · exact h
      · exact absurd h e1

theorem compare_irrefl (a : entry) : compare_entries a a = false := by
  unfold compare_entries
  simp

theorem compare_trans (a b c : entry) (h1 : compare_entries a b = true)
    (h2 : compare_entries b c = true) : compare_entries a c = true := by
  rw [compare_iff] at *
  rcases h1 with h1 | ⟨h1, h1d⟩
  · rcases h2 with h2 | ⟨h2, _⟩
    · left; omega
    · left; omega
  · rcases h2 with h2 | ⟨h2, h2d⟩
    · left; omega
    · right; exact ⟨by omega, lt_trans h1d h2d⟩

theorem compare_asymm (a b : entry) (h : compare_entries a b = true) :
    compare_entries b a = false := by
  cases hba : compare_entries b a with
  | false => rfl
  | true =>
    rw [compare_iff] at h hba
    rcases h with h | ⟨h, hd⟩
    · rcases hba with h2 | ⟨h2, _⟩ <;> omega
    · rcases hba with h2 | ⟨_, h2d⟩
      · omega
      · exact absurd (lt_trans hd h2d) (lt_irrefl _)

theorem compare_word_eq (a b : entry) (h1 : compare_entries a b = false)
    (h2 : compare_entries b a = false) : a.m_word = b.m_word := by
  have n1 : ¬ compare_entries a b = true := by rw [h1]; simp
  have n2 : ¬ compare_entries b a = true := by rw [h2]; simp
  rw [compare_iff] at n1 n2
  have e1 : a.m_word.length = b.m_word.length := by
    by_contra hne
    rcases Nat.lt_or_gt_of_ne hne with h | h
    · exact n1 (Or.inl h)
    · exact n2 (Or.inl h)
  have d1 : ¬ a.m_word.data < b.m_word.data := fun h => n1 (Or.inr ⟨e1, h⟩)
  have d2 : ¬ b.m_word.data < a.m_word.data := fun h => n2 (Or.inr ⟨e1.symm, h⟩)
  exact String.ext (le_antisymm (not_lt.1 d2) (not_lt.1 d1))

theorem compare_congr_left (a a1 b : entry) (h : a.m_word = a1.m_word) :
    compare_entries a b = compare_entries a1 b := by
  unfold compare_entries
  rw [h]

theorem compare_congr_right (a b b1 : entry) (h : b.m_word = b1.m_word) :
    compare_entries a b = compare_entries a b1 := by
  unfold compare_entries
  rw [h]

theorem eq_of_incomparable (l : permutation) (h : distinct_words l) (a b : entry)
    (ha : a ∈ l) (hb : b ∈ l) (h1 : compare_entries a b = false)
    (h2 : compare_entries b a = false) : a = b :=
  List.inj_on_of_nodup_map h ha hb (compare_word_eq a b h1 h2)

theorem distinct_words_perm (l m : permutation) (hm : m.Perm l) (h : distinct_words l) :
    distinct_words m :=
  (List.Perm.nodup_iff (hm.map _)).2 h

theorem distinct_words_cons (a : entry) (l : permutation) (h : distinct_words (a :: l)) :
    distinct_words l := (List.nodup_cons.1 h).2

theorem distinct_words_nodup (l : permutation) (h : distinct_words l) : l.Nodup :=
  List.Nodup.of_map _ h

theorem lex_before_cons (a b : entry) (p q : permutation) :
    lex_before (a :: p) (b :: q)
      = if compare_entries a b then true
        else if compare_entries b a then false else lex_before p q := rfl

theorem lex_before_irrefl : ∀ p : permutation, lex_before p p = false := by
  intro p
  induction p with
  | nil => rfl
  | cons a p ih => rw [lex_before_cons, compare_irrefl, ih]; rfl

theorem lex_before_trans :
    ∀ p q r : permutation, lex_before p q = true → lex_before q r = true →
      lex_before p r = true := by
  intro p
  induction p with
  | nil =>
    intro q r h1 h2
    cases r with
    | nil => cases q <;> simp [lex_before] at h2
    | cons c r => rfl
  | cons a p ih =>
    intro q r h1 h2
    cases q with
    | nil => simp [lex_before] at h1
    | cons b q =>
      cases r with
      | nil => simp [lex_before] at h2
      | cons c r =>
        rw [lex_before_cons] at h1 h2 ⊢
        by_cases hab : compare_entries a b = true
        · by_cases hbc : compare_entries b c = true
          · rw [compare_trans a b c hab hbc]; rfl
          · by_cases hcb : compare_entries c b = true
            · simp [hbc, hcb] at h2
            · have hw := compare_word_eq b c (by simpa using hbc) (by simpa using hcb)
              rw [← compare_congr_right a b c hw, hab]; rfl
        · by_cases hba : compare_entries b a = true
          · simp [hab, hba] at h1
          · have hw := compare_word_eq a b (by simpa using hab) (by simpa using hba)
            simp only [hab, hba, Bool.false_eq_true, if_false] at h1
            rw [compare_congr_left a b c hw, compare_congr_right c a b hw]
            by_cases hbc : compare_entries b c = true
            · rw [hbc]; rfl
            · by_cases hcb : compare_entries c b = true
              · simp [hbc, hcb] at h2
              · simp only [hbc, hcb, Bool.false_eq_true, if_false] at h2 ⊢
                exact ih q r h1 h2

theorem lex_before_trichotomy :
    ∀ p q : permutation, q.Perm p → distinct_words p →
      lex_before p q = true ∨ p = q ∨ lex_before q p = true := by
  intro p
  induction p with
  | nil =>
    intro q hq _
    right; left
    exact (List.Perm.eq_nil hq).symm
  | cons a p ih =>
    intro q hq hd
    cases q with
    | nil => exact absurd (List.Perm.length_eq hq) (by simp)
    | cons b q =>
      rw [lex_before_cons, lex_before_cons]
      by_cases hab : compare_entries a b = true
      · left; rw [hab]; rfl
      · by_cases hba : compare_entries b a = true
        · right; right; rw [hba]; rfl
        · have hbm : b ∈ a :: p := hq.subset (List.mem_cons_self _ _)
          have heq := eq_of_incomparable (a :: p) hd a b (List.mem_cons_self _ _) hbm
            (by simpa using hab) (by simpa using hba)
          subst heq
          have hq2 : q.Perm p := List.Perm.cons_inv hq
          simp only [hab, Bool.false_eq_true, if_false]
          rcases ih q hq2 (distinct_words_cons a p hd) with h | h | h
          · left; exact h
          · right; left; rw [h]
          · right; right; exact h

/-- Among the permutations of an ascending sequence none is below it. -/
theorem lex_before_ascending :
    ∀ l m : permutation, l.Pairwise (fun x y => compare_entries x y = true) → m.Perm l →
      lex_before m l = false := by
  intro l
  induction l with
  | nil =>
    intro m _ hm
    rw [List.Perm.eq_nil hm]
    rfl
  | cons x t ih =>
    intro m hp hm
    cases m with
    | nil => exact absurd (List.Perm.length_eq hm) (by simp)
    | cons y m =>
      obtain ⟨hx, ht⟩ := List.pairwise_cons.1 hp
      have hym : y ∈ x :: t := hm.subset (List.mem_cons_self _ _)
      rw [lex_before_cons]
      rcases List.mem_cons.1 hym with rfl | hyt
      · rw [compare_irrefl]
        simp only [Bool.false_eq_true, if_false]
        exact ih m ht (List.Perm.cons_inv hm)
      · have h1 := hx y hyt
        rw [compare_asymm x y h1, h1]
        rfl

/-- Among the permutations of a descending sequence none is above it. -/
theorem lex_before_descending :
    ∀ l m : permutation, l.Pairwise (fun x y => compare_entries y x = true) → m.Perm l →
      lex_before l m = false := by
  intro l
  induction l with
  | nil =>
    intro m _ hm
    rw [List.Perm.eq_nil hm]
    rfl
  | cons x t ih =>
    intro m hp hm
    cases m with
    | nil => exact absurd (List.Perm.length_eq hm) (by simp)
    | cons y m =>
      obtain ⟨hx, ht⟩ := List.pairwise_cons.1 hp
      have hym : y ∈ x :: t := hm.subset (List.mem_cons_self _ _)
      rw [lex_before_cons]
      rcases List.mem_cons.1 hym with rfl | hyt
      · rw [compare_irrefl]
        simp only [Bool.false_eq_true, if_false]
        exact ih m ht (List.Perm.cons_inv hm)
      · have h1 := hx y hyt
        rw [compare_asymm y x h1, h1]
        rfl

theorem distinct_words_sublist (l m : permutation) (hs : m.Sublist l) (h : distinct_words l) :
    distinct_words m :=
  List.Nodup.sublist (hs.map _) h

/-- In a sequence of entries with distinct words that has no ascent, every entry
is above every later one. -/
theorem descending_of_chain :
    ∀ t : permutation, distinct_words t →
      t.Chain' (fun x y => compare_entries x y = false) →
      t.Pairwise (fun x y => compare_entries y x = true) := by
  intro t
  induction t with
  | nil => intro _ _; exact List.Pairwise.nil
  | cons h t ih =>
    intro hd hc
    have hpt := ih (distinct_words_cons h t hd) (List.chain'_cons'.1 hc).2
    refine List.pairwise_cons.2 ⟨?_, hpt⟩
    cases t with
    | nil => intro y hy; cases hy
    | cons h2 t =>
      have hc1 : compare_entries h h2 = false := (List.chain'_cons.1 hc).1
      have hne : h ≠ h2 := by
        intro heq
        have hnd := distinct_words_nodup _ hd
        rw [heq] at hnd
        exact (List.nodup_cons.1 hnd).1 (List.mem_cons_self _ _)
      have h2h : compare_entries h2 h = true := by
        cases hx : compare_entries h2 h with
        | true => rfl
        | false =>
          exact absurd (eq_of_incomparable _ hd h h2 (List.mem_cons_self _ _)
            (List.mem_cons_of_mem _ (List.mem_cons_self _ _)) hc1 hx) hne
      intro y hy
      rcases List.mem_cons.1 hy with rfl | hy
      · exact h2h
      · exact compare_trans _ _ _ ((List.pairwise_cons.1 hpt).1 y hy) h2h

theorem exists_last (P : entry → Bool) :
    ∀ t : permutation, (∃ y ∈ t, P y = true) →
      ∃ s1 b s2, t = s1 ++ b :: s2 ∧ P b = true ∧ ∀ y ∈ s2, P y = false := by
  intro t
  induction t with
  | nil => intro ⟨y, hy, _⟩; cases hy
  | cons h t ih =>
    intro hex
    by_cases ht : ∃ y ∈ t, P y = true
    · obtain ⟨s1, b, s2, rfl, hb, hs2⟩ := ih ht
      exact ⟨h :: s1, b, s2, rfl, hb, hs2⟩
    · have hall : ∀ y ∈ t, P y = false := by
        intro y hy
        cases hp : P y with
        | false => rfl
        | true => exact absurd ⟨y, hy, hp⟩ ht
      obtain ⟨y, hy, hpy⟩ := hex
      rcases List.mem_cons.1 hy with rfl | hy
      · exact ⟨[], y, t, rfl, hpy, hall⟩
      · rw [hall y hy] at hpy
        cases hpy

/-- A sequence of entries with distinct words has no ascent, or it splits at its
last ascent as `next_permutation` splits it. -/
theorem ascent_or_descending :
    ∀ l : permutation, distinct_words l →
      l.Chain' (fun x y => compare_entries x y = false) ∨
      ∃ pre a s1 b s2, l = pre ++ a :: (s1 ++ b :: s2) ∧
        (s1 ++ b :: s2).Chain' (fun x y => compare_entries x y = false) ∧
        (∀ x ∈ s1, compare_entries a x = true) ∧ compare_entries a b = true ∧
        (∀ x ∈ s2, compare_entries a x = false) := by
  intro l
  induction l with
  | nil => intro _; left; exact List.chain'_nil
  | cons x t ih =>
    intro hd
    have hdt := distinct_words_cons x t hd
    rcases ih hdt with hc | ⟨pre, a, s1, b, s2, rfl, h1, h2, h3, h4⟩
    · cases t with
      | nil => left; exact List.chain'_singleton _
      | cons h t =>
        by_cases hxh : compare_entries x h = true
        · right
          obtain ⟨s1, b, s2, hsplit, hb, hs2⟩ := exists_last (fun y => compare_entries x y)
            (h :: t) ⟨h, List.mem_cons_self _ _, hxh⟩
          refine ⟨[], x, s1, b, s2, by rw [hsplit]; rfl, by rw [← hsplit]; exact hc, ?_, hb, hs2⟩
          have hdesc := descending_of_chain (h :: t) hdt hc
          rw [hsplit] at hdesc
          intro y hy
          have hby : compare_entries b y = true :=
            (List.pairwise_append.1 hdesc).2.2 y hy b (List.mem_cons_self _ _)
          exact compare_trans _ _ _ hb hby
        · left
          exact List.chain'_cons.2 ⟨by simpa using hxh, hc⟩
    · right
      exact ⟨x :: pre, a, s1, b, s2, rfl, h1, h2, h3, h4⟩

theorem lex_before_append_left :
    ∀ pre x y : permutation, lex_before (pre ++ x) (pre ++ y) = lex_before x y := by
  intro pre
  induction pre with
  | nil => intro x y; rfl
  | cons p pre ih =>
    intro x y
    show lex_before (p :: (pre ++ x)) (p :: (pre ++ y)) = _
    rw [lex_before_cons, compare_irrefl]
    simp only [Bool.false_eq_true, if_false]
    exact ih x y

theorem lex_sandwich (l0 : permutation) (hd : distinct_words l0) :
    ∀ pre x y m : permutation, (∀ e ∈ pre, e ∈ l0) → (∀ e ∈ m, e ∈ l0) →
      lex_before (pre ++ x) m = true → lex_before m (pre ++ y) = true →
      ∃ z, m = pre ++ z ∧ lex_before x z = true ∧ lex_before z y = true := by
  intro pre
  induction pre with
  | nil => intro x y m _ _ h1 h2; exact ⟨m, rfl, h1, h2⟩
  | cons p pre ih =>
    intro x y m hpre hm h1 h2
    cases m with
    | nil => simp [lex_before] at h1
    | cons q m =>
      have h1c : lex_before (p :: (pre ++ x)) (q :: m) = true := h1
      have h2c : lex_before (q :: m) (p :: (pre ++ y)) = true := h2
      rw [lex_before_cons] at h1c h2c
      by_cases hpq : compare_entries p q = true
      · have hqp := compare_asymm p q hpq
        simp [hqp, hpq] at h2c
      · by_cases hqp : compare_entries q p = true
        · simp [hpq, hqp] at h1c
        · have heq := eq_of_incomparable l0 hd p q (hpre p (List.mem_cons_self _ _))
            (hm q (List.mem_cons_self _ _)) (by simpa using hpq) (by simpa using hqp)
          subst heq
          simp only [hpq, Bool.false_eq_true, if_false] at h1c h2c
          obtain ⟨z, hz, hz1, hz2⟩ := ih x y m
            (fun e he => hpre e (List.mem_cons_of_mem _ he))
            (fun e he => hm e (List.mem_cons_of_mem _ he)) h1c h2c
          exact ⟨z, by rw [hz]; rfl, hz1, hz2⟩

/-- The sequence that `next_permutation` gives is the next permutation: no
permutation of the entries lies between the two in the lexicographic order. -/
theorem no_permutation_between (pre : permutation) (a : entry) (s1 : permutation) (b : entry)
    (s2 m : permutation)
    (hd : distinct_words (pre ++ a :: (s1 ++ b :: s2)))
    (hchain : (s1 ++ b :: s2).Chain' (fun x y => compare_entries x y = false))
    (hb : compare_entries a b = true)
    (hs2 : ∀ x ∈ s2, compare_entries a x = false)
    (hm : m.Perm (pre ++ a :: (s1 ++ b :: s2)))
    (h1 : lex_before (pre ++ a :: (s1 ++ b :: s2)) m = true)
    (h2 : lex_before m (pre ++ b :: (s2.reverse ++ a :: s1.reverse)) = true) : False := by
  have hdsuf : distinct_words (s1 ++ b :: s2) :=
    distinct_words_sublist _ _
      ((List.sublist_cons_self a _).trans (List.sublist_append_right pre _)) hd
  have hdesc := descending_of_chain _ hdsuf hchain
  obtain ⟨hp1, hp2, hp3⟩ := List.pairwise_append.1 hdesc
  obtain ⟨hbs2, hps2⟩ := List.pairwise_cons.1 hp2
  have hmem : ∀ e, e ∈ a :: (s1 ++ b :: s2) → e ∈ pre ++ a :: (s1 ++ b :: s2) :=
    fun e he => List.mem_append_right _ he
  have hamem : a ∈ pre ++ a :: (s1 ++ b :: s2) := hmem a (List.mem_cons_self _ _)
  -- the part after `b` in the result is ascending
  have hasc : (s2.reverse ++ a :: s1.reverse).Pairwise
      (fun x y => compare_entries x y = true) := by
    refine List.pairwise_append.2 ⟨List.pairwise_reverse.2 hps2, ?_, ?_⟩
    · refine List.pairwise_cons.2 ⟨?_, List.pairwise_reverse.2 hp1⟩
      intro y hy
      have hy1 := List.mem_reverse.1 hy
      exact compare_trans _ _ _ hb (hp3 y hy1 b (List.mem_cons_self _ _))
    · intro x hx y hy
      have hx1 := List.mem_reverse.1 hx
      rcases List.mem_cons.1 hy with rfl | hy
      · cases hxa : compare_entries x y with
        | true => rfl
        | false =>
          have hxmem : x ∈ pre ++ y :: (s1 ++ b :: s2) :=
            hmem x (List.mem_cons_of_mem _ (List.mem_append_right _ (List.mem_cons_of_mem _ hx1)))
          have heq := eq_of_incomparable _ hd y x hamem hxmem (hs2 x hx1) hxa
          subst heq
          have hnd := distinct_words_nodup _ hd
          have hnd2 : (y :: (s1 ++ b :: s2)).Nodup := (List.nodup_append.1 hnd).2.1
          exact absurd (List.mem_append_right _ (List.mem_cons_of_mem _ hx1))
            (List.nodup_cons.1 hnd2).1
      · exact hp3 y (List.mem_reverse.1 hy) x (List.mem_cons_of_mem _ hx1)
  have hperm_rest : (b :: (s2.reverse ++ a :: s1.reverse)).Perm (a :: (s1 ++ b :: s2)) := by
    have e1 : (s2.reverse ++ a :: s1.reverse).Perm (s2 ++ a :: s1) :=
      (List.reverse_perm s2).append ((List.reverse_perm s1).cons a)
    have e2 : (s2 ++ a :: s1).Perm (a :: (s1 ++ s2)) :=
      List.perm_middle.trans (List.Perm.cons a List.perm_append_comm)
    have e3 : (b :: a :: (s1 ++ s2)).Perm (a :: (s1 ++ b :: s2)) :=
      (List.Perm.swap a b _).trans (List.Perm.cons a List.perm_middle.symm)
    exact ((e1.trans e2).cons b).trans e3
  obtain ⟨z, hz, hz1, hz2⟩ := lex_sandwich _ hd pre _ _ m
    (fun e he => List.mem_append_left _ he) (fun e he => hm.subset he) h1 h2
  rw [hz] at hm
  have hzp : z.Perm (a :: (s1 ++ b :: s2)) := (List.perm_append_left_iff pre).1 hm
  cases z with
  | nil => exact absurd (List.Perm.length_eq hzp) (by simp)
  | cons c z =>
    rw [lex_before_cons] at hz1 hz2
    have hcmem : c ∈ a :: (s1 ++ b :: s2) := hzp.subset (List.mem_cons_self _ _)
    by_cases hac : compare_entries a c = true
    · by_cases hcb : compare_entries c b = true
      · rcases List.mem_cons.1 hcmem with rfl | hc
        · rw [compare_irrefl] at hac; cases hac
        · rcases List.mem_append.1 hc with hc | hc
          · have := compare_asymm _ _ (hp3 c hc b (List.mem_cons_self _ _))
            rw [this] at hcb; cases hcb
          · rcases List.mem_cons.1 hc with rfl | hc
            · rw [compare_irrefl] at hcb; cases hcb
            · rw [hs2 c hc] at hac; cases hac
      · by_cases hbc : compare_entries b c = true
        · simp [hcb, hbc] at hz2
        · simp only [hcb, hbc, Bool.false_eq_true, if_false] at hz2
          have hbmem : b ∈ pre ++ a :: (s1 ++ b :: s2) :=
            hmem b (List.mem_cons_of_mem _ (List.mem_append_right _ (List.mem_cons_self _ _)))
          have heq := eq_of_incomparable _ hd c b (hmem c hcmem) hbmem
            (by simpa using hcb) (by simpa using hbc)
          subst heq
          have hzr : z.Perm (s2.reverse ++ a :: s1.reverse) :=
            List.Perm.cons_inv (hzp.trans hperm_rest.symm)
          rw [lex_before_ascending _ z hasc hzr] at hz2
          cases hz2
    · by_cases hca : compare_entries c a = true
      · simp [hac, hca] at hz1
      · simp only [hac, hca, Bool.false_eq_true, if_false] at hz1
        have heq := eq_of_incomparable _ hd a c hamem (hmem c hcmem)
          (by simpa using hac) (by simpa using hca)
        subst heq
        have hzs : z.Perm (s1 ++ b :: s2) := List.Perm.cons_inv hzp
        rw [lex_before_descending _ z hdesc hzs] at hz1
        cases hz1

theorem countP_succ_of (q : permutation) (P Q : permutation → Bool) :
    ∀ L : List permutation, L.Nodup → q ∈ L → (∀ p ∈ L, Q p = (P p || decide (p = q))) →
      P q = false → L.countP Q = L.countP P + 1 := by
  intro L
  induction L with
  | nil => intro _ hq; cases hq
  | cons x L ih =>
    intro hn hq hall hPq
    obtain ⟨hx, hn2⟩ := List.nodup_cons.1 hn
    have hQx := hall x (List.mem_cons_self _ _)
    by_cases hxq : x = q
    · subst hxq
      have hcongr : L.countP Q = L.countP P := by
        apply List.countP_congr
        intro p hp
        have hpx : p ≠ x := fun h => hx (h ▸ hp)
        rw [hall p (List.mem_cons_of_mem _ hp)]
        simp [hpx]
      rw [List.countP_cons, List.countP_cons, hcongr, hQx, hPq]
      simp
    · have hqL : q ∈ L := by
        rcases List.mem_cons.1 hq with h | h
        · exact absurd h.symm hxq
        · exact h
      have hih := ih hn2 hqL (fun p hp => hall p (List.mem_cons_of_mem _ hp)) hPq
      rw [List.countP_cons, List.countP_cons, hih, hQx]
      simp only [hxq, decide_False, Bool.or_false]
      omega

/-- No permutation is below the ascending one. -/
theorem preceding_ascending (l : permutation)
    (hasc : l.Pairwise (fun x y => compare_entries x y = true)) : preceding l l = 0 := by
  unfold preceding
  rw [List.countP_eq_zero]
  intro p hp
  rw [lex_before_ascending l p hasc (List.mem_permutations.1 hp)]
  simp

/-- The step of `next_permutation` at an ascent leads to the permutation that
has one more permutation below it. -/
theorem preceding_next (l0 pre : permutation) (a : entry) (s1 : permutation) (b : entry)
    (s2 : permutation) (hd : distinct_words l0)
    (hq : (pre ++ a :: (s1 ++ b :: s2)).Perm l0)
    (hchain : (s1 ++ b :: s2).Chain' (fun x y => compare_entries x y = false))
    (hb : compare_entries a b = true)
    (hs2 : ∀ x ∈ s2, compare_entries a x = false) :
    preceding l0 (pre ++ b :: (s2.reverse ++ a :: s1.reverse))
      = preceding l0 (pre ++ a :: (s1 ++ b :: s2)) + 1 := by
  have hdq := distinct_words_perm _ _ hq hd
  have hstep : lex_before (pre ++ a :: (s1 ++ b :: s2))
      (pre ++ b :: (s2.reverse ++ a :: s1.reverse)) = true := by
    rw [lex_before_append_left, lex_before_cons, hb]
    rfl
  unfold preceding
  apply countP_succ_of (pre ++ a :: (s1 ++ b :: s2)) _ _ _
    (List.nodup_permutations l0 (distinct_words_nodup l0 hd)) (List.mem_permutations.2 hq)
  · intro p hp
    have hpl := List.mem_permutations.1 hp
    have hpq : p.Perm (pre ++ a :: (s1 ++ b :: s2)) := hpl.trans hq.symm
    cases hv : lex_before p (pre ++ b :: (s2.reverse ++ a :: s1.reverse)) with
    | true =>
      rcases lex_before_trichotomy p _ hpq.symm (distinct_words_perm _ _ hpl hd) with h | h | h
      · rw [h]; rfl
      · simp [h]
      · exact absurd (no_permutation_between pre a s1 b s2 p hdq hchain hb hs2 hpq h hv) id
    | false =>
      have h1 : lex_before p (pre ++ a :: (s1 ++ b :: s2)) = false := by
        cases hx : lex_before p (pre ++ a :: (s1 ++ b :: s2)) with
        | false => rfl
        | true =>
          rw [lex_before_trans _ _ _ hx hstep] at hv
          cases hv
      have h2 : p ≠ pre ++ a :: (s1 ++ b :: s2) := by
        intro heq
        rw [heq, hstep] at hv
        cases hv
      simp [h1, h2]
  · exact lex_before_irrefl _

/-- Every other permutation is below the descending one. -/
theorem preceding_descending (l0 q : permutation) (hd : distinct_words l0) (hq : q.Perm l0)
    (hdesc : q.Pairwise (fun x y => compare_entries y x = true)) :
    preceding l0 q + 1 = l0.length.factorial := by
  have h := countP_succ_of q (fun p => lex_before p q) (fun _ => true) l0.permutations
    (List.nodup_permutations l0 (distinct_words_nodup l0 hd)) (List.mem_permutations.2 hq)
    (fun p hp => by
      have hpl := List.mem_permutations.1 hp
      have hpq : p.Perm q := hpl.trans hq.symm
      rcases lex_before_trichotomy p q hpq.symm (distinct_words_perm _ _ hpl hd) with h | h | h
      · simp [h]
      · simp [h]
      · rw [lex_before_descending q p hdesc hpq] at h
        cases h)
    (lex_before_irrefl q)
  unfold preceding
  rw [← h, ← List.length_permutations]
  exact List.countP_eq_length.2 (fun _ _ => rfl)

/-- From the ascending sequence on, `next_permutation` applied `k` times gives
the permutation with `k` permutations below it, for every `k` below the number
of permutations. -/
theorem iterate_next_permutation (l0 : permutation) (hd : distinct_words l0)
    (hasc : l0.Pairwise (fun x y => compare_entries x y = true)) :
    ∀ k : Nat, k < l0.length.factorial →
      ((next_permutation compare_entries)^[k] l0).Perm l0 ∧
      preceding l0 ((next_permutation compare_entries)^[k] l0) = k := by
  intro k
  induction k with
  | zero =>
    intro _
    exact ⟨List.Perm.refl _, preceding_ascending l0 hasc⟩
  | succ k ih =>
    intro hk
    obtain ⟨hperm, hrank⟩ := ih (by omega)
    rw [Function.iterate_succ_apply']
    have hdq := distinct_words_perm _ _ hperm hd
    rcases ascent_or_descending _ hdq with hc | ⟨pre, a, s1, b, s2, hsplit, hchain, hs1, hb, hs2⟩
    · have hmax := preceding_descending l0 _ hd hperm (descending_of_chain _ hdq hc)
      omega
    · rw [hsplit] at hperm hrank ⊢
      rw [next_permutation_of_ascent compare_entries pre a s1 b s2 hchain hs1 hb hs2]
      constructor
      · refine List.Perm.trans ?_ hperm
        apply List.Perm.append_left
        have e1 : (s2.reverse ++ a :: s1.reverse).Perm (s2 ++ a :: s1) :=
          (List.reverse_perm s2).append ((List.reverse_perm s1).cons a)
        have e2 : (s2 ++ a :: s1).Perm (a :: (s1 ++ s2)) :=
          List.perm_middle.trans (List.Perm.cons a List.perm_append_comm)
        have e3 : (b :: a :: (s1 ++ s2)).Perm (a :: (s1 ++ b :: s2)) :=
          (List.Perm.swap a b _).trans (List.Perm.cons a List.perm_middle.symm)
        exact ((e1.trans e2).cons b).trans e3
      · rw [preceding_next l0 pre a s1 b s2 hd hperm hchain hb hs2, hrank]

/-- Two permutations of entries with distinct words, with as many permutations
below the one as below the other, are the same. -/
theorem eq_of_preceding_eq (l0 p q : permutation) (hd : distinct_words l0)
    (hp : p.Perm l0) (hq : q.Perm l0) (h : preceding l0 p = preceding l0 q) : p = q := by
  have key : ∀ p q : permutation, p.Perm l0 → q.Perm l0 → lex_before p q = true →
      preceding l0 p < preceding l0 q := by
    intro p q hp hq hpq
    unfold preceding
    have hle : l0.permutations.countP (fun x => lex_before x p || decide (x = p))
        ≤ l0.permutations.countP (fun x => lex_before x q) := by
      apply List.countP_mono_left
      intro x _ hx
      simp only [Bool.or_eq_true, decide_eq_true_eq] at hx
      rcases hx with hx | hx
      · exact lex_before_trans _ _ _ hx hpq
      · rw [hx]; exact hpq
    have hsucc := countP_succ_of p (fun x => lex_before x p)
      (fun x => lex_before x p || decide (x = p)) l0.permutations
      (List.nodup_permutations l0 (distinct_words_nodup l0 hd)) (List.mem_permutations.2 hp)
      (fun _ _ => rfl) (lex_before_irrefl p)
    omega
  rcases lex_before_trichotomy p q (hq.trans hp.symm) (distinct_words_perm _ _ hp hd) with
    h1 | h1 | h1
  · have := key p q hp hq h1
    omega
  · exact h1
  · have := key q p hq hp h1
    omega

theorem preceding_lt (l0 q : permutation) (hd : distinct_words l0) (hq : q.Perm l0) :
    preceding l0 q < l0.length.factorial := by
  have hsucc := countP_succ_of q (fun x => lex_before x q)
    (fun x => lex_before x q || decide (x = q)) l0.permutations
    (List.nodup_permutations l0 (distinct_words_nodup l0 hd)) (List.mem_permutations.2 hq)
    (fun _ _ => rfl) (lex_before_irrefl q)
  have hle := List.countP_le_length (fun x : permutation => lex_before x q || decide (x = q))
    (l := l0.permutations)
  rw [List.length_permutations] at hle
  unfold preceding
  omega

/-! ## The orderings `start` submits -/

theorem compare_of_entry_le (a b : entry) (h : entry_le a b) (hne : a.m_word ≠ b.m_word) :
    compare_entries a b = true := by
  rw [compare_iff]
  rcases h with h | ⟨h1, h2⟩
  · exact Or.inl h
  · refine Or.inr ⟨h1, lt_of_le_of_ne h2 ?_⟩
    intro heq
    exact hne (String.ext heq)

theorem distinct_words_sort_entries (es : entries) (h : distinct_words es) :
    distinct_words (sort_entries es) :=
  distinct_words_perm _ _ (perm_sort_entries es) h

/-- Entries with distinct words are sorted into a strictly ascending sequence. -/
theorem sort_entries_ascending (es : entries) (h : distinct_words es) :
    (sort_entries es).Pairwise (fun x y => compare_entries x y = true) := by
  have h1 := pairwise_sort_entries es
  have h2 : (sort_entries es).Pairwise (fun a b => a.m_word ≠ b.m_word) :=
    List.pairwise_map.1 (distinct_words_sort_entries es h)
  exact (h1.and h2).imp (fun hab => compare_of_entry_le _ _ hab.1 hab.2)

theorem orderings_length : ∀ (M : Nat) (p : permutation), (orderings M p).length = M := by
  intro M
  induction M with
  | zero => intro p; rfl
  | succ M ih =>
    intro p
    show (p.reverse :: orderings M (next_permutation compare_entries p)).length = M + 1
    rw [List.length_cons, ih]

theorem orderings_get? :
    ∀ (M : Nat) (p : permutation) (j : Nat), j < M →
      (orderings M p).get? j = some ((next_permutation compare_entries)^[j] p).reverse := by
  intro M
  induction M with
  | zero => intro p j hj; omega
  | succ M ih =>
    intro p j hj
    show (p.reverse :: orderings M (next_permutation compare_entries p)).get? j = _
    cases j with
    | zero => rfl
    | succ j =>
      rw [List.get?_cons_succ, ih _ j (by omega), Function.iterate_succ_apply]

theorem grids_of_length (R C : Int) :
    ∀ (os : List permutation) (n : Nat), (grids_of R C n os).length = os.length := by
  intro os
  induction os with
  | nil => intro n; rfl
  | cons o os ih =>
    intro n
    show (grid.constructed o R C n :: grids_of R C (n + 1) os).length = _
    rw [List.length_cons, ih, List.length_cons]

theorem grids_of_get? (R C : Int) :
    ∀ (os : List permutation) (n j : Nat),
      (grids_of R C n os).get? j = (os.get? j).map (fun o => grid.constructed o R C (n + j)) := by
  intro os
  induction os with
  | nil => intro n j; rfl
  | cons o os ih =>
    intro n j
    show (grid.constructed o R C n :: grids_of R C (n + 1) os).get? j = _
    cases j with
    | zero => rfl
    | succ j =>
      rw [List.get?_cons_succ, List.get?_cons_succ, ih]
      have h : n + 1 + j = n + (j + 1) := by omega
      rw [h]

theorem grids_of_carried (R C : Int) :
    ∀ (os : List permutation) (n : Nat), (grids_of R C n os).map carried = os := by
  intro os
  induction os with
  | nil => intro n; rfl
  | cons o os ih =>
    intro n
    show carried (grid.constructed o R C n) :: (grids_of R C (n + 1) os).map carried = _
    rw [ih]
    congr 1
    unfold carried grid.constructed
    simp only [List.map_map]
    exact List.map_id _

theorem jobs_of_append_attempt (log : List event) (n : Nat) :
    jobs_of (log ++ [event.new_attempt n]) = jobs_of log := by
  simp [jobs_of, List.filterMap_append]

theorem jobs_of_append_job (log : List event) (g : grid) :
    jobs_of (log ++ [event.new_grid_to_organize g]) = jobs_of log ++ [g] := by
  simp [jobs_of, List.filterMap_append]

namespace assembler

/-- When every grid can be constructed and the loop leaves the stop flag unset
and no solved grid recorded, the jobs it has published are the grids of the
orderings, numbered from the counter on. -/
theorem generate_jobs_of (d : dispatcher) (p_entries : entries) (R C : Int) (M : Nat)
    (hfit : (grid.construct p_entries R C 0).isSome = true) :
    ∀ (k : Nat) (q : permutation) (a : assembler) (log : List event),
      a.m_permutation_counter + k = M → (∀ e ∈ q, e ∈ p_entries) →
      (generate d R C M k q a log).2.1.m_shared.m_stop = false →
      (generate d R C M k q a log).2.1.m_shared.m_solved = none →
      jobs_of (generate d R C M k q a log).2.2
        = jobs_of log ++ grids_of R C (a.m_permutation_counter + 1) (orderings k q) := by
  intro k
  induction k with
  | zero =>
    intro q a log _ _ _ _
    simp [generate, orderings, grids_of]
  | succ k ih =>
    intro q a log h hq
    have hne : a.m_permutation_counter ≠ M := by omega
    have hc := grid.construct_isSome_of_subset p_entries q.reverse R C 0
      (a.m_permutation_counter + 1) (fun e he => hq e (List.mem_reverse.1 he)) hfit
    unfold generate
    by_cases hs : a.m_shared.m_stop = true
    · simp only [hs, if_true]
      intro h1 _
      simp [hs] at h1
    · simp only [hs, hne, if_false, Bool.false_eq_true]
      by_cases hv : a.m_shared.m_solved.isSome = true
      · simp only [hv, if_true]
        intro _ h2
        simp [h2] at hv
      · simp only [hv, if_false, hc, Bool.false_eq_true]
        intro h1 h2
        have := ih (next_permutation compare_entries q)
          { m_num_threads := a.m_num_threads, m_entries := a.m_entries,
            m_permutation_counter := a.m_permutation_counter + 1,
            m_shared := d.publish_new_grid_to_organize
              (grid.constructed q.reverse R C (a.m_permutation_counter + 1))
              (d.publish_new_attempt (a.m_permutation_counter + 1) a.m_shared) }
          (log ++ [event.new_attempt (a.m_permutation_counter + 1)] ++
            [event.new_grid_to_organize
              (grid.constructed q.reverse R C (a.m_permutation_counter + 1))])
          (by simp only; omega)
          (fun e he => hq e (mem_of_mem_next_permutation _ _ _ he)) h1 h2
        rw [this, jobs_of_append_job, jobs_of_append_attempt, List.append_assoc]
        rfl

end assembler

namespace assembler

/-- The jobs of a run that ends with no stop requested and no solved grid
recorded are the grids of the first `min(n!, max_attempts)` orderings. -/
theorem start_jobs_of (d : dispatcher) (a : assembler) (p_entries : entries) (R C : Int)
    (N T : Nat) (hn : p_entries.length ≤ 20)
    (hfit : (grid.construct p_entries R C 0).isSome = true)
    (hstop : (start d a p_entries R C N T).2.1.m_shared.m_stop = false)
    (hsolved : (start d a p_entries R C N T).2.1.m_shared.m_solved = none) :
    jobs_of (start d a p_entries R C N T).2.2
      = grids_of R C 1
          (orderings (min p_entries.length.factorial T) (sort_entries p_entries)) := by
  rw [start_snd] at hstop hsolved ⊢
  have h := generate_jobs_of d p_entries R C (max_permutations p_entries T) hfit
    (max_permutations p_entries T) (sort_entries p_entries) (configured a p_entries N) []
    (by simp [configured]) (fun e he => (mem_sort_entries e p_entries).1 he) hstop hsolved
  rw [h, max_permutations_small p_entries T hn]
  rfl

end assembler

theorem orderings_preceding (S : permutation) (hd : distinct_words S)
    (hasc : S.Pairwise (fun x y => compare_entries x y = true)) (M : Nat)
    (hM : M ≤ S.length.factorial) :
    (orderings M S).map (fun o => preceding S o.reverse) = List.range M := by
  apply List.ext_getElem?
  intro j
  rw [List.getElem?_map, ← List.get?_eq_getElem?]
  by_cases hj : j < M
  · rw [orderings_get? M S j hj, List.getElem?_range hj]
    simp only [Option.map_some', List.reverse_reverse]
    rw [(iterate_next_permutation S hd hasc j (by omega)).2]
  · rw [List.get?_eq_none.2 (by rw [orderings_length]; omega),
      List.getElem?_eq_none (by rw [List.length_range]; omega)]
    rfl

/-- C30: for entries with pairwise distinct words (at most 20, so that n! is
representable, and none longer than both dimensions), when `start` ends with no
stop requested and no solved grid recorded, it has submitted
`min(n!, max_attempts)` jobs; job number k (from 1) is the grid with attempt
number k of the reverse of the permutation of the sorted entries that has k - 1
permutations below it in the lexicographic order under `compare_entries`; and
with `max_attempts >= n!` the orderings submitted are all the orderings of the
entries, each once. -/
theorem jobs_in_lexicographic_order (d : dispatcher) (a : assembler) (p_entries : entries)
    (R C : Int) (N T : Nat)
    (hdist : distinct_words p_entries) (hn : p_entries.length ≤ 20)
    (hfit : (grid.construct p_entries R C 0).isSome = true)
    (hstop : (assembler.start d a p_entries R C N T).2.1.m_shared.m_stop = false)
    (hsolved : (assembler.start d a p_entries R C N T).2.1.m_shared.m_solved = none) :
    (jobs_of (assembler.start d a p_entries R C N T).2.2).length
      = min p_entries.length.factorial T ∧
    (∀ k : Nat, k < min p_entries.length.factorial T →
      ∃ q : permutation,
        (jobs_of (assembler.start d a p_entries R C N T).2.2).get? k
          = some (grid.constructed q.reverse R C (k + 1)) ∧
        q.Perm (sort_entries p_entries) ∧ preceding (sort_entries p_entries) q = k) ∧
    (p_entries.length.factorial ≤ T →
      ((jobs_of (assembler.start d a p_entries R C N T).2.2).map carried).Nodup ∧
      ∀ o : permutation, o.Perm p_entries →
        o ∈ (jobs_of (assembler.start d a p_entries R C N T).2.2).map carried) := by
  have hdS := distinct_words_sort_entries p_entries hdist
  have hasc := sort_entries_ascending p_entries hdist
  have hlen : (sort_entries p_entries).length = p_entries.length := length_sort_entries p_entries
  rw [assembler.start_jobs_of d a p_entries R C N T hn hfit hstop hsolved]
  refine ⟨?_, ?_, ?_⟩
  · rw [grids_of_length, orderings_length]
  · intro k hk
    have hit := iterate_next_permutation (sort_entries p_entries) hdS hasc k
      (by rw [hlen]; omega)
    refine ⟨(next_permutation compare_entries)^[k] (sort_entries p_entries), ?_, hit.1, hit.2⟩
    rw [grids_of_get?, orderings_get? _ _ k hk, Nat.add_comm 1 k]
    rfl
  · intro hT
    rw [grids_of_carried, Nat.min_eq_left hT]
    constructor
    · apply List.Nodup.of_map (fun o => preceding (sort_entries p_entries) o.reverse)
      rw [orderings_preceding _ hdS hasc _ (by rw [hlen])]
      exact List.nodup_range _
    · intro o ho
      have hperm : o.reverse.Perm (sort_entries p_entries) :=
        (List.reverse_perm o).trans (ho.trans (perm_sort_entries p_entries).symm)
      have hr := preceding_lt (sort_entries p_entries) o.reverse hdS hperm
      have hit := iterate_next_permutation (sort_entries p_entries) hdS hasc _ hr
      have heq := eq_of_preceding_eq (sort_entries p_entries) _ _ hdS hit.1 hperm hit.2
      have hget := orderings_get? p_entries.length.factorial (sort_entries p_entries)
        (preceding (sort_entries p_entries) o.reverse) (by rw [← hlen]; exact hr)
      rw [heq, List.reverse_reverse] at hget
      exact List.get?_mem hget

/-! ## The first anchor -/

theorem indices_pos (n : Int) (h : 1 ≤ n) : ∃ rest, indices n = 0 :: rest := by
  unfold indices
  obtain ⟨k, hk⟩ : ∃ k, n.toNat = k + 1 := ⟨n.toNat - 1, by omega⟩
  rw [hk, List.range_succ_eq_map]
  exact ⟨_, rfl⟩

namespace first_word_positioner

theorem scan_origin (m : occupied) (brk : Int → Int → Bool) (R C : Int) (hR : 1 ≤ R)
    (hC : 1 ≤ C) (hbrk : brk 0 0 = false) (hfree : m.get 0 0 = max_char) :
    scan m brk R C = some (0, 0) := by
  obtain ⟨rs, hrs⟩ := indices_pos R hR
  obtain ⟨cs, hcs⟩ := indices_pos C hC
  unfold scan scan_row
  rw [hrs, hcs]
  simp [hbrk, hfree]

/-- On a grid with at least one row whose first word is no longer than the
number of rows, the first call of a new anchor generator places the first word
horizontally at (0, 0). -/
theorem first_call_at_origin (g : grid) (hR : 1 ≤ g.m_num_rows)
    (hL : get_size (first_word g) ≤ g.m_num_rows) :
    (fresh.call false g).1 = true ∧ (fresh.call false g).2.2 = g.set 0 0 0 orientation.hori := by
  have hp : prepare fresh g
      = { fresh with m_occupied := matrix.create g.get_num_rows g.get_num_cols max_char } := by
    unfold prepare fresh
    simp [matrix.get_num_rows, matrix.empty]
  have hs : scan (matrix.create g.get_num_rows g.get_num_cols max_char)
      (fun _ _col => decide (_col + get_size (first_word g) > g.m_num_rows))
      g.m_num_rows g.m_num_rows = some (0, 0) := by
    apply scan_origin _ _ _ _ hR hR
    · simp only [decide_eq_false_iff_not]
      omega
    · rfl
  have hh : horizontal (prepare fresh g) false g
      = (true, { (prepare fresh g) with
          m_occupied := (prepare fresh g).m_occupied.put 0 0 '#' },
        g.set 0 0 0 orientation.hori) := by
    unfold horizontal
    rw [hp]
    simp only [Bool.false_eq_true, if_false]
    have e1 : (matrix.create g.get_num_rows g.get_num_cols max_char).get_num_rows
        = g.m_num_rows := rfl
    rw [e1, hs]
  unfold call
  simp only [Bool.false_eq_true, if_false]
  have ht : (prepare fresh g).m_all_horizontal_tried = false := by rw [hp]; rfl
  simp only [ht, Bool.not_false, if_true, hh]
  exact ⟨trivial, trivial⟩

end first_word_positioner

/-! ## `find_intersections` on words without NUL: the exact list -/

theorem indices_natCast (k : Nat) : indices (k : Int) = (List.range k).map Int.ofNat := by
  unfold indices
  simp

theorem filterMap_range_cut {β : Type} (f : Nat → Option β) (m : Nat) :
    ∀ n : Nat, m ≤ n → (∀ i, m ≤ i → i < n → f i = none) →
      (List.range n).filterMap f = (List.range m).filterMap f := by
  intro n
  induction n with
  | zero =>
    intro hmn _
    have : m = 0 := by omega
    rw [this]
  | succ n ih =>
    intro hmn h
    rcases Nat.eq_or_lt_of_le hmn with heq | hlt
    · rw [heq]
    · rw [List.range_succ, List.filterMap_append, ih (by omega) (fun i h1 h2 => h i h1 (by omega))]
      simp [h n (by omega) (by omega)]

theorem flatMap_range_cut {β : Type} (f : Nat → List β) (m : Nat) :
    ∀ n : Nat, m ≤ n → (∀ i, m ≤ i → i < n → f i = []) →
      (List.range n).flatMap f = (List.range m).flatMap f := by
  intro n
  induction n with
  | zero =>
    intro hmn _
    have : m = 0 := by omega
    rw [this]
  | succ n ih =>
    intro hmn h
    rcases Nat.eq_or_lt_of_le hmn with heq | hlt
    · rw [heq]
    · rw [List.range_succ, List.flatMap_append, ih (by omega) (fun i h1 h2 => h i h1 (by omega))]
      simp [h n (by omega) (by omega)]

theorem char_at_inside (w : word) (k : Nat) (h : k < w.data.length) :
    w.data.get? k = some (char_at w k) := by
  unfold char_at
  rw [List.getD_eq_getElem _ _ h, List.get?_eq_getElem?, List.getElem?_eq_getElem h]

/-- C31: for words without NUL (and of a length within the 16 bit index type),
`find_intersections(placed, to_place)` is the list of the pairs (i, j), for j
ascending from 0 and within each j for i ascending from 0, with i and j both
below the smaller of the two lengths and letter i of the word to place equal to
letter j of the placed word. -/
theorem find_intersections_exact (placed to_place : word)
    (h1 : Char.ofNat 0 ∉ placed.data) (h2 : Char.ofNat 0 ∉ to_place.data)
    (hl1 : placed.length ≤ 32767) (hl2 : to_place.length ≤ 32767) :
    find_intersections false placed to_place = crossing_pairs placed to_place := by
  have e1 : placed.length = placed.data.length := rfl
  have e2 : to_place.length = to_place.data.length := rfl
  unfold find_intersections crossing_pairs
  simp only [Bool.false_eq_true, if_false]
  rw [get_size_of_small placed hl1, get_size_of_small to_place hl2, indices_natCast,
    indices_natCast, List.flatMap_map]
  have hinner : ∀ j : Nat,
      (List.map Int.ofNat (List.range placed.length)).filterMap (fun _i1 =>
        if char_at placed (Int.ofNat j).toNat = char_at to_place _i1.toNat
        then some (_i1, Int.ofNat j) else none)
      = (List.range placed.length).filterMap (fun i =>
        if char_at placed j = char_at to_place i then some ((i : Int), (j : Int)) else none) := by
    intro j
    rw [List.filterMap_map]
    rfl
  have houter : (fun j : Nat => (List.map Int.ofNat (List.range placed.length)).filterMap
        (fun _i1 => if char_at placed (Int.ofNat j).toNat = char_at to_place _i1.toNat
          then some (_i1, Int.ofNat j) else none))
      = fun j : Nat => (List.range placed.length).filterMap (fun i =>
        if char_at placed j = char_at to_place i then some ((i : Int), (j : Int)) else none) :=
    funext hinner
  show (List.range to_place.length).flatMap (fun j : Nat =>
      (List.map Int.ofNat (List.range placed.length)).filterMap
        (fun _i1 => if char_at placed (Int.ofNat j).toNat = char_at to_place _i1.toNat
          then some (_i1, Int.ofNat j) else none)) = _
  rw [houter]
  rw [flatMap_range_cut _ (min placed.length to_place.length) to_place.length
    (Nat.min_le_right _ _)]
  · apply List.flatMap_congr
    intro j hj
    have hj1 := List.mem_range.1 hj
    have hjp : j < placed.data.length := by omega
    have hjt : j < to_place.data.length := by omega
    rw [filterMap_range_cut _ (min placed.length to_place.length) placed.length
      (Nat.min_le_left _ _)]
    · apply List.filterMap_congr
      intro i hi
      have hi1 := List.mem_range.1 hi
      have hip : i < to_place.data.length := by omega
      rw [char_at_inside to_place i hip, char_at_inside placed j hjp]
      by_cases hc : char_at placed j = char_at to_place i
      · rw [if_pos hc, if_pos (by rw [hc])]
      · rw [if_neg hc, if_neg (fun h => hc (Option.some.inj h).symm)]
    · intro i hmi hin
      have hout : to_place.data.length ≤ i := by omega
      rw [char_at_outside to_place i hout]
      have hm := char_at_mem placed j hjp
      rw [if_neg (fun (h : char_at placed j = Char.ofNat 0) => h1 (h ▸ hm))]
  · intro j hmj hjn
    have hout : placed.data.length ≤ j := by omega
    rw [List.filterMap_eq_nil_iff]
    intro i hi
    have hi1 := List.mem_range.1 hi
    have hm := char_at_mem to_place i (by omega)
    rw [char_at_outside placed j hout]
    rw [if_neg (fun (h : Char.ofNat 0 = char_at to_place i) => h2 (h.symm ▸ hm))]

/-! ## `compare_entries` as an order -/

/-- C39: `compare_entries` is a strict weak ordering on entries: it is
irreflexive and transitive, two entries are incomparable exactly when their
words are equal (the explanations are not read), and so incomparability is
transitive. -/
theorem compare_entries_strict_weak :
    (∀ a : entry, compare_entries a a = false) ∧
    (∀ a b c : entry, compare_entries a b = true → compare_entries b c = true →
      compare_entries a c = true) ∧
    (∀ a b : entry, (compare_entries a b = false ∧ compare_entries b a = false) ↔
      a.m_word = b.m_word) ∧
    (∀ a b c : entry, (compare_entries a b = false ∧ compare_entries b a = false) →
      (compare_entries b c = false ∧ compare_entries c b = false) →
      (compare_entries a c = false ∧ compare_entries c a = false)) := by
  have hinc : ∀ a b : entry, (compare_entries a b = false ∧ compare_entries b a = false) ↔
      a.m_word = b.m_word := by
    intro a b
    constructor
    · intro ⟨h1, h2⟩
      exact compare_word_eq a b h1 h2
    · intro h
      constructor
      · rw [compare_congr_left a b b h]
        exact compare_irrefl b
      · rw [compare_congr_right b a b h]
        exact compare_irrefl b
  refine ⟨compare_irrefl, compare_trans, hinc, ?_⟩
  intro a b c h1 h2
  exact (hinc a c).2 (((hinc a b).1 h1).trans ((hinc b c).1 h2))

/-! ## The organizer after a success -/

/-- C36: after a call of an organizer has returned true, the organizer is
stopped, and every later call on it, on any grid, returns false and leaves the
grid as it was: the calls on any sequence of grids all return false with the
grids unchanged. -/
theorem succeeded_never_resumes (o : organizer) (g : grid) (h : (o.call g).1 = true)
    (gs : List grid) :
    (o.call g).2.1.m_stop = true ∧
    call_each (o.call g).2.1 gs = gs.map (fun g1 => (false, g1)) := by
  have hst := organizer.call_state o g
  rw [h] at hst
  simp only [if_true] at hst
  rw [hst]
  refine ⟨rfl, ?_⟩
  induction gs with
  | nil => rfl
  | cons g1 gs ih =>
    unfold call_each
    rw [stopped_call_eq]
    simp only [List.map_cons]
    rw [ih]

/-! ## The handlers of the assembler -/

theorem handle_all_cons (e : Option grid) (evs : List (Option grid)) (sh : shared) :
    handle_all (e :: evs) sh = handle_all evs (handle_assembly_finished e sh) := rfl

theorem handle_assembly_finished_count (e : Option grid) (sh : shared) :
    (handle_assembly_finished e sh).m_num_organizations_finished
      = sh.m_num_organizations_finished + 1 := by
  unfold handle_assembly_finished
  cases e with
  | none => rfl
  | some g =>
    simp only
    split <;> rfl

theorem handle_assembly_finished_solved (e : Option grid) (sh : shared) :
    (handle_assembly_finished e sh).m_solved = (sh.m_solved <|> e) := by
  unfold handle_assembly_finished
  cases e with
  | none => cases sh.m_solved <;> rfl
  | some g =>
    simp only
    cases hs : sh.m_solved with
    | none => simp [hs]
    | some g0 => simp [hs]

theorem handle_all_count (evs : List (Option grid)) :
    ∀ sh : shared, (handle_all evs sh).m_num_organizations_finished
      = sh.m_num_organizations_finished + evs.length := by
  induction evs with
  | nil => intro sh; rfl
  | cons e evs ih =>
    intro sh
    rw [handle_all_cons, ih, handle_assembly_finished_count, List.length_cons]
    omega

theorem handle_all_solved (evs : List (Option grid)) :
    ∀ sh : shared, (handle_all evs sh).m_solved = (sh.m_solved <|> evs.findSome? id) := by
  induction evs with
  | nil =>
    intro sh
    show sh.m_solved = _
    cases sh.m_solved <;> rfl
  | cons e evs ih =>
    intro sh
    rw [handle_all_cons, ih, handle_assembly_finished_solved]
    cases sh.m_solved with
    | some g0 => rfl
    | none =>
      cases e with
      | none => rfl
      | some g => rfl

theorem handle_all_append (e1 e2 : List (Option grid)) (sh : shared) :
    handle_all (e1 ++ e2) sh = handle_all e2 (handle_all e1 sh) := by
  unfold handle_all
  rw [List.foldl_append]

/-- C33: the first-solution slot is written at most once.  For every state of
the shared members and every sequence of job-finished notifications handled one
after another: each notification, solved or not, adds exactly one to the
finished-jobs counter; once a solved grid is recorded, no later notification
changes it; and starting with no grid recorded, the grid recorded in the end is
the one of the first notification that carries a grid. -/
theorem first_solution_written_once (sh : shared) (e1 e2 : List (Option grid)) :
    (∀ e : Option grid, (handle_assembly_finished e (handle_all e1 sh)).m_num_organizations_finished
      = (handle_all e1 sh).m_num_organizations_finished + 1) ∧
    (handle_all (e1 ++ e2) sh).m_num_organizations_finished
      = sh.m_num_organizations_finished + (e1 ++ e2).length ∧
    (∀ g : grid, (handle_all e1 sh).m_solved = some g →
      (handle_all (e1 ++ e2) sh).m_solved = some g) ∧
    (sh.m_solved = none → (handle_all (e1 ++ e2) sh).m_solved = (e1 ++ e2).findSome? id) := by
  refine ⟨fun e => handle_assembly_finished_count e _, handle_all_count _ _, ?_, ?_⟩
  · intro g hg
    rw [handle_all_append, handle_all_solved, hg]
    rfl
  · intro hs
    rw [handle_all_solved, hs]
    rfl

theorem worker_eq (o : organizer) (g : grid) :
    worker o (some g) =
      if (o.call g).1 = true then
        ((o.call g).2.1, [notice.assembly_finished (some (o.call g).2.2), notice.stop_organizing])
      else ((o.call g).2.1, [notice.assembly_finished none]) := rfl

/-- The handler of a job as it acts on the shared members is the worker followed
by the delivery of the events it publishes. -/
theorem handle_new_grid_to_organize_eq (i : Nat) (g : grid) (sh : shared) (o : organizer)
    (ho : sh.m_organizers.get? i = some o) :
    handle_new_grid_to_organize i (some g) sh =
      (worker o (some g)).2.foldl deliver
        { sh with m_organizers := sh.m_organizers.set i (worker o (some g)).1 } := by
  unfold handle_new_grid_to_organize
  simp only [ho]
  rw [worker_eq]
  by_cases hc : (o.call g).1 = true
  · simp only [hc, if_true]
    rfl
  · simp only [hc, if_false]
    simp only [Bool.false_eq_true, if_false]
    rfl

/-- C34: for every job carrying a grid, the handler of the worker publishes
exactly one job-finished notification; the notification carries the grid, as
the organizer left it, exactly when the organizer returned true, and the empty
marker otherwise; and the stop-all-workers signal is published (once) exactly
when the organizer returned true. -/
theorem worker_publishes_once (o : organizer) (g : grid) :
    (worker o (some g)).2.countP notice.is_finished = 1 ∧
    (worker o (some g)).1 = (o.call g).2.1 ∧
    (∀ n ∈ (worker o (some g)).2, n.is_finished = true →
      n.carries = if (o.call g).1 = true then some (o.call g).2.2 else none) ∧
    (worker o (some g)).2.countP notice.is_stop = (if (o.call g).1 = true then 1 else 0) := by
  rw [worker_eq]
  cases hc : (o.call g).1 with
  | true =>
    rw [if_pos rfl, if_pos rfl, if_pos rfl]
    refine ⟨rfl, rfl, ?_, rfl⟩
    intro n hn hf
    simp only [List.mem_cons, List.mem_singleton, List.not_mem_nil, or_false] at hn
    rcases hn with rfl | rfl
    · rfl
    · cases hf
  | false =>
    rw [if_neg (by simp), if_neg (by simp), if_neg (by simp)]
    refine ⟨rfl, rfl, ?_, rfl⟩
    intro n hn hf
    simp only [List.mem_singleton] at hn
    subst hn
    rfl

/-! ## The loops of the organizer come to their end -/

namespace organizer

theorem try_layouts_stable (t : Nat) :
    ∀ (k i : Nat) (g : grid), g.m_layouts.length + 1 ≤ k + i →
      try_layouts t (k + 1) i g = try_layouts t k i g := by
  intro k
  induction k with
  | zero =>
    intro i g h
    have hnone : g.m_layouts.get? i = none := List.get?_eq_none.2 (by omega)
    unfold try_layouts
    rw [hnone]
  | succ k ih =>
    intro i g h
    rw [try_layouts]
    conv => rhs; rw [try_layouts]
    cases g.m_layouts.get? i with
    | none => rfl
    | some l =>
      simp only
      split
      · have h1 := position_length false g i t
        cases hp : position false g i t with
        | mk b g1 =>
          rw [hp] at h1
          cases b with
          | true => rfl
          | false =>
            simp only
            exact ih (i + 1) g1 (by rw [h1]; omega)
      · rfl

theorem try_layouts_enough (t i : Nat) (g : grid) :
    ∀ d : Nat, try_layouts t (g.m_layouts.length + 1 + d) i g
      = try_layouts t (g.m_layouts.length + 1) i g := by
  intro d
  induction d with
  | zero => rfl
  | succ d ih =>
    exact (try_layouts_stable t (g.m_layouts.length + 1 + d) i g (by omega)).trans ih

theorem place_words_stable :
    ∀ (k t : Nat) (g : grid), g.m_layouts.length ≤ k + t →
      place_words (k + 1) t g = place_words k t g := by
  intro k
  induction k with
  | zero =>
    intro t g h
    unfold place_words
    rw [if_neg (by omega)]
  | succ k ih =>
    intro t g h
    rw [place_words]
    conv => rhs; rw [place_words]
    split
    · have h1 := try_layouts_length t (g.m_layouts.length + 1) 0 g
      simp only
      split
      · rfl
      · split
        · rfl
        · exact ih (t + 1) _ (by rw [h1]; omega)
    · rfl

theorem place_words_enough (t : Nat) (g : grid) :
    ∀ d : Nat, place_words (g.m_layouts.length + d) t g
      = place_words g.m_layouts.length t g := by
  intro d
  induction d with
  | zero => rfl
  | succ d ih =>
    exact (place_words_stable (g.m_layouts.length + d) t g (by omega)).trans ih

theorem anchors_stable :
    ∀ (k : Nat) (s : first_word_positioner) (g : grid) (r : Bool × grid),
      anchors k s g = some r → anchors (k + 1) s g = some r := by
  intro k
  induction k with
  | zero => intro s g r h; simp [anchors] at h
  | succ k ih =>
    intro s g r h
    rw [anchors] at h
    rw [anchors]
    cases hc : s.call false g with
    | mk b rest =>
      obtain ⟨s1, g1⟩ := rest
      rw [hc] at h
      cases b with
      | false => exact h
      | true =>
        simp only at h ⊢
        split
        · rename_i ho
          rw [if_pos ho] at h
          exact h
        · rename_i ho
          rw [if_neg ho] at h
          exact ih _ _ _ h

theorem anchors_more (s : first_word_positioner) (g : grid) (r : Bool × grid) (k : Nat)
    (h : anchors k s g = some r) : ∀ d : Nat, anchors (k + d) s g = some r := by
  intro d
  induction d with
  | zero => exact h
  | succ d ih => exact anchors_stable _ s g r ih

end organizer

namespace first_word_positioner

/-- The generator returns false within the anchors it has left. -/
theorem false_within :
    ∀ (k : Nat) (s : first_word_positioner) (g : grid), anchors_left (prepare s g) < k →
      ∃ n : Nat, n < k ∧ (nth_anchor n s g).1 = false ∧
        ∀ j : Nat, j < n → (nth_anchor j s g).1 = true := by
  intro k
  induction k with
  | zero => intro s g h; omega
  | succ k ih =>
    intro s g h
    cases hc : (s.call false g).1 with
    | false => exact ⟨0, by omega, hc, fun j hj => absurd hj (by omega)⟩
    | true =>
      obtain ⟨h1, h2, h3⟩ := call_true_uses s g hc
      have hp : prepare (s.call false g).2.1 g = (s.call false g).2.1 :=
        prepare_of_rows _ _ (by rw [h1]; exact h2)
      obtain ⟨n, hn, hf, hall⟩ := ih (s.call false g).2.1 g (by rw [hp]; omega)
      refine ⟨n + 1, by omega, hf, ?_⟩
      intro j hj
      cases j with
      | zero => exact hc
      | succ j => exact hall j (by omega)

end first_word_positioner

/-- C37: the organizer is total.  For every grid: the anchor generator, called
again and again, returns true fewer than `anchor_bound` times before it returns
false; the loop over the anchors ends within `anchor_bound` rounds with a
result, which more rounds do not change; the loop that places the words and the
loop over the placed words end within the number of words (plus one) rounds; and
so every call, the stop flag set or not, returns: with false at once when the
organizer is stopped, the grid empty or the pre-filter fails, and with the
result of the anchor loop otherwise. -/
theorem organizer_total (g : grid) :
    (∃ n : Nat, n < organizer.anchor_bound g ∧
      (nth_anchor n first_word_positioner.fresh g).1 = false ∧
      ∀ j : Nat, j < n → (nth_anchor j first_word_positioner.fresh g).1 = true) ∧
    (∃ r : Bool × grid, ∀ k : Nat, organizer.anchor_bound g ≤ k →
      organizer.anchors k first_word_positioner.fresh g.reset_positions = some r) ∧
    (∀ t k : Nat, g.m_layouts.length ≤ k →
      organizer.place_words k t g = organizer.place_words g.m_layouts.length t g) ∧
    (∀ t i k : Nat, g.m_layouts.length + 1 ≤ k →
      organizer.try_layouts t k i g = organizer.try_layouts t (g.m_layouts.length + 1) i g) ∧
    (∀ o : organizer,
      (o.m_stop = true ∨ g.empty = true ∨ two_first_words_intersect false g = false →
        o.call g = (false, o, g)) ∧
      (o.m_stop = false → g.empty = false → two_first_words_intersect false g = true →
        ∃ r : Bool × grid,
          organizer.anchors (organizer.anchor_bound g) first_word_positioner.fresh
            g.reset_positions = some r ∧
          (o.call g).1 = r.1 ∧ (o.call g).2.2 = r.2)) := by
  have hbd : organizer.anchor_bound g.reset_positions = organizer.anchor_bound g := rfl
  have he := organizer.anchors_enough g.reset_positions
  rw [hbd] at he
  refine ⟨?_, ?_, ?_, ?_, ?_⟩
  · exact first_word_positioner.false_within _ _ _
      (first_word_positioner.anchors_left_prepare_fresh g)
  · cases ha : organizer.anchors (organizer.anchor_bound g) first_word_positioner.fresh
        g.reset_positions with
    | none => simp [ha] at he
    | some r =>
      refine ⟨r, ?_⟩
      intro k hk
      obtain ⟨d, rfl⟩ : ∃ d, k = organizer.anchor_bound g + d :=
        ⟨k - organizer.anchor_bound g, by omega⟩
      exact organizer.anchors_more _ _ r _ ha d
  · intro t k hk
    obtain ⟨d, rfl⟩ : ∃ d, k = g.m_layouts.length + d := ⟨k - g.m_layouts.length, by omega⟩
    exact organizer.place_words_enough t g d
  · intro t i k hk
    obtain ⟨d, rfl⟩ : ∃ d, k = g.m_layouts.length + 1 + d :=
      ⟨k - (g.m_layouts.length + 1), by omega⟩
    exact organizer.try_layouts_enough t i g d
  · intro o
    constructor
    · intro h
      unfold organizer.call
      rcases h with h | h | h
      · rw [if_pos h]
      · rw [if_pos h]
        split <;> rfl
      · cases hs : o.m_stop with
        | true => rfl
        | false =>
          rw [h]
          simp
    · intro hs hem htwo
      cases ha : organizer.anchors (organizer.anchor_bound g) first_word_positioner.fresh
          g.reset_positions with
      | none => simp [ha] at he
      | some r =>
        refine ⟨r, rfl, ?_⟩
        unfold organizer.call
        rw [hs, hem, htwo, ha]
        obtain ⟨b, g1⟩ := r
        cases b <;> exact ⟨rfl, rfl⟩

/-! ## The pre-filter of the organizer -/

namespace organizer

/-- When the first two words have no intersection pair, every anchor attempt
leaves the second word unplaced, and the loop over the anchors ends with false
and the grid with no word placed. -/
theorem anchors_no_pair (g0 : grid) (hg0 : g0.reset_positions = g0) (l0 l1 : layout)
    (rest : List layout) (hls : g0.m_layouts = l0 :: l1 :: rest)
    (hno : find_intersections false l0.get_word l1.get_word = []) :
    ∀ (k : Nat) (s : first_word_positioner) (r : Bool × grid),
      anchors k s g0 = some r → r = (false, g0) := by
  have hblank : placed_up_to g0 0 := by
    rw [← hg0]
    exact placed_up_to_reset_positions g0
  have hl0 : g0.m_layouts.get? 0 = some l0 := by rw [hls]; rfl
  have hl1 : g0.m_layouts.get? 1 = some l1 := by rw [hls]; rfl
  have hun : l1.is_positioned = false := hblank.2 1 l1 (by omega) hl1
  intro k
  induction k with
  | zero => intro s r h; simp [anchors] at h
  | succ k ih =>
    intro s r h
    rw [anchors] at h
    have hfalse := first_word_positioner.call_false_grid s false g0
    have hsets := first_word_positioner.call_true_sets s g0
    cases hc : s.call false g0 with
    | mk b rest1 =>
      obtain ⟨s1, g1⟩ := rest1
      rw [hc] at h hfalse hsets
      cases b with
      | false =>
        simp only [Option.some.injEq] at h
        have hg : g1 = g0 := hfalse rfl
        rw [← h, hg]
      | true =>
        simp only at h hsets
        obtain ⟨r0, c0, o0, ho0, hg1⟩ := hsets trivial
        have hinv : placed_up_to g1 1 := by
          rw [hg1]
          exact placed_up_to_set g0 0 l0 r0 c0 o0 hblank hl0 ho0
        have hlay : g1.m_layouts = ⟨l0.m_entry, r0, c0, o0⟩ :: l1 :: rest := by
          rw [hg1, grid.set_eq g0 0 l0 hl0, hls]
          rfl
        have hlen : g1.m_layouts.length = rest.length + 1 + 1 := by rw [hlay]; rfl
        have hpos : position false g1 0 1 = (false, g1) := by
          unfold position
          rw [hlay]
          simp only [List.get?_cons_zero, List.get?_cons_succ]
          have hw : layout.get_word ⟨l0.m_entry, r0, c0, o0⟩ = l0.get_word := rfl
          rw [hw, hno]
          split <;> rfl
        have hpass : place_words g1.m_layouts.length 1 g1 = g1 := by
          rw [place_words_eq_pass _ 1 g1 hinv, hlen]
          unfold pass place_against_first
          simp [List.range_succ, hpos]
        rw [hpass] at h
        have horg : g1.organized = false := by
          unfold grid.organized
          rw [hlay]
          have : l1.get_orientation = orientation.undef := by
            unfold layout.is_positioned at hun
            simpa [layout.get_orientation] using hun
          simp [this]
        rw [horg] at h
        simp only [Bool.false_eq_true, if_false] at h
        rw [hg1, set_reset_positions, hg0] at h
        exact ih s1 r h

end organizer

/-- C38: the pre-filter is a pure optimisation.  For every organizer and every
grid with at least two words, the call returns the value that the same
procedure without the test of the first two words returns; when the first two
words have no intersection pair, that procedure tries every anchor, each
attempt fails at the second word, and it returns false with no word placed. -/
theorem prefilter_is_optimisation (o : organizer) (g : grid) (hw : 2 ≤ g.m_layouts.length) :
    (o.call g).1 = (o.call_unfiltered g).1 ∧
    (two_first_words_intersect o.m_stop g = true → o.call g = o.call_unfiltered g) ∧
    (o.m_stop = false → two_first_words_intersect false g = false →
      o.call_unfiltered g = (false, o, g.reset_positions)) := by
  obtain ⟨l0, l1, rest, hls⟩ : ∃ l0 l1 rest, g.m_layouts = l0 :: l1 :: rest := by
    cases hl : g.m_layouts with
    | nil => rw [hl] at hw; simp at hw
    | cons a t =>
      cases t with
      | nil => rw [hl] at hw; simp at hw
      | cons b t => exact ⟨a, b, t, rfl⟩
  have hempty : g.empty = false := by
    unfold grid.empty
    rw [hls]
    rfl
  have hpass : two_first_words_intersect o.m_stop g = true → o.call g = o.call_unfiltered g := by
    intro h
    unfold organizer.call organizer.call_unfiltered
    rw [h]
    rfl
  have hfail : o.m_stop = false → two_first_words_intersect false g = false →
      o.call_unfiltered g = (false, o, g.reset_positions) := by
    intro hs h
    have hno : find_intersections false l0.get_word l1.get_word = [] := by
      unfold two_first_words_intersect at h
      rw [hls] at h
      simp only at h
      cases hx : find_intersections false l0.get_word l1.get_word with
      | nil => rfl
      | cons x xs => rw [hx] at h; simp at h
    have he := organizer.anchors_enough g.reset_positions
    have hbd : organizer.anchor_bound g.reset_positions = organizer.anchor_bound g := rfl
    rw [hbd] at he
    have hls2 : g.reset_positions.m_layouts = l0.reset :: l1.reset :: rest.map layout.reset := by
      unfold grid.reset_positions
      rw [hls]
      rfl
    unfold organizer.call_unfiltered
    rw [hs, hempty]
    cases ha : organizer.anchors (organizer.anchor_bound g) first_word_positioner.fresh
        g.reset_positions with
    | none => simp [ha] at he
    | some r =>
      have := organizer.anchors_no_pair g.reset_positions (reset_positions_idem g)
        l0.reset l1.reset _ hls2 hno _ _ r ha
      rw [this]
      rfl
  refine ⟨?_, hpass, hfail⟩
  cases hs : o.m_stop with
  | true =>
    unfold organizer.call organizer.call_unfiltered
    rw [hs]
    rfl
  | false =>
    cases h2 : two_first_words_intersect false g with
    | true => rw [hpass (by rw [hs]; exact h2)]
    | false =>
      rw [hfail hs h2, organizer.call_of_not_intersect o g (by rw [hs]; exact h2)]

/-! ## The organizer against its reference -/

/-- More calls than `false_within` needs yield no further anchor. -/
theorem anchor_grids_stable :
    ∀ (k : Nat) (s : first_word_positioner) (g : grid),
      anchors_left (first_word_positioner.prepare s g) < k →
      anchor_grids (k + 1) s g = anchor_grids k s g := by
  intro k
  induction k with
  | zero => intro s g h; omega
  | succ k ih =>
    intro s g h
    rw [anchor_grids]
    conv => rhs; rw [anchor_grids]
    cases hc : (s.call false g).1 with
    | false => rfl
    | true =>
      obtain ⟨h1, h2, h3⟩ := first_word_positioner.call_true_uses s g hc
      have hp : first_word_positioner.prepare (s.call false g).2.1 g = (s.call false g).2.1 :=
        first_word_positioner.prepare_of_rows _ _ (by rw [h1]; exact h2)
      simp only [if_true]
      rw [ih (s.call false g).2.1 g (by rw [hp]; omega)]

/-- The list of the anchors is complete at `anchor_bound` calls. -/
theorem anchor_grids_complete (g : grid) :
    ∀ d : Nat, anchor_grids (organizer.anchor_bound g + d) first_word_positioner.fresh g
      = anchor_grids (organizer.anchor_bound g) first_word_positioner.fresh g := by
  intro d
  induction d with
  | zero => rfl
  | succ d ih =>
    refine (anchor_grids_stable (organizer.anchor_bound g + d) _ g ?_).trans ih
    have := first_word_positioner.anchors_left_prepare_fresh g
    omega

namespace organizer

/-- The loop over the anchors gives what the reference gives. -/
theorem anchors_eq_reference (g0 : grid) (hg0 : g0.reset_positions = g0)
    (hblank : placed_up_to g0 0) (l0 : layout) (hl0 : g0.m_layouts.get? 0 = some l0) :
    ∀ (k : Nat) (s : first_word_positioner) (r : Bool × grid),
      anchors k s g0 = some r →
      r = match (anchor_grids k s g0).find?
            (fun a => (pass a.m_layouts.length 1 a).organized) with
          | some a => (true, pass a.m_layouts.length 1 a)
          | none => (false, g0) := by
  intro k
  induction k with
  | zero => intro s r h; simp [anchors] at h
  | succ k ih =>
    intro s r h
    rw [anchors] at h
    rw [anchor_grids]
    have hfalse := first_word_positioner.call_false_grid s false g0
    have hsets := first_word_positioner.call_true_sets s g0
    cases hc : s.call false g0 with
    | mk b rest1 =>
      obtain ⟨s1, g1⟩ := rest1
      rw [hc] at h hfalse hsets
      cases b with
      | false =>
        simp only [Option.some.injEq] at h
        have hg : g1 = g0 := hfalse rfl
        rw [← h, hg]
        rfl
      | true =>
        simp only at h hsets
        obtain ⟨r0, c0, o0, ho0, hg1⟩ := hsets trivial
        have hinv : placed_up_to g1 1 := by
          rw [hg1]
          exact placed_up_to_set g0 0 l0 r0 c0 o0 hblank hl0 ho0
        have hpass := place_words_eq_pass g1.m_layouts.length 1 g1 hinv
        rw [hpass] at h
        simp only [if_true]
        rw [List.find?_cons]
        cases horg : (pass g1.m_layouts.length 1 g1).organized with
        | true =>
          rw [horg] at h
          simp only [if_true, Option.some.injEq] at h
          rw [← h]
        | false =>
          rw [horg] at h
          simp only [Bool.false_eq_true, if_false] at h
          rw [← hpass, place_words_reset_positions, hg1, set_reset_positions, hg0] at h
          exact ih s1 r h

end organizer

/-- C32: for an organizer that has not been stopped and a grid with at least two
words that passes the pre-filter, the call returns what the reference returns,
and leaves the grid the reference gives: the anchors of the first word are
taken in generator order; from the grid with no word placed and word 0 at the
anchor, the words 1, 2, .. are placed, each against the first of the earlier
words 0, 1, .. for which `position` succeeds; an anchor at which some word cannot
be placed against any earlier word is given up and the grid reset.  The result
is true with the placements of the first anchor at which all words are placed,
and false when no anchor does. -/
theorem call_eq_reference (g : grid) (hw : 2 ≤ g.m_layouts.length)
    (hpre : two_first_words_intersect false g = true) :
    (organizer.call ⟨false⟩ g).1 = (reference_organizer g).1 ∧
    (organizer.call ⟨false⟩ g).2.2 = (reference_organizer g).2 ∧
    (∀ d : Nat, anchor_grids (organizer.anchor_bound g + d) first_word_positioner.fresh
        g.reset_positions
      = anchor_grids (organizer.anchor_bound g) first_word_positioner.fresh g.reset_positions) := by
  obtain ⟨l0, rest, hls⟩ : ∃ l0 rest, g.m_layouts = l0 :: rest := by
    cases hl : g.m_layouts with
    | nil => rw [hl] at hw; simp at hw
    | cons a t => exact ⟨a, t, rfl⟩
  have hempty : g.empty = false := by
    unfold grid.empty
    rw [hls]
    rfl
  have hbd : organizer.anchor_bound g.reset_positions = organizer.anchor_bound g := rfl
  have he := organizer.anchors_enough g.reset_positions
  rw [hbd] at he
  have hl0 : g.reset_positions.m_layouts.get? 0 = some l0.reset := by
    unfold grid.reset_positions
    rw [hls]
    rfl
  have hcomplete := anchor_grids_complete g.reset_positions
  rw [hbd] at hcomplete
  cases ha : organizer.anchors (organizer.anchor_bound g) first_word_positioner.fresh
      g.reset_positions with
  | none => simp [ha] at he
  | some r =>
    have href := organizer.anchors_eq_reference g.reset_positions (reset_positions_idem g)
      (placed_up_to_reset_positions g) l0.reset hl0 _ _ r ha
    have hcall : organizer.call ⟨false⟩ g = (r.1, ⟨r.1⟩, r.2) := by
      unfold organizer.call
      simp only [Bool.false_eq_true, if_false, hempty, hpre, Bool.not_true, ha]
      obtain ⟨b, g1⟩ := r
      cases b <;> rfl
    have hr : reference_organizer g = r := by
      unfold reference_organizer
      rw [href]
    rw [hcall, hr]
    exact ⟨rfl, rfl, hcomplete⟩

/-! ## The invariant of the grid -/

theorem holds_letters_iff (g : grid) (l : layout) :
    holds_letters g l = true ↔ ∀ k : Nat, k < l.get_word.length →
      g.m_occupied.get (letter_cell (l.m_orientation == orientation.vert) l.m_row l.m_col k).1
        (letter_cell (l.m_orientation == orientation.vert) l.m_row l.m_col k).2
        = char_at l.get_word k := by
  unfold holds_letters
  rw [List.all_eq_true]
  constructor
  · intro h k hk
    have := h k (List.mem_range.2 hk)
    simpa using this
  · intro h k hk
    have := h k (List.mem_range.1 hk)
    simpa using this

theorem inv_iff (g : grid) :
    inv g = true ↔ ∀ l ∈ g.m_layouts, l.is_positioned = true →
      footprint_inside g l = true ∧ holds_letters g l = true := by
  unfold inv
  rw [List.all_eq_true]
  constructor
  · intro h l hl hpos
    have := h l hl
    simpa [hpos] using this
  · intro h l hl
    cases hpos : l.is_positioned with
    | false => rfl
    | true =>
      have := h l hl hpos
      simp [this.1, this.2]

/-- `reset_positions` establishes the invariant. -/
theorem inv_reset_positions (g : grid) : inv g.reset_positions = true := by
  rw [inv_iff]
  intro l hl hpos
  unfold grid.reset_positions at hl
  simp only [List.mem_map] at hl
  obtain ⟨l0, _, rfl⟩ := hl
  cases hpos

theorem footprint_inside_congr (g g1 : grid) (l : layout) (h1 : g1.m_num_rows = g.m_num_rows)
    (h2 : g1.m_num_cols = g.m_num_cols) : footprint_inside g1 l = footprint_inside g l := by
  unfold footprint_inside
  rw [h1, h2]

/-- A word committed where its cells allow it, its footprint inside the grid,
keeps the invariant (no placed word has the letter that marks an empty cell). -/
theorem inv_of_committed (g g1 : grid) (t : Nat) (r c : Int) (o : orientation)
    (to_place : layout) (ht : g.m_layouts.get? t = some to_place)
    (hc : committed g g1 t r c o) (hinv : inv g = true)
    (hallow : cells_allow g (o == orientation.vert) r c to_place.get_word)
    (hinside : footprint_inside g1 ⟨to_place.m_entry, r, c, o⟩ = true)
    (hsent : ∀ l ∈ g.m_layouts, l.is_positioned = true → max_char ∉ l.get_word.data) :
    inv g1 = true := by
  obtain ⟨hrows, hcols, hother, l0, hl0, hnew, hwritten, hkept⟩ := hc
  rw [ht] at hl0
  injection hl0 with hl0
  subst hl0
  rw [inv_iff] at hinv ⊢
  intro l hl hpos
  obtain ⟨n, hn⟩ := List.mem_iff_get?.1 hl
  by_cases hnt : n = t
  · subst hnt
    rw [hnew] at hn
    injection hn with hn
    subst hn
    refine ⟨hinside, ?_⟩
    rw [holds_letters_iff]
    intro k hk
    exact hwritten k hk
  · rw [hother n hnt] at hn
    have hmem : l ∈ g.m_layouts := List.mem_iff_get?.2 ⟨n, hn⟩
    obtain ⟨hin, hlet⟩ := hinv l hmem hpos
    refine ⟨by rw [footprint_inside_congr g g1 l hrows hcols]; exact hin, ?_⟩
    rw [holds_letters_iff] at hlet ⊢
    intro k hk
    by_cases hex : ∃ k1 : Nat, k1 < to_place.get_word.length ∧
        letter_cell (l.m_orientation == orientation.vert) l.m_row l.m_col k
          = letter_cell (o == orientation.vert) r c k1
    · obtain ⟨k1, hk1, heq⟩ := hex
      have hw := hwritten k1 hk1
      rw [heq, hw]
      have ha := hallow k1 hk1
      have hg := hlet k hk
      rw [heq] at hg
      have hne : char_at l.get_word k ≠ max_char := by
        intro he
        have hm := char_at_mem l.get_word k hk
        rw [he] at hm
        exact hsent l hmem hpos hm
      unfold cell_allows grid.is_occupied at ha
      simp only at ha
      rw [hg, if_neg hne] at ha
      rcases ha with ha | ha
      · cases ha
      · exact (Option.some.inj ha).symm
    · have hk2 := hkept
        (letter_cell (l.m_orientation == orientation.vert) l.m_row l.m_col k).1
        (letter_cell (l.m_orientation == orientation.vert) l.m_row l.m_col k).2
        (fun k1 hk1 heq => hex ⟨k1, hk1, heq⟩)
      rw [hk2]
      exact hlet k hk

/-- For words without NUL, and placed words without the letter that marks an
empty cell, `position` keeps the invariant, whether it returns true or false
(grid dimensions and word length within the 16 bit index type). -/
theorem position_keeps_inv (p_stop : Bool) (g : grid) (p t : Nat) (placed to_place : layout)
    (hp : g.m_layouts.get? p = some placed) (ht : g.m_layouts.get? t = some to_place)
    (hpos : placed.is_positioned = true) (hinv : inv g = true)
    (hn1 : Char.ofNat 0 ∉ placed.get_word.data) (hn2 : Char.ofNat 0 ∉ to_place.get_word.data)
    (hsent : ∀ l ∈ g.m_layouts, l.is_positioned = true → max_char ∉ l.get_word.data)
    (hrange : g.m_num_rows + to_place.get_word.length ≤ 32767 ∧
      g.m_num_cols + to_place.get_word.length ≤ 32767) :
    inv (position p_stop g p t).2 = true := by
  have hmemp : placed ∈ g.m_layouts := List.mem_iff_get?.2 ⟨p, hp⟩
  obtain ⟨hin, _⟩ := (inv_iff g).1 hinv placed hmemp hpos
  have ho : placed.m_orientation = orientation.hori ∨
      placed.m_orientation = orientation.vert := by
    unfold layout.is_positioned at hpos
    revert hpos
    cases placed.m_orientation <;> simp
  have hpos2 : placed.m_orientation ≠ orientation.undef := by
    rcases ho with ho | ho <;> rw [ho] <;> simp
  have hlt : to_place.get_word.length = to_place.get_word.data.length := rfl
  have hlp : placed.get_word.length = placed.get_word.data.length := rfl
  by_cases htrue : (position p_stop g p t).1 = true
  · rw [position_eq_first_accepted p_stop g p t placed to_place hp ht hpos2] at htrue ⊢
    obtain ⟨x, hx, hfx, heq⟩ := first_accepted_true _ _ _ htrue
    obtain ⟨i, j, rfl, hi, hj, _⟩ := find_intersections_letters p_stop _ _ hn1 hn2 x hx
    rw [heq]
    unfold footprint_inside at hin
    rcases ho with ho | ho
    · rw [ho] at hin
      simp only [decide_eq_true_eq] at hin
      obtain ⟨hr0, hr1, hc0, hc1⟩ := hin
      rw [congrArg (fun o => orthogonal_positioner o g p t) ho] at hfx ⊢
      change (position_vertically g ((i : Int), (j : Int)) p t).1 = true at hfx
      change inv (position_vertically g ((i : Int), (j : Int)) p t).2 = true
      have he : placed.m_row - (i : Int) + to_place.get_word.length ≤ 32767 := by omega
      rw [position_vertically_eq g i j p t placed to_place hp ht ⟨by omega, by omega⟩
        ⟨by omega, by omega⟩ he] at hfx ⊢
      split at hfx
      · rename_i hcond
        rw [if_pos hcond]
        have hcm := committed_set g t to_place ht (placed.m_row - i) (placed.m_col + j)
          orientation.vert hcond.1 he
        refine inv_of_committed g _ t _ _ orientation.vert to_place ht hcm hinv ?_ ?_ hsent
        · exact (letters_fit_iff_cells_allow g true _ _ _ hcond.1 he).1 hcond.2.2
        · unfold footprint_inside
          rw [hcm.1, hcm.2.1]
          simp only [decide_eq_true_eq]
          have h2 := hcond.2.1
          exact ⟨by omega, by omega, hcond.1, h2⟩
      · cases hfx
    · rw [ho] at hin
      simp only [decide_eq_true_eq] at hin
      obtain ⟨hc0, hc1, hr0, hr1⟩ := hin
      rw [congrArg (fun o => orthogonal_positioner o g p t) ho] at hfx ⊢
      change (position_horizontally g ((i : Int), (j : Int)) p t).1 = true at hfx
      change inv (position_horizontally g ((i : Int), (j : Int)) p t).2 = true
      have he : placed.m_col - (i : Int) + to_place.get_word.length ≤ 32767 := by omega
      rw [position_horizontally_eq g i j p t placed to_place hp ht ⟨by omega, by omega⟩
        ⟨by omega, by omega⟩ he] at hfx ⊢
      split at hfx
      · rename_i hcond
        rw [if_pos hcond]
        have hcm := committed_set g t to_place ht (placed.m_row + j) (placed.m_col - i)
          orientation.hori hcond.1 he
        refine inv_of_committed g _ t _ _ orientation.hori to_place ht hcm hinv ?_ ?_ hsent
        · exact (letters_fit_iff_cells_allow g false _ _ _ hcond.1 he).1 hcond.2.2
        · unfold footprint_inside
          rw [hcm.1, hcm.2.1]
          simp only [decide_eq_true_eq]
          have h2 := hcond.2.1
          exact ⟨by omega, by omega, hcond.1, h2⟩
      · cases hfx
  · rcases position_cases p_stop g p t with hc | ⟨r, c, o, _, hc⟩
    · rw [hc]
      exact hinv
    · rw [hc] at htrue
      exact absurd rfl htrue

/-! ## The anchor generator: the anchors in their order -/

namespace first_word_positioner

theorem scan_eq_find (m : occupied) (brk : Int → Int → Bool) (R C : Int) :
    scan m brk R C = (cells brk R C).find? (fun p => m.get p.1 p.2 == max_char) := by
  unfold scan cells scan_row
  generalize indices R = rows
  induction rows with
  | nil => rfl
  | cons r rows ih =>
    rw [List.findSome?_cons, List.flatMap_cons, List.find?_append, List.find?_map, ← ih]
    cases hf : List.find? (fun _col => m.get r _col == max_char)
        (List.takeWhile (fun _col => !brk r _col) (indices C)) with
    | none =>
      have hf2 : List.find? ((fun p : Int × Int => m.get p.1 p.2 == max_char) ∘ fun _col => (r, _col))
          (List.takeWhile (fun _col => !brk r _col) (indices C)) = none := hf
      rw [hf2]
      rfl
    | some c =>
      have hf2 : List.find? ((fun p : Int × Int => m.get p.1 p.2 == max_char) ∘ fun _col => (r, _col))
          (List.takeWhile (fun _col => !brk r _col) (indices C)) = some c := hf
      rw [hf2]
      rfl

end first_word_positioner

theorem find_marked (m : occupied) (cand : List (Int × Int)) (k : Nat) (h : marked m cand k) :
    cand.find? (fun p => m.get p.1 p.2 == max_char) = cand.get? k := by
  obtain ⟨h1, h2⟩ := h
  conv => lhs; rw [← List.take_append_drop k cand]
  rw [List.find?_append]
  have hnone : (cand.take k).find? (fun p => m.get p.1 p.2 == max_char) = none := by
    rw [List.find?_eq_none]
    intro x hx
    simpa using h1 x hx
  rw [hnone, List.get?_eq_getElem?]
  simp only [Option.or_none, Option.none_or]
  by_cases hk : k < cand.length
  · rw [List.drop_eq_getElem_cons hk] at h2 ⊢
    rw [List.find?_cons, List.getElem?_eq_getElem hk]
    have := h2 cand[k] (List.mem_cons_self _ _)
    simp [this]
  · rw [List.drop_eq_nil_of_le (by omega), List.getElem?_eq_none (by omega)]
    rfl

theorem marked_put (m : occupied) (cand : List (Int × Int)) (k : Nat) (p : Int × Int)
    (hn : cand.Nodup) (h : marked m cand k) (hp : cand.get? k = some p) :
    marked (m.put p.1 p.2 '#') cand (k + 1) := by
  obtain ⟨h1, h2⟩ := h
  have hk : k < cand.length := by
    rcases Nat.lt_or_ge k cand.length with h3 | h3
    · exact h3
    · rw [List.get?_eq_none.2 h3] at hp
      cases hp
  have hpk : cand[k] = p := by
    rw [List.get?_eq_getElem?, List.getElem?_eq_getElem hk] at hp
    exact Option.some.inj hp
  have hhash : ('#' : Char) ≠ max_char := by decide
  constructor
  · intro q hq
    rw [matrix.get_put]
    by_cases hqp : q.1 = p.1 ∧ q.2 = p.2
    · rw [if_pos hqp]
      exact hhash
    · rw [if_neg hqp]
      rw [List.take_succ, List.mem_append] at hq
      rcases hq with hq | hq
      · exact h1 q hq
      · rw [List.getElem?_eq_getElem hk, hpk] at hq
        simp only [Option.toList_some, List.mem_singleton] at hq
        exact absurd ⟨congrArg Prod.fst hq, congrArg Prod.snd hq⟩ hqp
  · intro q hq
    have hsplit : cand = cand.take k ++ p :: cand.drop (k + 1) := by
      conv => lhs; rw [← List.take_append_drop k cand, List.drop_eq_getElem_cons hk, hpk]
    have hnd : (p :: cand.drop (k + 1)).Nodup := by
      rw [hsplit] at hn
      exact (List.nodup_append.1 hn).2.1
    have hne : q ≠ p := fun he => (List.nodup_cons.1 hnd).1 (he ▸ hq)
    rw [matrix.get_put]
    rw [if_neg (fun hqp => hne (Prod.ext hqp.1 hqp.2))]
    apply h2
    exact (List.drop_sublist_drop_left cand (Nat.le_succ k)).subset hq

namespace first_word_positioner

theorem horizontal_marked (s : first_word_positioner) (g : grid) (N : Int) (k : Nat)
    (hrows : s.m_occupied.m_num_rows = N) (hm : marked s.m_occupied (horizontal_cells g N) k) :
    horizontal s false g =
      match (horizontal_cells g N).get? k with
      | some p => (true, { s with m_occupied := s.m_occupied.put p.1 p.2 '#' },
          g.set 0 p.1 p.2 orientation.hori)
      | none => (false, { s with m_all_horizontal_tried := true }, g) := by
  subst hrows
  unfold horizontal
  simp only [Bool.false_eq_true, if_false, matrix.get_num_rows]
  rw [scan_eq_find]
  have hf := find_marked _ _ k hm
  unfold horizontal_cells at hf ⊢
  rw [hf]
  cases (cells (fun _ _col => decide (_col + get_size (first_word g) > s.m_occupied.m_num_rows))
      s.m_occupied.m_num_rows s.m_occupied.m_num_rows).get? k with
  | none => rfl
  | some p =>
    obtain ⟨r, c⟩ := p
    rfl

theorem vertical_marked (s : first_word_positioner) (g : grid) (N : Int) (j : Nat)
    (hrows : s.m_occupied.m_num_rows = N) (hm : marked s.m_occupied (vertical_cells g N) j) :
    vertical s false g =
      match (vertical_cells g N).get? j with
      | some p => (true, { s with m_occupied := s.m_occupied.put p.1 p.2 '#' },
          g.set 0 p.1 p.2 orientation.vert)
      | none => (false, s, g) := by
  subst hrows
  unfold vertical
  simp only [Bool.false_eq_true, if_false, matrix.get_num_rows]
  rw [scan_eq_find]
  have hf := find_marked _ _ j hm
  unfold vertical_cells at hf ⊢
  rw [hf]
  cases (cells (fun _row _ => decide (_row + get_size (first_word g) > s.m_occupied.m_num_rows))
      s.m_occupied.m_num_rows s.m_occupied.m_num_rows).get? j with
  | none => rfl
  | some p =>
    obtain ⟨r, c⟩ := p
    rfl

theorem marked_reset (m : occupied) (cand : List (Int × Int)) (h : m.m_initial = max_char) :
    marked m.reset cand 0 := by
  constructor
  · intro p hp
    simp at hp
  · intro p _
    exact h

/-- A call in the vertical phase: the next free cell, or false with nothing changed. -/
theorem call_in_vertical (s : first_word_positioner) (g : grid) (N : Int) (j : Nat)
    (hN : N ≠ 0) (hs : in_vertical s N (vertical_cells g N) j) :
    s.call false g =
      match (vertical_cells g N).get? j with
      | some p => (true, { s with m_occupied := s.m_occupied.put p.1 p.2 '#' },
          g.set 0 p.1 p.2 orientation.vert)
      | none => (false, s, g) := by
  obtain ⟨h1, h2, h3, h4⟩ := hs
  have hp : prepare s g = s := prepare_of_rows s g (by rw [h3]; exact hN)
  obtain ⟨t, v, m⟩ := s
  simp only at h1 h2 h3 h4
  subst h1 h2
  have he : enter_vertical ⟨true, true, m⟩ = ⟨true, true, m⟩ := rfl
  unfold call
  simp only [Bool.false_eq_true, if_false]
  rw [hp]
  simp only [Bool.not_true, Bool.false_eq_true, if_false]
  rw [he]
  exact vertical_marked ⟨true, true, m⟩ g N j h3 h4

/-- A call before the vertical phase: the next free cell of the horizontal scan,
or, when there is none, the first cell of the vertical scan. -/
theorem call_in_horizontal (s : first_word_positioner) (g : grid) (N : Int) (k : Nat)
    (hN : N ≠ 0) (hs : in_horizontal s N (horizontal_cells g N) k) :
    s.call false g =
      match (horizontal_cells g N).get? k with
      | some p => (true, { s with m_occupied := s.m_occupied.put p.1 p.2 '#' },
          g.set 0 p.1 p.2 orientation.hori)
      | none =>
        match (vertical_cells g N).get? 0 with
        | some p => (true, ⟨true, true, s.m_occupied.reset.put p.1 p.2 '#'⟩,
            g.set 0 p.1 p.2 orientation.vert)
        | none => (false, ⟨true, true, s.m_occupied.reset⟩, g) := by
  obtain ⟨h1, h2, h3, h4, h5⟩ := hs
  have hp : prepare s g = s := prepare_of_rows s g (by rw [h3]; exact hN)
  obtain ⟨t, v, m⟩ := s
  simp only at h1 h2 h3 h4 h5
  subst h1 h2
  unfold call
  simp only [Bool.false_eq_true, if_false]
  rw [hp]
  simp only [Bool.not_false, if_true]
  rw [horizontal_marked ⟨false, false, m⟩ g N k h3 h5]
  cases (horizontal_cells g N).get? k with
  | some p => rfl
  | none =>
    simp only [Bool.false_eq_true, if_false]
    have he : enter_vertical ⟨true, false, m⟩ = ⟨true, true, m.reset⟩ := rfl
    rw [he]
    rw [vertical_marked ⟨true, true, m.reset⟩ g N 0 h3 (marked_reset _ _ h4)]

end first_word_positioner

theorem get?_none_of_ge {α : Type} (l : List α) (j i : Nat) (h : l.get? j = none) (hij : j ≤ i) :
    l.get? i = none := by
  rw [List.get?_eq_none] at h ⊢
  omega

theorem get?_some_lt {α : Type} (l : List α) (j : Nat) (a : α) (h : l.get? j = some a) :
    j < l.length := by
  rcases Nat.lt_or_ge j l.length with h3 | h3
  · exact h3
  · rw [List.get?_eq_none.2 h3] at h
    cases h

namespace first_word_positioner

theorem nth_anchor_succ (i : Nat) (s : first_word_positioner) (g : grid) :
    nth_anchor (i + 1) s g = nth_anchor i (s.call false g).2.1 g := rfl

/-- The calls in the vertical phase yield the cells of the vertical scan one
after the other, and false from then on. -/
theorem run_vertical (g : grid) (N : Int) (hN : N ≠ 0) (hn : (vertical_cells g N).Nodup) :
    ∀ (i j : Nat) (s : first_word_positioner), in_vertical s N (vertical_cells g N) j →
      yields g (((vertical_cells g N).get? (j + i)).map (fun p => (p.1, p.2, orientation.vert)))
        (nth_anchor i s g) := by
  intro i
  induction i with
  | zero =>
    intro j s hs
    show yields g _ (s.call false g)
    rw [call_in_vertical s g N j hN hs, Nat.add_zero]
    cases (vertical_cells g N).get? j with
    | none => exact rfl
    | some p => exact ⟨rfl, rfl⟩
  | succ i ih =>
    intro j s hs
    rw [nth_anchor_succ, call_in_vertical s g N j hN hs]
    cases hget : (vertical_cells g N).get? j with
    | none =>
      have h1 := ih j s hs
      rw [get?_none_of_ge _ j (j + i) hget (by omega)] at h1
      rw [get?_none_of_ge _ j (j + (i + 1)) hget (by omega)]
      exact h1
    | some p =>
      have hs2 : in_vertical { s with m_occupied := s.m_occupied.put p.1 p.2 '#' } N
          (vertical_cells g N) (j + 1) :=
        ⟨hs.1, hs.2.1, hs.2.2.1, marked_put _ _ j p hn hs.2.2.2 hget⟩
      have h1 := ih (j + 1) _ hs2
      have e : j + 1 + i = j + (i + 1) := by omega
      rw [e] at h1
      exact h1

/-- The anchor expected at call number `n`. -/
theorem anchors_of_get? (g : grid) (N : Int) (n : Nat) :
    (anchors_of g N).get? n =
      if n < (horizontal_cells g N).length then
        ((horizontal_cells g N).get? n).map (fun p => (p.1, p.2, orientation.hori))
      else ((vertical_cells g N).get? (n - (horizontal_cells g N).length)).map
        (fun p => (p.1, p.2, orientation.vert)) := by
  unfold anchors_of
  simp only [List.get?_eq_getElem?]
  rw [List.getElem?_append, List.length_map, List.getElem?_map, List.getElem?_map]

/-- The calls of a generator yield the cells of the horizontal scan, then the
cells of the vertical scan, and false from then on. -/
theorem run_horizontal (g : grid) (N : Int) (hN : N ≠ 0) (hnh : (horizontal_cells g N).Nodup)
    (hnv : (vertical_cells g N).Nodup) :
    ∀ (i k : Nat) (s : first_word_positioner), in_horizontal s N (horizontal_cells g N) k →
      k ≤ (horizontal_cells g N).length →
      yields g ((anchors_of g N).get? (k + i)) (nth_anchor i s g) := by
  intro i
  induction i with
  | zero =>
    intro k s hs hk
    show yields g _ (s.call false g)
    rw [call_in_horizontal s g N k hN hs, Nat.add_zero, anchors_of_get?]
    cases hget : (horizontal_cells g N).get? k with
    | some p =>
      rw [if_pos (get?_some_lt _ _ _ hget)]
      exact ⟨rfl, rfl⟩
    | none =>
      have hlen : (horizontal_cells g N).length ≤ k := List.get?_eq_none.1 hget
      rw [if_neg (by omega)]
      have e : k - (horizontal_cells g N).length = 0 := by omega
      rw [e]
      cases (vertical_cells g N).get? 0 with
      | none => exact rfl
      | some q => exact ⟨rfl, rfl⟩
  | succ i ih =>
    intro k s hs hk
    rw [nth_anchor_succ, call_in_horizontal s g N k hN hs]
    cases hget : (horizontal_cells g N).get? k with
    | some p =>
      have hs2 : in_horizontal { s with m_occupied := s.m_occupied.put p.1 p.2 '#' } N
          (horizontal_cells g N) (k + 1) :=
        ⟨hs.1, hs.2.1, hs.2.2.1, hs.2.2.2.1, marked_put _ _ k p hnh hs.2.2.2.2 hget⟩
      have h1 := ih (k + 1) _ hs2 (get?_some_lt _ _ _ hget)
      have e : k + 1 + i = k + (i + 1) := by omega
      rw [e] at h1
      exact h1
    | none =>
      have hlen : (horizontal_cells g N).length ≤ k := List.get?_eq_none.1 hget
      rw [anchors_of_get?, if_neg (by omega)]
      have e : k + (i + 1) - (horizontal_cells g N).length = i + 1 := by omega
      rw [e]
      have hm0 := marked_reset s.m_occupied (vertical_cells g N) hs.2.2.2.1
      cases hv : (vertical_cells g N).get? 0 with
      | none =>
        have hs2 : in_vertical ⟨true, true, s.m_occupied.reset⟩ N (vertical_cells g N) 0 :=
          ⟨rfl, rfl, hs.2.2.1, hm0⟩
        have h1 := run_vertical g N hN hnv i 0 _ hs2
        rw [get?_none_of_ge _ 0 (0 + i) hv (by omega)] at h1
        rw [get?_none_of_ge _ 0 (i + 1) hv (by omega)]
        exact h1
      | some q =>
        have hs2 : in_vertical ⟨true, true, s.m_occupied.reset.put q.1 q.2 '#'⟩ N
            (vertical_cells g N) 1 :=
          ⟨rfl, rfl, hs.2.2.1, marked_put _ _ 0 q hnv hm0 hv⟩
        have h1 := run_vertical g N hN hnv i 1 _ hs2
        have e2 : 1 + i = i + 1 := by omega
        rw [e2] at h1
        exact h1

/-- The calls of a new generator are those of the generator after `prepare`. -/
theorem nth_anchor_fresh (g : grid) (i : Nat) :
    nth_anchor i fresh g = nth_anchor i (prepare fresh g) g := by
  have hpp : prepare (prepare fresh g) g = prepare fresh g := by
    unfold prepare
    split
    · split <;> rfl
    · rfl
  have hc : fresh.call false g = (prepare fresh g).call false g := by
    unfold call
    rw [hpp]
  cases i with
  | zero => exact hc
  | succ i =>
    rw [nth_anchor_succ, nth_anchor_succ, hc]

/-- The anchors of a new generator on a grid with `N` rows, `N` not 0. -/
theorem run_fresh (g : grid) (N : Int) (hrows : g.m_num_rows = N) (hN : N ≠ 0)
    (hnh : (horizontal_cells g N).Nodup) (hnv : (vertical_cells g N).Nodup) (i : Nat) :
    yields g ((anchors_of g N).get? i) (nth_anchor i fresh g) := by
  have hp : prepare fresh g = ⟨false, false, matrix.create g.get_num_rows g.get_num_cols max_char⟩ := by
    unfold prepare fresh
    simp [matrix.get_num_rows, matrix.empty]
  have hs : in_horizontal (prepare fresh g) N (horizontal_cells g N) 0 := by
    rw [hp]
    refine ⟨rfl, rfl, hrows, rfl, ?_, ?_⟩
    · intro p hp
      simp at hp
    · intro p _
      rfl
  have h1 := run_horizontal g N hN hnh hnv i 0 _ hs (Nat.zero_le _)
  rw [Nat.zero_add] at h1
  rw [nth_anchor_fresh]
  exact h1

end first_word_positioner

/-! ## The anchors on a square grid -/

theorem takeWhile_range (p : Nat → Bool) (m : Nat) (h1 : ∀ i, i < m → p i = true) :
    ∀ n : Nat, m ≤ n → (m < n → p m = false) → (List.range n).takeWhile p = List.range m := by
  intro n
  induction n with
  | zero =>
    intro hmn _
    have : m = 0 := by omega
    rw [this]
    rfl
  | succ n ih =>
    intro hmn h2
    rcases Nat.eq_or_lt_of_le hmn with heq | hlt
    · rw [← heq]
      exact List.takeWhile_eq_self_iff.2 (fun x hx => h1 x (List.mem_range.1 hx))
    · have hmn2 : m ≤ n := by omega
      rw [List.range_succ]
      rcases Nat.eq_or_lt_of_le hmn2 with heq2 | hlt2
      · subst heq2
        rw [List.takeWhile_append_of_pos (fun x hx => h1 x (List.mem_range.1 hx))]
        have : p m = false := h2 (by omega)
        simp [List.takeWhile_cons, this]
      · have hih := ih hmn2 (fun _ => h2 (by omega))
        rw [List.takeWhile_append, hih]
        rw [if_neg (by rw [List.length_range, List.length_range]; omega)]

theorem nodup_indices (n : Int) : (indices n).Nodup := by
  unfold indices
  exact (List.nodup_range _).map (fun a b h => Int.ofNat.inj h)

namespace first_word_positioner

theorem cells_nodup (brk : Int → Int → Bool) (R C : Int) : (cells brk R C).Nodup := by
  unfold cells
  rw [List.nodup_flatMap]
  constructor
  · intro r _
    apply List.Nodup.map (fun a b h => (Prod.mk.inj h).2)
    exact (List.takeWhile_sublist _).nodup (nodup_indices C)
  · refine (nodup_indices R).imp ?_
    intro a b hab x hxa hxb
    obtain ⟨c1, _, rfl⟩ := List.mem_map.1 hxa
    obtain ⟨c2, _, h2⟩ := List.mem_map.1 hxb
    exact hab (Prod.mk.inj h2).1.symm

theorem horizontal_cells_square (g : grid) (n L : Nat) (hL1 : 1 ≤ L) (hLn : L ≤ n)
    (hsize : get_size (first_word g) = L) :
    horizontal_cells g n = (List.range n).flatMap (fun (r : Nat) =>
      (List.range (n - L + 1)).map (fun (c : Nat) => ((r : Int), (c : Int)))) := by
  unfold horizontal_cells cells
  rw [hsize, indices_natCast, List.flatMap_map]
  apply List.flatMap_congr
  intro r _
  rw [List.takeWhile_map, takeWhile_range _ (n - L + 1) _ n (by omega), List.map_map]
  · rfl
  · intro hlt
    simp only [Function.comp, Int.ofNat_eq_coe, Bool.not_eq_false', decide_eq_true_eq]
    omega
  · intro i hi
    simp only [Function.comp, Int.ofNat_eq_coe, Bool.not_eq_true', decide_eq_false_iff_not]
    omega

theorem takeWhile_const {α : Type} (b : Bool) (l : List α) :
    l.takeWhile (fun _ => b) = if b then l else [] := by
  cases b with
  | true => exact List.takeWhile_eq_self_iff.2 (fun _ _ => rfl)
  | false => cases l <;> rfl

theorem vertical_cells_square (g : grid) (n L : Nat) (hL1 : 1 ≤ L) (hLn : L ≤ n)
    (hsize : get_size (first_word g) = L) :
    vertical_cells g n = (List.range (n - L + 1)).flatMap (fun (r : Nat) =>
      (List.range n).map (fun (c : Nat) => ((r : Int), (c : Int)))) := by
  unfold vertical_cells cells
  rw [hsize, indices_natCast, List.flatMap_map]
  rw [flatMap_range_cut _ (n - L + 1) n (by omega)]
  · apply List.flatMap_congr
    intro r hr
    have hr1 := List.mem_range.1 hr
    simp only [Function.comp]
    rw [takeWhile_const, if_pos, List.map_map]
    · rfl
    · simp only [Int.ofNat_eq_coe, Bool.not_eq_true', decide_eq_false_iff_not]
      omega
  · intro i hmi hin
    simp only [Function.comp]
    rw [takeWhile_const, if_neg]
    · rfl
    · simp only [Int.ofNat_eq_coe, Bool.not_eq_true', decide_eq_false_iff_not, not_not]
      omega

end first_word_positioner

theorem length_flatMap_const {α β : Type} (f : α → List β) (c : Nat) :
    ∀ l : List α, (∀ x ∈ l, (f x).length = c) → (l.flatMap f).length = l.length * c := by
  intro l
  induction l with
  | nil => intro _; simp
  | cons a l ih =>
    intro h
    rw [List.flatMap_cons, List.length_append, h a (List.mem_cons_self _ _),
      ih (fun x hx => h x (List.mem_cons_of_mem _ hx)), List.length_cons]
    rw [Nat.succ_mul]
    omega

theorem horizontal_anchors_length (n L : Nat) :
    (horizontal_anchors n L).length = n * (n - L + 1) := by
  unfold horizontal_anchors
  rw [length_flatMap_const _ (n - L + 1), List.length_range]
  intro x _
  rw [List.length_map, List.length_range]

theorem vertical_anchors_length (n L : Nat) :
    (vertical_anchors n L).length = (n - L + 1) * n := by
  unfold vertical_anchors
  rw [length_flatMap_const _ n, List.length_range]
  intro x _
  rw [List.length_map, List.length_range]

theorem mem_horizontal_anchors (n L : Nat) (a : Int × Int × orientation)
    (h : a ∈ horizontal_anchors n L) :
    ∃ r c : Nat, r < n ∧ c < n - L + 1 ∧ a = ((r : Int), (c : Int), orientation.hori) := by
  unfold horizontal_anchors at h
  obtain ⟨r, hr, h2⟩ := List.mem_flatMap.1 h
  obtain ⟨c, hc, h3⟩ := List.mem_map.1 h2
  exact ⟨r, c, List.mem_range.1 hr, List.mem_range.1 hc, h3.symm⟩

theorem mem_vertical_anchors (n L : Nat) (a : Int × Int × orientation)
    (h : a ∈ vertical_anchors n L) :
    ∃ r c : Nat, r < n - L + 1 ∧ c < n ∧ a = ((r : Int), (c : Int), orientation.vert) := by
  unfold vertical_anchors at h
  obtain ⟨r, hr, h2⟩ := List.mem_flatMap.1 h
  obtain ⟨c, hc, h3⟩ := List.mem_map.1 h2
  exact ⟨r, c, List.mem_range.1 hr, List.mem_range.1 hc, h3.symm⟩

namespace first_word_positioner

theorem anchors_of_nodup (g : grid) (N : Int) : (anchors_of g N).Nodup := by
  unfold anchors_of
  rw [List.nodup_append]
  refine ⟨?_, ?_, ?_⟩
  · apply List.Nodup.map _ (cells_nodup _ _ _)
    intro a b h
    exact Prod.ext (Prod.mk.inj h).1 (Prod.mk.inj (Prod.mk.inj h).2).1
  · apply List.Nodup.map _ (cells_nodup _ _ _)
    intro a b h
    exact Prod.ext (Prod.mk.inj h).1 (Prod.mk.inj (Prod.mk.inj h).2).1
  · intro x hx hy
    obtain ⟨p, _, rfl⟩ := List.mem_map.1 hx
    obtain ⟨q, _, h2⟩ := List.mem_map.1 hy
    have := (Prod.mk.inj (Prod.mk.inj h2).2).2
    cases this

theorem anchors_of_square (g : grid) (n L : Nat) (hL1 : 1 ≤ L) (hLn : L ≤ n)
    (hsize : get_size (first_word g) = L) : anchors_of g n = square_anchors n L := by
  unfold anchors_of square_anchors horizontal_anchors vertical_anchors
  rw [horizontal_cells_square g n L hL1 hLn hsize, vertical_cells_square g n L hL1 hLn hsize,
    List.map_flatMap, List.map_flatMap]
  simp only [List.map_map]
  rfl

end first_word_positioner

/-- C40, as amended (a first word of at least one letter): on a square grid of n
rows and n columns whose first word has length L, 1 <= L <= n, the successive
calls of a new anchor generator return true exactly 2 * n * (n - L + 1) times,
each with the first word set at its anchor: first the n * (n - L + 1)
horizontal anchors (r, c) with c <= n - L, row after row, then the
(n - L + 1) * n vertical anchors (r, c) with r <= n - L, row after row; every
later call returns false.  The anchors are pairwise distinct, and at each the
word lies inside the grid. -/
theorem anchors_on_square (g : grid) (n L : Nat) (hrows : g.m_num_rows = n)
    (hcols : g.m_num_cols = n) (hword : (first_word_positioner.first_word g).length = L)
    (hL1 : 1 ≤ L) (hLn : L ≤ n) (hn : n ≤ 32767) :
    (horizontal_anchors n L).length = n * (n - L + 1) ∧
    (vertical_anchors n L).length = (n - L + 1) * n ∧
    (square_anchors n L).length = 2 * n * (n - L + 1) ∧
    (∀ (k : Nat) (a : Int × Int × orientation), (square_anchors n L).get? k = some a →
      (nth_anchor k first_word_positioner.fresh g).1 = true ∧
      (nth_anchor k first_word_positioner.fresh g).2.2 = g.set 0 a.1 a.2.1 a.2.2) ∧
    (∀ k : Nat, (square_anchors n L).length ≤ k →
      (nth_anchor k first_word_positioner.fresh g).1 = false) ∧
    (square_anchors n L).Nodup ∧
    (∀ a ∈ square_anchors n L,
      0 ≤ a.1 ∧ a.1 < g.m_num_rows ∧ 0 ≤ a.2.1 ∧ a.2.1 < g.m_num_cols ∧
      (a.2.2 = orientation.hori → a.2.1 + L ≤ g.m_num_cols) ∧
      (a.2.2 = orientation.vert → a.1 + L ≤ g.m_num_rows)) := by
  have hsize : get_size (first_word_positioner.first_word g) = L := by
    rw [get_size_of_small _ (by omega), hword]
  have hN : (n : Int) ≠ 0 := by omega
  have hsq := first_word_positioner.anchors_of_square g n L hL1 hLn hsize
  have hrun := first_word_positioner.run_fresh g n hrows hN
    (first_word_positioner.cells_nodup _ _ _) (first_word_positioner.cells_nodup _ _ _)
  rw [hsq] at hrun
  refine ⟨horizontal_anchors_length n L, vertical_anchors_length n L, ?_, ?_, ?_, ?_, ?_⟩
  · unfold square_anchors
    rw [List.length_append, horizontal_anchors_length, vertical_anchors_length]
    rw [Nat.mul_comm (n - L + 1) n, Nat.mul_assoc]
    omega
  · intro k a ha
    have h := hrun k
    rw [ha] at h
    exact h
  · intro k hk
    have h := hrun k
    rw [List.get?_eq_none.2 hk] at h
    exact h
  · rw [← hsq]
    exact first_word_positioner.anchors_of_nodup g n
  · intro a ha
    rw [hrows, hcols]
    unfold square_anchors at ha
    rcases List.mem_append.1 ha with h | h
    · obtain ⟨r, c, hr, hc, rfl⟩ := mem_horizontal_anchors n L a h
      refine ⟨by simp, by simpa using hr, by simp, by simp only; omega, ?_, ?_⟩
      · intro _
        simp only
        omega
      · intro h2
        cases h2
    · obtain ⟨r, c, hr, hc, rfl⟩ := mem_vertical_anchors n L a h
      refine ⟨by simp, by simp only; omega, by simp, by simpa using hc, ?_, ?_⟩
      · intro h2
        cases h2
      · intro _
        simp only
        omega

/-! ## The claims at single inputs -/

set_option maxRecDepth 100000 in
/-- C1, at the failing input: on the grid of 2 rows and 1 column with the words
"ab", "ab" the organizer returns true with the first word placed horizontally at
(0, 0), so that its second letter lies in column 1 of a grid with one column. -/
theorem organizer_footprint_outside :
    organize [⟨"ab", ""⟩, ⟨"ab", ""⟩] 2 1
    = some (true, 2, 1, [(0, 0, orientation.hori), (0, 0, orientation.vert)], [false, true]) := by
  rfl

/-- C2, at an input: the grid of mouth, open, never with 11 rows and 11 columns. -/
theorem call_true_iff_organized_witness :
    blank (grid.constructed [⟨"mouth", "expl 1"⟩, ⟨"open", "expl 2"⟩, ⟨"never", "expl 3"⟩]
      11 11 0) ∧
    ((organizer.call ⟨false⟩ (grid.constructed
        [⟨"mouth", "expl 1"⟩, ⟨"open", "expl 2"⟩, ⟨"never", "expl 3"⟩] 11 11 0)).1 = true ↔
      (organizer.call ⟨false⟩ (grid.constructed
        [⟨"mouth", "expl 1"⟩, ⟨"open", "expl 2"⟩, ⟨"never", "expl 3"⟩] 11 11 0)).2.2.organized
        = true) :=
  ⟨⟨by decide, by decide⟩,
   organizer.call_true_iff_organized _ ⟨by decide, by decide⟩⟩

set_option maxRecDepth 100000 in
/-- C3, at the input that contradicts it: for viravira and exumar on 5 rows and 5
columns, one worker and no stop, `start` ends with the dimension error, where
the claim gives "no solution" (no ordering on which the organizer succeeds). -/
theorem start_raises_instead_of_no_solution :
    (assembler.start (dispatcher.synchronous 1 (fun _ => 0) (fun _ => false)) assembler.fresh
      [⟨"viravira", ""⟩, ⟨"exumar", ""⟩] 5 5 1 18446744073709551615).1.ending
      = ending.dimension_error ∧
    (first_success (submitted [⟨"viravira", ""⟩, ⟨"exumar", ""⟩] 5 5
      18446744073709551615)).ending = ending.no_solution := by
  constructor <;> rfl

set_option maxRecDepth 100000 in
/-- C3, at the inputs of the tests: viravira and exumar on 11 rows and 11 columns. -/
theorem start_returns_first_success_witness :
    ([⟨"viravira", ""⟩, ⟨"exumar", ""⟩] : entries).length ≤ 20 ∧
    (grid.construct [⟨"viravira", ""⟩, ⟨"exumar", ""⟩] 11 11 0).isSome = true ∧
    (assembler.start (dispatcher.synchronous 1 (fun _ => 0) (fun _ => false)) assembler.fresh
      [⟨"viravira", ""⟩, ⟨"exumar", ""⟩] 11 11 1 18446744073709551615).1
      = first_success (submitted [⟨"viravira", ""⟩, ⟨"exumar", ""⟩] 11 11
          18446744073709551615) :=
  ⟨by decide, by decide,
   assembler.start_returns_first_success (fun _ => 0) _ 11 11 _ (by decide) (by decide)⟩

set_option maxRecDepth 100000 in
/-- The two searches of the tests: viravira and exumar on 11 x 11 are solved at the
first attempt, viravira alone is not solved. -/
theorem start_on_test_inputs :
    report (assembler.start (dispatcher.synchronous 1 (fun _ => 0) (fun _ => false))
      assembler.fresh [⟨"viravira", ""⟩, ⟨"exumar", ""⟩] 11 11 1 18446744073709551615)
      = (ending.solved, 1, 1, 1, false, true) ∧
    report (assembler.start (dispatcher.synchronous 1 (fun _ => 0) (fun _ => false))
      assembler.fresh [⟨"viravira", ""⟩] 11 11 1 18446744073709551615)
      = (ending.no_solution, 1, 1, 1, false, false) := by
  constructor <;> rfl

set_option maxRecDepth 100000 in
/-- C5, at the input that contradicts it: open and oxen on 2 rows and 3 columns.
No stop is requested and no solved grid is recorded, `min(2!, max_attempts)` is 2,
and `start` ends with `get_num_attempts` 1 and no job published. -/
theorem attempts_not_min_on_dimension_error :
    report (assembler.start (dispatcher.synchronous 1 (fun _ => 0) (fun _ => false))
      assembler.fresh [⟨"open", ""⟩, ⟨"oxen", ""⟩] 2 3 1 18446744073709551615)
      = (ending.dimension_error, 1, 1, 0, false, false) ∧
    min ([⟨"open", ""⟩, ⟨"oxen", ""⟩] : entries).length.factorial 18446744073709551615 = 2 := by
  constructor <;> rfl

set_option maxRecDepth 100000 in
/-- C5, at an input: abc, xyz, klm on 11 x 11 with one worker: no ordering can be
organized, and all 3! = 6 attempts are made, each with its job. -/
theorem attempts_made_bound_witness :
    ([⟨"abc", ""⟩, ⟨"xyz", ""⟩, ⟨"klm", ""⟩] : entries).length ≤ 20 ∧
    (assembler.start (dispatcher.synchronous 1 (fun _ => 0) (fun _ => false)) assembler.fresh
      [⟨"abc", ""⟩, ⟨"xyz", ""⟩, ⟨"klm", ""⟩] 11 11 1 18446744073709551615).2.1.get_num_attempts
      = min ([⟨"abc", ""⟩, ⟨"xyz", ""⟩, ⟨"klm", ""⟩] : entries).length.factorial
          18446744073709551615 ∧
    jobs_in (assembler.start (dispatcher.synchronous 1 (fun _ => 0) (fun _ => false))
      assembler.fresh [⟨"abc", ""⟩, ⟨"xyz", ""⟩, ⟨"klm", ""⟩] 11 11 1
      18446744073709551615).2.2
      = min ([⟨"abc", ""⟩, ⟨"xyz", ""⟩, ⟨"klm", ""⟩] : entries).length.factorial
          18446744073709551615 :=
  ⟨by decide,
   (assembler.attempts_made_bound (dispatcher.synchronous 1 (fun _ => 0) (fun _ => false))
      assembler.fresh [⟨"abc", ""⟩, ⟨"xyz", ""⟩, ⟨"klm", ""⟩] 11 11 1 18446744073709551615
      (by decide)).2.2 (by decide) (by rfl) (by rfl)⟩

set_option maxRecDepth 100000 in
/-- C6, at inputs: an assembler with 5 attempts made, a solved grid recorded, and
then stopped; and the first round of the search for abc, xyz, klm when a
subscriber calls `stop` on observing attempt 1. -/
theorem stop_ends_generation_witness :
    ((assembler.stop ⟨20, [], 5, ⟨false, [], some (grid.constructed [] 11 11 5), 5⟩⟩).m_shared.m_stop
      = true ∧
    (assembler.stop ⟨20, [], 5, ⟨false, [], some (grid.constructed [] 11 11 5), 5⟩⟩).m_shared.m_solved.isSome
      = true ∧
    assembler.finish
      (assembler.stop ⟨20, [], 5, ⟨false, [], some (grid.constructed [] 11 11 5), 5⟩⟩)
      = outcome.no_solution) ∧
    (assembler.generate (dispatcher.synchronous 1 (fun _ => 0) (fun n => n == 1)) 11 11 6 (5 + 1)
      [⟨"abc", ""⟩, ⟨"klm", ""⟩, ⟨"xyz", ""⟩]
      (assembler.configured assembler.fresh [⟨"abc", ""⟩, ⟨"xyz", ""⟩, ⟨"klm", ""⟩] 1)
      []).2.1.get_num_attempts = 0 + 1 :=
  ⟨⟨rfl, rfl,
    ((assembler.stop_ends_generation (dispatcher.synchronous 1 (fun _ => 0) (fun _ => false))).1
      (assembler.stop ⟨20, [], 5, ⟨false, [], some (grid.constructed [] 11 11 5), 5⟩⟩)
      rfl).2.1⟩,
   ((assembler.stop_ends_generation (dispatcher.synchronous 1 (fun _ => 0) (fun n => n == 1))).2
      (assembler.configured assembler.fresh [⟨"abc", ""⟩, ⟨"xyz", ""⟩, ⟨"klm", ""⟩] 1)
      11 11 6 5 [⟨"abc", ""⟩, ⟨"klm", ""⟩, ⟨"xyz", ""⟩] []
      (grid.constructed [⟨"xyz", ""⟩, ⟨"klm", ""⟩, ⟨"abc", ""⟩] 11 11 1)
      rfl (by decide) rfl (by rfl) (by rfl)).2.1⟩

set_option maxRecDepth 100000 in
/-- A stop requested by a subscriber on observing attempt 2 of the 6 of abc, xyz,
klm: no solution, and 2 attempts made. -/
theorem start_stopped_at_attempt :
    report (assembler.start (dispatcher.synchronous 1 (fun _ => 0) (fun n => n == 2))
      assembler.fresh [⟨"abc", ""⟩, ⟨"xyz", ""⟩, ⟨"klm", ""⟩] 11 11 1 18446744073709551615)
      = (ending.no_solution, 2, 2, 2, true, false) := by
  rfl

set_option maxRecDepth 100000 in
/-- C7, at the input that contradicts it: the single word open on 2 rows and 3
columns.  When the dimension error surfaces `get_num_attempts` is 1 and one
new-attempt event has been published. -/
theorem dimension_error_after_first_attempt_counted :
    report (assembler.start (dispatcher.synchronous 1 (fun _ => 0) (fun _ => false))
      assembler.fresh [⟨"open", "expl 1"⟩] 2 3 1 18446744073709551615)
      = (ending.dimension_error, 1, 1, 0, false, false) := by
  rfl

/-- C7, as amended, at an input: the single word open on 2 rows and 3 columns. -/
theorem dimension_error_at_first_attempt_witness :
    assembler.fresh.m_shared.m_stop = false ∧ assembler.fresh.m_shared.m_solved = none ∧
    1 ≤ 18446744073709551615 ∧ ([⟨"open", "expl 1"⟩] : entries).length ≤ 20 ∧
    grid.construct [⟨"open", "expl 1"⟩] 2 3 0 = none ∧
    (assembler.start (dispatcher.synchronous 1 (fun _ => 0) (fun _ => false)) assembler.fresh
      [⟨"open", "expl 1"⟩] 2 3 1 18446744073709551615).2.1.get_num_attempts = 1 :=
  ⟨rfl, rfl, by decide, by decide, by rfl,
   (assembler.dimension_error_at_first_attempt
      (dispatcher.synchronous 1 (fun _ => 0) (fun _ => false)) assembler.fresh
      [⟨"open", "expl 1"⟩] 2 3 1 18446744073709551615 rfl rfl (by decide) (by decide)
      (by rfl)).2.1⟩

set_option maxRecDepth 100000 in
/-- C8, at the failing input: a word of two NUL characters and the word "b" share
no character, yet `find_intersections` pairs the terminator of "b" with the
first NUL, the pre-filter lets the grid pass, and the organizer goes on to
place both words and returns true. -/
theorem prefilter_passes_without_common_character :
    (∀ c ∈ (String.mk [Char.ofNat 0, Char.ofNat 0]).data, c ∉ "b".data) ∧
    find_intersections false (String.mk [Char.ofNat 0, Char.ofNat 0]) "b" = [(1, 0)] ∧
    two_first_words_intersect false
      (grid.constructed [⟨String.mk [Char.ofNat 0, Char.ofNat 0], ""⟩, ⟨"b", ""⟩] 2 2 0) = true ∧
    organize [⟨String.mk [Char.ofNat 0, Char.ofNat 0], ""⟩, ⟨"b", ""⟩] 2 2
      = some (true, 2, 2, [(1, 0, orientation.hori), (0, 0, orientation.vert)], [true, true]) := by
  refine ⟨by decide, by rfl, by rfl, by rfl⟩

set_option maxRecDepth 100000 in
/-- C9, at the input that contradicts it: for the single word open on 11 rows and 8
columns the organizer returns false and the word stays unplaced. -/
theorem organizer_fails_on_single_word :
    organize [⟨"open", "expl 1"⟩] 11 8
      = some (false, 11, 8, [(32767, 32767, orientation.undef)], [true]) := by
  rfl

/-- C9, as amended, at an input: the single word open on 11 rows and 8 columns. -/
theorem call_single_word_fails_witness :
    grid.construct [⟨"open", "expl 1"⟩] 11 8 0
      = some (grid.constructed [⟨"open", "expl 1"⟩] 11 8 0) ∧
    (grid.constructed [⟨"open", "expl 1"⟩] 11 8 0).organized = false :=
  ⟨by rfl,
   (organizer.call_single_word_fails ⟨"open", "expl 1"⟩ 11 8 0 _ (by rfl)).2.2⟩

/-- C10, at the inputs of the tests: viravira on 11 x 11 with 1 and with 2 workers. -/
theorem one_word_no_solution_witness :
    organizer.call ⟨false⟩ (grid.constructed [⟨"viravira", "expl viravira"⟩] 11 11 1)
      = (false, ⟨false⟩, grid.constructed [⟨"viravira", "expl viravira"⟩] 11 11 1) ∧
    (assembler.start (dispatcher.synchronous 1 (fun _ => 0) (fun _ => false)) assembler.fresh
      [⟨"viravira", "expl viravira"⟩] 11 11 1 18446744073709551615).1 = outcome.no_solution ∧
    (assembler.start (dispatcher.synchronous 2 (fun n => n) (fun _ => false)) assembler.fresh
      [⟨"viravira", "expl viravira"⟩] 11 11 2 18446744073709551615).1 = outcome.no_solution :=
  ⟨assembler.one_word_no_solution.1 _ _ (layout.of_entry ⟨"viravira", "expl viravira"⟩) rfl,
   assembler.one_word_no_solution.2 _ 11 11 1 _ _ _ (by decide) (by decide),
   assembler.one_word_no_solution.2 _ 11 11 2 _ _ _ (by decide) (by decide)⟩

/-- C11 at the words of test_004: open and black have no NUL and no character in
common, and the result is empty. -/
theorem find_intersections_sound_witness :
    Char.ofNat 0 ∉ ("open" : word).data ∧ Char.ofNat 0 ∉ ("black" : word).data ∧
    (∀ c ∈ ("open" : word).data, c ∉ ("black" : word).data) ∧
    find_intersections false "open" "black" = [] :=
  ⟨by decide, by decide, by decide,
   (find_intersections_sound false "open" "black" (by decide) (by decide)).2 (by decide)⟩

/-- C12, at the failing input: against the placed word "on" the word "n" gets no
pair, although its letter 0 is the letter 1 of the placed word; and the first two
words of test_018, chat and debute, get none although both have the letter t. -/
theorem find_intersections_misses_pair :
    find_intersections false "on" "n" = [] ∧
    ("n" : word).data.get? 0 = ("on" : word).data.get? 1 ∧
    find_intersections false "chat" "debute" = [] ∧
    ("debute" : word).data.get? 4 = ("chat" : word).data.get? 3 := by
  decide

/-- C13, at the input that contradicts it: for open and never (test_003) the
pairs come as (1,2), (3,2), (0,3), which is not ascending in the index in the
word to place (the first component). -/
theorem find_intersections_not_by_to_place_index :
    find_intersections false "open" "never" = [(1, 2), (3, 2), (0, 3)] ∧
    ¬ (find_intersections false "open" "never").Pairwise
      (fun a b => a.1 < b.1 ∨ (a.1 = b.1 ∧ a.2 < b.2)) := by
  decide

/-- C13, as amended, at the words of test_003: open and never. -/
theorem find_intersections_order_witness :
    (find_intersections false "open" "never").Pairwise
      (fun a b => a.2 < b.2 ∨ (a.2 = b.2 ∧ a.1 < b.1)) :=
  find_intersections_order false "open" "never"

set_option maxRecDepth 100000 in
/-- C14 at the inputs of the tests, never against the vertical open with the pair
(1, 2): on 7 x 11 with open at (0, 4) the word is committed horizontally at
(2, 3) (test_009); on 5 x 11 with open at (1, 8) and at (0, 0) the pair is
rejected and the grid is unchanged (test_007, test_007a). -/
theorem position_horizontally_spec_witness :
    (first_placed open_never 7 11 0 4 orientation.vert).m_layouts.get? 0
      = some ⟨⟨"open", "expl 1"⟩, 0, 4, orientation.vert⟩ ∧
    (first_placed open_never 7 11 0 4 orientation.vert).m_layouts.get? 1
      = some (layout.of_entry ⟨"never", "expl 2"⟩) ∧
    (position_horizontally (first_placed open_never 7 11 0 4 orientation.vert) (1, 2) 0 1).1
      = true ∧
    committed (first_placed open_never 7 11 0 4 orientation.vert)
      (position_horizontally (first_placed open_never 7 11 0 4 orientation.vert) (1, 2) 0 1).2
      1 2 3 orientation.hori ∧
    (position_horizontally (first_placed open_never 5 11 1 8 orientation.vert) (1, 2) 0 1).1
      = false ∧
    (position_horizontally (first_placed open_never 5 11 1 8 orientation.vert) (1, 2) 0 1).2
      = first_placed open_never 5 11 1 8 orientation.vert ∧
    (position_horizontally (first_placed open_never 5 11 0 0 orientation.vert) (1, 2) 0 1).1
      = false ∧
    (position_horizontally (first_placed open_never 5 11 0 0 orientation.vert) (1, 2) 0 1).2
      = first_placed open_never 5 11 0 0 orientation.vert :=
  ⟨by rfl, by rfl, by rfl,
   (position_horizontally_spec (first_placed open_never 7 11 0 4 orientation.vert) 1 2 0 1
      ⟨⟨"open", "expl 1"⟩, 0, 4, orientation.vert⟩ (layout.of_entry ⟨"never", "expl 2"⟩)
      (by rfl) (by rfl) (by decide) (by decide) (by decide)).2.1 (by rfl),
   by rfl,
   (position_horizontally_spec (first_placed open_never 5 11 1 8 orientation.vert) 1 2 0 1
      ⟨⟨"open", "expl 1"⟩, 1, 8, orientation.vert⟩ (layout.of_entry ⟨"never", "expl 2"⟩)
      (by rfl) (by rfl) (by decide) (by decide) (by decide)).2.2 (by rfl),
   by rfl,
   (position_horizontally_spec (first_placed open_never 5 11 0 0 orientation.vert) 1 2 0 1
      ⟨⟨"open", "expl 1"⟩, 0, 0, orientation.vert⟩ (layout.of_entry ⟨"never", "expl 2"⟩)
      (by rfl) (by rfl) (by decide) (by decide) (by decide)).2.2 (by rfl)⟩

set_option maxRecDepth 100000 in
/-- C15 at the inputs of the tests, never against the horizontal open with the
pair (1, 2) on 11 x 5: with open at (1, 0) the word is committed vertically at
(0, 2) (test_012); with open at (8, 0) and at (0, 1) the pair is rejected and the
grid is unchanged (test_010, test_010a). -/
theorem position_vertically_spec_witness :
    (first_placed open_never 11 5 1 0 orientation.hori).m_layouts.get? 0
      = some ⟨⟨"open", "expl 1"⟩, 1, 0, orientation.hori⟩ ∧
    (first_placed open_never 11 5 1 0 orientation.hori).m_layouts.get? 1
      = some (layout.of_entry ⟨"never", "expl 2"⟩) ∧
    (position_vertically (first_placed open_never 11 5 1 0 orientation.hori) (1, 2) 0 1).1
      = true ∧
    committed (first_placed open_never 11 5 1 0 orientation.hori)
      (position_vertically (first_placed open_never 11 5 1 0 orientation.hori) (1, 2) 0 1).2
      1 0 2 orientation.vert ∧
    (position_vertically (first_placed open_never 11 5 8 0 orientation.hori) (1, 2) 0 1).1
      = false ∧
    (position_vertically (first_placed open_never 11 5 8 0 orientation.hori) (1, 2) 0 1).2
      = first_placed open_never 11 5 8 0 orientation.hori ∧
    (position_vertically (first_placed open_never 11 5 0 1 orientation.hori) (1, 2) 0 1).1
      = false ∧
    (position_vertically (first_placed open_never 11 5 0 1 orientation.hori) (1, 2) 0 1).2
      = first_placed open_never 11 5 0 1 orientation.hori :=
  ⟨by rfl, by rfl, by rfl,
   (position_vertically_spec (first_placed open_never 11 5 1 0 orientation.hori) 1 2 0 1
      ⟨⟨"open", "expl 1"⟩, 1, 0, orientation.hori⟩ (layout.of_entry ⟨"never", "expl 2"⟩)
      (by rfl) (by rfl) (by decide) (by decide) (by decide)).2.1 (by rfl),
   by rfl,
   (position_vertically_spec (first_placed open_never 11 5 8 0 orientation.hori) 1 2 0 1
      ⟨⟨"open", "expl 1"⟩, 8, 0, orientation.hori⟩ (layout.of_entry ⟨"never", "expl 2"⟩)
      (by rfl) (by rfl) (by decide) (by decide) (by decide)).2.2 (by rfl),
   by rfl,
   (position_vertically_spec (first_placed open_never 11 5 0 1 orientation.hori) 1 2 0 1
      ⟨⟨"open", "expl 1"⟩, 0, 1, orientation.hori⟩ (layout.of_entry ⟨"never", "expl 2"⟩)
      (by rfl) (by rfl) (by decide) (by decide) (by decide)).2.2 (by rfl)⟩

set_option maxRecDepth 100000 in
/-- C16, at the input that contradicts it: against open placed horizontally at
(1, 0) on 11 x 5 (test_012), `position` places never vertically at (0, 2), through
the pair (1, 2): row 1 - 1 and column 0 + 2.  No pair (i, j) of
`find_intersections` gives this position as (placed_row + j, placed_col - i). -/
theorem vertical_position_not_by_claimed_formula :
    find_intersections false "open" "never" = [(1, 2), (3, 2), (0, 3)] ∧
    (position false (first_placed open_never 11 5 1 0 orientation.hori) 0 1).1 = true ∧
    placements (position false (first_placed open_never 11 5 1 0 orientation.hori) 0 1).2
      = [(1, 0, orientation.hori), (0, 2, orientation.vert)] ∧
    ∀ x ∈ find_intersections false "open" "never", ((1 : Int) + x.2, (0 : Int) - x.1) ≠ (0, 2) :=
  ⟨by decide, by rfl, by rfl, by decide⟩

set_option maxRecDepth 100000 in
/-- C16, as amended, at the input of test_012: open horizontal at (1, 0) on 11 x 5,
never to place. -/
theorem position_against_horizontal_witness :
    (position false (first_placed open_never 11 5 1 0 orientation.hori) 0 1).1 = true ∧
    ∃ i j : Int, (i, j) ∈ find_intersections false "open" "never" ∧
      position false (first_placed open_never 11 5 1 0 orientation.hori) 0 1
        = position_vertically (first_placed open_never 11 5 1 0 orientation.hori) (i, j) 0 1 ∧
      (position false (first_placed open_never 11 5 1 0 orientation.hori) 0 1).2.m_layouts.get? 1
        = some ⟨⟨"never", "expl 2"⟩, 1 - i, 0 + j, orientation.vert⟩ :=
  ⟨by rfl,
   (position_against_horizontal false (first_placed open_never 11 5 1 0 orientation.hori) 0 1
      ⟨⟨"open", "expl 1"⟩, 1, 0, orientation.hori⟩ (layout.of_entry ⟨"never", "expl 2"⟩)
      (by rfl) (by rfl) rfl (by decide) (by decide)).1 (by rfl)⟩

set_option maxRecDepth 100000 in
/-- C17, at the failing input: on 2 x 2, against the word of two NUL characters
placed horizontally at (1, 0), with its letters in the occupancy map, `position`
places the word "b" through the pair (1, 0), vertically at (0, 0).  The word "b"
has no letter 1, and its only cell (0, 0) is no cell of the placed word: the two
words do not cross. -/
theorem position_places_without_crossing :
    find_intersections false (String.mk [Char.ofNat 0, Char.ofNat 0]) "b" = [(1, 0)] ∧
    (position false
      (first_placed [⟨String.mk [Char.ofNat 0, Char.ofNat 0], ""⟩, ⟨"b", ""⟩] 2 2 1 0
        orientation.hori) 0 1).1 = true ∧
    placements (position false
      (first_placed [⟨String.mk [Char.ofNat 0, Char.ofNat 0], ""⟩, ⟨"b", ""⟩] 2 2 1 0
        orientation.hori) 0 1).2 = [(1, 0, orientation.hori), (0, 0, orientation.vert)] ∧
    (position false
      (first_placed [⟨String.mk [Char.ofNat 0, Char.ofNat 0], ""⟩, ⟨"b", ""⟩] 2 2 1 0
        orientation.hori) 0 1).2.m_layouts.map footprint = [[(1, 0), (1, 1)], [(0, 0)]] ∧
    ("b" : word).length = 1 :=
  ⟨by rfl, by rfl, by rfl, by rfl, by rfl⟩

set_option maxRecDepth 100000 in
/-- C18 at the input of test_013: on 11 x 5, open horizontal at (1, 0) and extra
vertical at (1, 2); for never the pairs (1, 2) and (3, 2) are rejected and the
third pair (0, 3) is accepted, and `position` leaves never vertical at (1, 3). -/
theorem position_tries_in_order_witness :
    find_intersections false "open" "never" = [(1, 2), (3, 2), (0, 3)] ∧
    (position_vertically ((first_placed open_never_extra 11 5 1 0 orientation.hori).set 2 1 2
      orientation.vert) (1, 2) 0 1).1 = false ∧
    (position_vertically ((first_placed open_never_extra 11 5 1 0 orientation.hori).set 2 1 2
      orientation.vert) (3, 2) 0 1).1 = false ∧
    (position_vertically ((first_placed open_never_extra 11 5 1 0 orientation.hori).set 2 1 2
      orientation.vert) (0, 3) 0 1).1 = true ∧
    (position false ((first_placed open_never_extra 11 5 1 0 orientation.hori).set 2 1 2
      orientation.vert) 0 1
      = first_accepted
          (orthogonal_positioner orientation.hori
            ((first_placed open_never_extra 11 5 1 0 orientation.hori).set 2 1 2 orientation.vert)
            0 1)
          (find_intersections false "open" "never")
          ((first_placed open_never_extra 11 5 1 0 orientation.hori).set 2 1 2
            orientation.vert)) ∧
    placements (position false ((first_placed open_never_extra 11 5 1 0 orientation.hori).set 2
      1 2 orientation.vert) 0 1).2
      = [(1, 0, orientation.hori), (1, 3, orientation.vert), (1, 2, orientation.vert)] :=
  ⟨by decide, by rfl, by rfl, by rfl,
   (position_tries_in_order false
      ((first_placed open_never_extra 11 5 1 0 orientation.hori).set 2 1 2 orientation.vert) 0 1
      ⟨⟨"open", "expl 1"⟩, 1, 0, orientation.hori⟩ (layout.of_entry ⟨"never", "expl 2"⟩)
      (by rfl) (by rfl) (by decide)).1,
   by rfl⟩

set_option maxRecDepth 100000 in
/-- C19, at the failing input: on the grid of 1 row and 4 columns with the first
word abcd, which fits horizontally at (0, 0), the first call of a new anchor
generator returns false and places nothing, and so does the call after it. -/
theorem anchor_generator_misses_anchor :
    grid.construct [⟨"abcd", ""⟩] 1 4 0 = some (grid.constructed [⟨"abcd", ""⟩] 1 4 0) ∧
    (first_word_positioner.fresh.call false (grid.constructed [⟨"abcd", ""⟩] 1 4 0)).1 = false ∧
    placements (first_word_positioner.fresh.call false
      (grid.constructed [⟨"abcd", ""⟩] 1 4 0)).2.2 = [(32767, 32767, orientation.undef)] ∧
    ((first_word_positioner.fresh.call false (grid.constructed [⟨"abcd", ""⟩] 1 4 0)).2.1.call
      false (first_word_positioner.fresh.call false
        (grid.constructed [⟨"abcd", ""⟩] 1 4 0)).2.2).1 = false :=
  ⟨by rfl, by rfl, by rfl, by rfl⟩

set_option maxRecDepth 100000 in
/-- C20, at the failing input: on the grid of 2 rows and 1 column with the first
word ab, the first call of a new anchor generator returns true with the word
placed horizontally at (0, 0): column 0 plus length 2 exceeds the 1 column, and
the letter b is written into the cell (0, 1), outside the map. -/
theorem anchor_outside_grid :
    grid.construct [⟨"ab", ""⟩] 2 1 0 = some (grid.constructed [⟨"ab", ""⟩] 2 1 0) ∧
    (first_word_positioner.fresh.call false (grid.constructed [⟨"ab", ""⟩] 2 1 0)).1 = true ∧
    placements (first_word_positioner.fresh.call false
      (grid.constructed [⟨"ab", ""⟩] 2 1 0)).2.2 = [(0, 0, orientation.hori)] ∧
    (first_word_positioner.fresh.call false
      (grid.constructed [⟨"ab", ""⟩] 2 1 0)).2.2.m_num_cols = 1 ∧
    (first_word_positioner.fresh.call false
      (grid.constructed [⟨"ab", ""⟩] 2 1 0)).2.2.m_occupied.get 0 1 = 'b' :=
  ⟨by rfl, by rfl, by rfl, by rfl, by rfl⟩

set_option maxRecDepth 100000 in
/-- C21, at the failing input: on the newly constructed grid of 3 rows and 8
columns with the single word open (4 letters, no longer than the 8 columns), the
first call of a new anchor generator returns false and places nothing, so the
grid is not organized.  On 11 rows and 8 columns (test_001) the call returns
true with open horizontal at (0, 0). -/
theorem first_anchor_missing :
    grid.construct [⟨"open", "expl 1"⟩] 3 8 0
      = some (grid.constructed [⟨"open", "expl 1"⟩] 3 8 0) ∧
    (first_word_positioner.fresh.call false
      (grid.constructed [⟨"open", "expl 1"⟩] 3 8 0)).1 = false ∧
    placements (first_word_positioner.fresh.call false
      (grid.constructed [⟨"open", "expl 1"⟩] 3 8 0)).2.2 = [(32767, 32767, orientation.undef)] ∧
    (first_word_positioner.fresh.call false
      (grid.constructed [⟨"open", "expl 1"⟩] 3 8 0)).2.2.organized = false ∧
    (first_word_positioner.fresh.call false
      (grid.constructed [⟨"open", "expl 1"⟩] 11 8 0)).1 = true ∧
    placements (first_word_positioner.fresh.call false
      (grid.constructed [⟨"open", "expl 1"⟩] 11 8 0)).2.2 = [(0, 0, orientation.hori)] :=
  ⟨by rfl, by rfl, by rfl, by rfl, by rfl, by rfl⟩

set_option maxRecDepth 100000 in
/-- C25 at the input of the test of the grid: open set vertically at (1, 3) on 11
rows and 7 columns. -/
theorem set_places_word_witness :
    (grid.constructed [⟨"open", "expl 1"⟩] 11 7 0).m_layouts.get? 0
      = some (layout.of_entry ⟨"open", "expl 1"⟩) ∧
    footprint_inside (grid.constructed [⟨"open", "expl 1"⟩] 11 7 0)
      ⟨⟨"open", "expl 1"⟩, 1, 3, orientation.vert⟩ = true ∧
    ((grid.constructed [⟨"open", "expl 1"⟩] 11 7 0).set 0 1 3 orientation.vert).m_layouts.get? 0
      = some ⟨⟨"open", "expl 1"⟩, 1, 3, orientation.vert⟩ ∧
    ∀ t : Nat, t < 4 →
      ((grid.constructed [⟨"open", "expl 1"⟩] 11 7 0).set 0 1 3 orientation.vert).is_occupied
        (1 + t) 3 = some (char_at "open" t) :=
  ⟨by rfl, by rfl,
   (set_places_word (grid.constructed [⟨"open", "expl 1"⟩] 11 7 0) 0
      (layout.of_entry ⟨"open", "expl 1"⟩) 1 3 orientation.vert (by rfl) (Or.inr rfl)
      (by decide) (by rfl) (by decide)).1,
   (set_places_word (grid.constructed [⟨"open", "expl 1"⟩] 11 7 0) 0
      (layout.of_entry ⟨"open", "expl 1"⟩) 1 3 orientation.vert (by rfl) (Or.inr rfl)
      (by decide) (by rfl) (by decide)).2.2 rfl⟩

set_option maxRecDepth 100000 in
/-- C26 at the input of the test of the grid: door set vertically at (1, 3), open
horizontally at (6, 1) and window vertically at (2, 7) on 11 rows and 8 columns;
the three placements are as set, and the third `set` leaves the other two
placements alone. -/
theorem set_changes_only_witness :
    placements (apply_sets [(0, 1, 3, orientation.vert), (1, 6, 1, orientation.hori),
        (2, 2, 7, orientation.vert)] (grid.constructed door_open_window 11 8 0))
      = [(1, 3, orientation.vert), (6, 1, orientation.hori), (2, 7, orientation.vert)] ∧
    ∀ n : Nat, n ≠ 2 →
      ((apply_sets [(0, 1, 3, orientation.vert), (1, 6, 1, orientation.hori)]
        (grid.constructed door_open_window 11 8 0)).set 2 2 7 orientation.vert).m_layouts.get? n
      = (apply_sets [(0, 1, 3, orientation.vert), (1, 6, 1, orientation.hori)]
        (grid.constructed door_open_window 11 8 0)).m_layouts.get? n :=
  ⟨by rfl,
   (set_changes_only (apply_sets [(0, 1, 3, orientation.vert), (1, 6, 1, orientation.hori)]
      (grid.constructed door_open_window 11 8 0)) 2 (layout.of_entry ⟨"window", "expl 2"⟩)
      2 7 orientation.vert (by rfl) (by decide) (by decide)).2.2.2.2.2.2.1⟩

/-- C28 at the input of the test of the grid: door, open, window on 11 rows and 8
columns. -/
theorem construct_gives_witness :
    grid.construct door_open_window 11 8 0 = some (grid.constructed door_open_window 11 8 0) ∧
    (grid.constructed door_open_window 11 8 0).m_layouts.map layout.get_word
      = ["door", "open", "window"] ∧
    (grid.constructed door_open_window 11 8 0).longest_word = longest_length door_open_window ∧
    longest_length door_open_window = 6 :=
  ⟨by rfl,
   (construct_gives door_open_window 11 8 0 _ (by decide) (by rfl)).2.1,
   (construct_gives door_open_window 11 8 0 _ (by decide) (by rfl)).2.2.2.2.2.2.1,
   by decide⟩

set_option maxRecDepth 1000000 in
/-- C29 at the input of test_020: the 42 words sort to eg, ma, ot, st, gim, ..,
afunilar, viravira. -/
theorem sort_entries_on_test :
    (sort_entries entries_to_sort).map (fun e => e.m_word)
      = ["eg", "ma", "ot", "st", "gim", "pai", "pop", "tim", "chat", "dias", "esse", "hexa",
         "inox", "oval", "poxa", "sola", "agito", "atoba", "gases", "idade", "lados", "regis",
         "rotor", "usina", "aguipa", "aresta", "avivar", "crepom", "debute", "exumar", "rapina",
         "tamara", "teatro", "badalar", "farelos", "lesante", "renovar", "salutar", "sibliar",
         "sideral", "afunilar", "viravira"] ∧
    (sort_entries entries_to_sort).Perm entries_to_sort :=
  ⟨by decide, (sort_entries_sorted entries_to_sort).1⟩

set_option maxRecDepth 100000 in
/-- C22 at an input: the grid of mouth, open, never on 11 rows and 11 columns with
attempt number 7, after mouth has been set vertically at (1, 3) and open
horizontally at (6, 1), against the newly constructed grid with attempt number
0: the organizer returns true on both, with the same placements. -/
theorem placement_depends_on_permutation_witness :
    state_of mouth_open_never 11 11
      (apply_sets [(0, 1, 3, orientation.vert), (1, 6, 1, orientation.hori)]
        (grid.constructed mouth_open_never 11 11 7)) ∧
    (organizer.call ⟨false⟩ (grid.constructed mouth_open_never 11 11 0)).1 = true ∧
    (organizer.call ⟨false⟩
      (apply_sets [(0, 1, 3, orientation.vert), (1, 6, 1, orientation.hori)]
        (grid.constructed mouth_open_never 11 11 7))).1
      = (organizer.call ⟨false⟩ (grid.constructed mouth_open_never 11 11 0)).1 ∧
    placements (organizer.call ⟨false⟩
      (apply_sets [(0, 1, 3, orientation.vert), (1, 6, 1, orientation.hori)]
        (grid.constructed mouth_open_never 11 11 7))).2.2
      = placements (organizer.call ⟨false⟩ (grid.constructed mouth_open_never 11 11 0)).2.2 :=
  ⟨⟨rfl, rfl, rfl, rfl, rfl, rfl⟩, by rfl,
   (placement_depends_on_permutation mouth_open_never 11 11
      (apply_sets [(0, 1, 3, orientation.vert), (1, 6, 1, orientation.hori)]
        (grid.constructed mouth_open_never 11 11 7)) 0
      ⟨rfl, rfl, rfl, rfl, rfl, rfl⟩).1,
   (placement_depends_on_permutation mouth_open_never 11 11
      (apply_sets [(0, 1, 3, orientation.vert), (1, 6, 1, orientation.hori)]
        (grid.constructed mouth_open_never 11 11 7)) 0
      ⟨rfl, rfl, rfl, rfl, rfl, rfl⟩).2.1 (by rfl)⟩

set_option maxRecDepth 100000 in
/-- C24, at the input that contradicts it: for aa, ab, cb on 2 rows and 2 columns
the organizer returns false, although there is a complete arrangement under the
placement rules: aa at the first anchor the generator yields, horizontal at
(0, 0); ab against aa through the pair (0, 1), vertical at (0, 1); cb against ab
through the pair (1, 1), horizontal at (1, 0).  The pass of the organizer from
that anchor places ab through the pair (0, 0), vertical at (0, 0), and then cb
against no word. -/
theorem organizer_misses_arrangement :
    (organizer.call ⟨false⟩ (grid.constructed aa_ab_cb 2 2 0)).1 = false ∧
    (first_word_positioner.fresh.call false (grid.constructed aa_ab_cb 2 2 0)).1 = true ∧
    (first_word_positioner.fresh.call false (grid.constructed aa_ab_cb 2 2 0)).2.2
      = first_placed aa_ab_cb 2 2 0 0 orientation.hori ∧
    (0, 1) ∈ find_intersections false "aa" "ab" ∧
    (position_vertically (first_placed aa_ab_cb 2 2 0 0 orientation.hori) (0, 1) 0 1).1 = true ∧
    (1, 1) ∈ find_intersections false "ab" "cb" ∧
    (position_horizontally
      (position_vertically (first_placed aa_ab_cb 2 2 0 0 orientation.hori) (0, 1) 0 1).2
      (1, 1) 1 2).1 = true ∧
    (position_horizontally
      (position_vertically (first_placed aa_ab_cb 2 2 0 0 orientation.hori) (0, 1) 0 1).2
      (1, 1) 1 2).2.organized = true ∧
    placements (position_horizontally
      (position_vertically (first_placed aa_ab_cb 2 2 0 0 orientation.hori) (0, 1) 0 1).2
      (1, 1) 1 2).2
      = [(0, 0, orientation.hori), (0, 1, orientation.vert), (1, 0, orientation.hori)] ∧
    placements (pass 3 1 (first_placed aa_ab_cb 2 2 0 0 orientation.hori))
      = [(0, 0, orientation.hori), (0, 0, orientation.vert), (32767, 32767, orientation.undef)] :=
  ⟨by rfl, by rfl, by rfl, by decide, by rfl, by decide, by rfl, by rfl, by rfl, by rfl⟩

set_option maxRecDepth 100000 in
/-- C24, as amended, at the same input: aa, ab, cb on 2 rows and 2 columns. -/
theorem call_false_every_anchor_tried_witness :
    2 ≤ (grid.constructed aa_ab_cb 2 2 0).m_layouts.length ∧
    (organizer.call ⟨false⟩ (grid.constructed aa_ab_cb 2 2 0)).1 = false ∧
    ((∃ l0 l1 rest, (grid.constructed aa_ab_cb 2 2 0).m_layouts = l0 :: l1 :: rest ∧
        find_intersections false l0.get_word l1.get_word = []) ∨
      ∃ n : Nat, (nth_anchor n first_word_positioner.fresh
          (grid.constructed aa_ab_cb 2 2 0).reset_positions).1 = false ∧
        ∀ j : Nat, j < n →
          (nth_anchor j first_word_positioner.fresh
            (grid.constructed aa_ab_cb 2 2 0).reset_positions).1 = true ∧
          (pass (nth_anchor j first_word_positioner.fresh
              (grid.constructed aa_ab_cb 2 2 0).reset_positions).2.2.m_layouts.length 1
            (nth_anchor j first_word_positioner.fresh
              (grid.constructed aa_ab_cb 2 2 0).reset_positions).2.2).organized = false) :=
  ⟨by decide, by rfl,
   call_false_every_anchor_tried (grid.constructed aa_ab_cb 2 2 0) (by decide) (by rfl)⟩

set_option maxRecDepth 1000000 in
/-- C30 at an input: the entries cd, ef, ab on 2 rows and 2 columns, one worker, no
stop: no ordering is organized, and the six jobs carry, in this order, the
reverses of ab cd ef, ab ef cd, cd ab ef, cd ef ab, ef ab cd, ef cd ab. -/
theorem jobs_in_lexicographic_order_witness :
    distinct_words ab_cd_ef ∧
    (assembler.start (dispatcher.synchronous 1 (fun _ => 0) (fun _ => false)) assembler.fresh
      ab_cd_ef 2 2 1 18446744073709551615).2.1.m_shared.m_stop = false ∧
    (assembler.start (dispatcher.synchronous 1 (fun _ => 0) (fun _ => false)) assembler.fresh
      ab_cd_ef 2 2 1 18446744073709551615).2.1.m_shared.m_solved.isNone = true ∧
    (jobs_of (assembler.start (dispatcher.synchronous 1 (fun _ => 0) (fun _ => false))
      assembler.fresh ab_cd_ef 2 2 1 18446744073709551615).2.2).map
        (fun g => (carried g).map (fun e => e.m_word))
      = [["ef", "cd", "ab"], ["cd", "ef", "ab"], ["ef", "ab", "cd"], ["ab", "ef", "cd"],
         ["cd", "ab", "ef"], ["ab", "cd", "ef"]] ∧
    (jobs_of (assembler.start (dispatcher.synchronous 1 (fun _ => 0) (fun _ => false))
      assembler.fresh ab_cd_ef 2 2 1 18446744073709551615).2.2).length = 6 ∧
    ∀ o : permutation, o.Perm ab_cd_ef →
      o ∈ (jobs_of (assembler.start (dispatcher.synchronous 1 (fun _ => 0) (fun _ => false))
        assembler.fresh ab_cd_ef 2 2 1 18446744073709551615).2.2).map carried :=
  ⟨by unfold distinct_words; decide, by rfl, by rfl, by rfl,
   (jobs_in_lexicographic_order (dispatcher.synchronous 1 (fun _ => 0) (fun _ => false))
      assembler.fresh ab_cd_ef 2 2 1 18446744073709551615 (by unfold distinct_words; decide)
      (by decide) (by rfl) (by rfl) (by rfl)).1,
   ((jobs_in_lexicographic_order (dispatcher.synchronous 1 (fun _ => 0) (fun _ => false))
      assembler.fresh ab_cd_ef 2 2 1 18446744073709551615 (by unfold distinct_words; decide)
      (by decide) (by rfl) (by rfl) (by rfl)).2.2 (by decide)).2⟩

/-- C31 at the words of the tests: open against never (test_003), old (test_005)
and abcn (test_006). -/
theorem find_intersections_exact_witness :
    (Char.ofNat 0 ∉ ("open" : word).data ∧ Char.ofNat 0 ∉ ("never" : word).data ∧
      ("open" : word).length ≤ 32767 ∧ ("never" : word).length ≤ 32767) ∧
    find_intersections false "open" "never" = [(1, 2), (3, 2), (0, 3)] ∧
    find_intersections false "open" "old" = [(0, 0)] ∧
    find_intersections false "open" "abcn" = [(3, 3)] :=
  ⟨⟨by decide, by decide, by decide, by decide⟩,
   (find_intersections_exact "open" "never" (by decide) (by decide) (by decide)
      (by decide)).trans (by decide),
   (find_intersections_exact "open" "old" (by decide) (by decide) (by decide)
      (by decide)).trans (by decide),
   (find_intersections_exact "open" "abcn" (by decide) (by decide) (by decide)
      (by decide)).trans (by decide)⟩

set_option maxRecDepth 100000 in
/-- C32 at the input of test_017: mouth and xoxxxxxx on 5 rows and 8 columns.  The
call returns true, with mouth vertical at (0, 1) and xoxxxxxx horizontal at
(1, 0), as the reference has it. -/
theorem call_eq_reference_witness :
    (2 ≤ (grid.constructed [⟨"mouth", "expl 1"⟩, ⟨"xoxxxxxx", "expl 2"⟩] 5 8 0).m_layouts.length ∧
      two_first_words_intersect false
        (grid.constructed [⟨"mouth", "expl 1"⟩, ⟨"xoxxxxxx", "expl 2"⟩] 5 8 0) = true) ∧
    (reference_organizer
      (grid.constructed [⟨"mouth", "expl 1"⟩, ⟨"xoxxxxxx", "expl 2"⟩] 5 8 0)).1 = true ∧
    placements (reference_organizer
      (grid.constructed [⟨"mouth", "expl 1"⟩, ⟨"xoxxxxxx", "expl 2"⟩] 5 8 0)).2
      = [(0, 1, orientation.vert), (1, 0, orientation.hori)] ∧
    (organizer.call ⟨false⟩
      (grid.constructed [⟨"mouth", "expl 1"⟩, ⟨"xoxxxxxx", "expl 2"⟩] 5 8 0)).1 = true ∧
    placements (organizer.call ⟨false⟩
      (grid.constructed [⟨"mouth", "expl 1"⟩, ⟨"xoxxxxxx", "expl 2"⟩] 5 8 0)).2.2
      = [(0, 1, orientation.vert), (1, 0, orientation.hori)] :=
  ⟨⟨by decide, by rfl⟩, by rfl, by rfl,
   (call_eq_reference _ (by decide) (by rfl)).1.trans (by rfl),
   (congrArg placements (call_eq_reference _ (by decide) (by rfl)).2.1).trans (by rfl)⟩

/-- C33 at an input: a failed job, then two solved jobs, handled from the state
of a new assembler: the counter ends at 3 and the grid recorded is the one of
the first solved job (attempt 2), also after the later notification. -/
theorem first_solution_written_once_witness :
    (handle_all ([none, some (grid.constructed open_never 11 11 2)] ++
        [some (grid.constructed open_never 11 11 3)]) ⟨false, [], none, 0⟩).m_num_organizations_finished
      = 0 + 3 ∧
    (handle_all ([none, some (grid.constructed open_never 11 11 2)] ++
        [some (grid.constructed open_never 11 11 3)]) ⟨false, [], none, 0⟩).m_solved
      = some (grid.constructed open_never 11 11 2) :=
  ⟨(first_solution_written_once ⟨false, [], none, 0⟩
      [none, some (grid.constructed open_never 11 11 2)]
      [some (grid.constructed open_never 11 11 3)]).2.1,
   (first_solution_written_once ⟨false, [], none, 0⟩
      [none, some (grid.constructed open_never 11 11 2)]
      [some (grid.constructed open_never 11 11 3)]).2.2.1 _ rfl⟩

set_option maxRecDepth 100000 in
/-- C34 at inputs: the job of mouth, open, never on 11 rows and 11 columns, which
the organizer solves, and the job of the single word open, which it does not. -/
theorem worker_publishes_once_witness :
    ((worker ⟨false⟩ (some (grid.constructed mouth_open_never 11 11 1))).2.countP
        notice.is_finished = 1 ∧
      (worker ⟨false⟩ (some (grid.constructed mouth_open_never 11 11 1))).2.map notice.is_stop
        = [false, true]) ∧
    ((worker ⟨false⟩ (some (grid.constructed [⟨"open", "expl 1"⟩] 11 11 1))).2.countP
        notice.is_finished = 1 ∧
      (worker ⟨false⟩ (some (grid.constructed [⟨"open", "expl 1"⟩] 11 11 1))).2.map
        notice.is_stop = [false]) :=
  ⟨⟨(worker_publishes_once ⟨false⟩ (grid.constructed mouth_open_never 11 11 1)).1, by rfl⟩,
   ⟨(worker_publishes_once ⟨false⟩ (grid.constructed [⟨"open", "expl 1"⟩] 11 11 1)).1, by rfl⟩⟩

set_option maxRecDepth 100000 in
/-- C36 at an input: the organizer that has placed mouth, open, never on 11 rows
and 11 columns returns false on the same words again and on another grid, and
leaves both grids as they were. -/
theorem succeeded_never_resumes_witness :
    (organizer.call ⟨false⟩ (grid.constructed mouth_open_never 11 11 0)).1 = true ∧
    call_each (organizer.call ⟨false⟩ (grid.constructed mouth_open_never 11 11 0)).2.1
      [grid.constructed mouth_open_never 11 11 0, grid.constructed open_never 7 11 0]
      = [(false, grid.constructed mouth_open_never 11 11 0),
         (false, grid.constructed open_never 7 11 0)] :=
  ⟨by rfl,
   (succeeded_never_resumes ⟨false⟩ (grid.constructed mouth_open_never 11 11 0) (by rfl)
      [grid.constructed mouth_open_never 11 11 0, grid.constructed open_never 7 11 0]).2⟩

/-- C37 at an input: on the grid of open and never with 2 rows and 2 columns the
generator returns false within 10 calls, and the loop over the anchors has its
result within 10 rounds. -/
theorem organizer_total_witness :
    organizer.anchor_bound (grid.constructed open_never 2 2 0) = 10 ∧
    (∃ n : Nat, n < organizer.anchor_bound (grid.constructed open_never 2 2 0) ∧
      (nth_anchor n first_word_positioner.fresh (grid.constructed open_never 2 2 0)).1 = false ∧
      ∀ j : Nat, j < n →
        (nth_anchor j first_word_positioner.fresh (grid.constructed open_never 2 2 0)).1 = true) ∧
    (∃ r : Bool × grid, ∀ k : Nat,
      organizer.anchor_bound (grid.constructed open_never 2 2 0) ≤ k →
      organizer.anchors k first_word_positioner.fresh
        (grid.constructed open_never 2 2 0).reset_positions = some r) :=
  ⟨by rfl, (organizer_total (grid.constructed open_never 2 2 0)).1,
   (organizer_total (grid.constructed open_never 2 2 0)).2.1⟩

set_option maxRecDepth 100000 in
/-- C38 at an input: abc and xyz on 11 rows and 11 columns have no intersection
pair; the organizer returns false at the pre-filter, and without the pre-filter
it returns false after all the anchors. -/
theorem prefilter_is_optimisation_witness :
    2 ≤ (grid.constructed [⟨"abc", ""⟩, ⟨"xyz", ""⟩] 11 11 0).m_layouts.length ∧
    two_first_words_intersect false (grid.constructed [⟨"abc", ""⟩, ⟨"xyz", ""⟩] 11 11 0)
      = false ∧
    (organizer.call ⟨false⟩ (grid.constructed [⟨"abc", ""⟩, ⟨"xyz", ""⟩] 11 11 0)).1 = false ∧
    (organizer.call_unfiltered ⟨false⟩
      (grid.constructed [⟨"abc", ""⟩, ⟨"xyz", ""⟩] 11 11 0)).1 = false :=
  ⟨by decide, by rfl, by rfl,
   ((prefilter_is_optimisation ⟨false⟩ (grid.constructed [⟨"abc", ""⟩, ⟨"xyz", ""⟩] 11 11 0)
      (by decide)).1.symm.trans (by rfl))⟩

/-- C39 at entries: ab is below abc, abc below abd, and so ab below abd; two
entries with the word ab and different explanations are incomparable. -/
theorem compare_entries_strict_weak_witness :
    compare_entries ⟨"ab", "x"⟩ ⟨"abd", "z"⟩ = true ∧
    (compare_entries ⟨"ab", "x"⟩ ⟨"ab", "y"⟩ = false ∧
      compare_entries ⟨"ab", "y"⟩ ⟨"ab", "x"⟩ = false) :=
  ⟨compare_entries_strict_weak.2.1 ⟨"ab", "x"⟩ ⟨"abc", "y"⟩ ⟨"abd", "z"⟩ (by decide) (by decide),
   (compare_entries_strict_weak.2.2.1 ⟨"ab", "x"⟩ ⟨"ab", "y"⟩).2 rfl⟩

set_option maxRecDepth 100000 in
/-- C35, at the failing input: on the grid of 2 rows and 3 columns with the word
"ab" placed vertically at (0, 0) the invariant holds, the first word is placed
and the second, a NUL followed by "cd", is not.  `position` returns true and
places the second word horizontally at (2, 0), in a row the grid does not have:
the invariant does not hold afterwards. -/
theorem position_breaks_inv :
    inv ((grid.constructed ab_nul_cd 2 3 0).set 0 0 0 orientation.vert) = true ∧
    placements ((grid.constructed ab_nul_cd 2 3 0).set 0 0 0 orientation.vert)
      = [(0, 0, orientation.vert), (max_row, max_col, orientation.undef)] ∧
    find_intersections false "ab" (String.mk [Char.ofNat 0, 'c', 'd']) = [(0, 2)] ∧
    (position false ((grid.constructed ab_nul_cd 2 3 0).set 0 0 0 orientation.vert) 0 1).1
      = true ∧
    placements
      (position false ((grid.constructed ab_nul_cd 2 3 0).set 0 0 0 orientation.vert) 0 1).2
      = [(0, 0, orientation.vert), (2, 0, orientation.hori)] ∧
    inv (position false ((grid.constructed ab_nul_cd 2 3 0).set 0 0 0 orientation.vert) 0 1).2
      = false := by
  refine ⟨by rfl, by rfl, by rfl, by rfl, by rfl, by rfl⟩

set_option maxRecDepth 100000 in
/-- The invariant at the inputs of test_009: never against the vertical open at
(0, 4) on 7 rows and 11 columns. -/
theorem position_keeps_inv_on_test :
    inv (first_placed open_never 7 11 0 4 orientation.vert) = true ∧
    inv (position false (first_placed open_never 7 11 0 4 orientation.vert) 0 1).2 = true :=
  ⟨by rfl,
   position_keeps_inv false (first_placed open_never 7 11 0 4 orientation.vert) 0 1
     ⟨⟨"open", "expl 1"⟩, 0, 4, orientation.vert⟩ (layout.of_entry ⟨"never", "expl 2"⟩)
     (by rfl) (by rfl) (by rfl) (by rfl) (by decide) (by decide)
     (by
       intro l hl hpos
       have h2 : l = ⟨⟨"open", "expl 1"⟩, 0, 4, orientation.vert⟩ ∨
           l = layout.of_entry ⟨"never", "expl 2"⟩ := by
         have h3 : l ∈ [(⟨⟨"open", "expl 1"⟩, 0, 4, orientation.vert⟩ : layout),
             layout.of_entry ⟨"never", "expl 2"⟩] := hl
         simpa using h3
       rcases h2 with rfl | rfl
       · decide
       · cases hpos)
     (by decide)⟩

set_option maxRecDepth 100000 in
/-- C40, at the input that contradicts it: on the grid of 1 row and 1 column whose
first word is the empty word (n = 1, L = 0) the generator returns true on its
first two calls, horizontally and then vertically at (0, 0), and false on the
third, where the claim has 2 * 1 * (1 - 0 + 1) = 4 calls that return true. -/
theorem anchors_of_empty_word :
    (first_word_positioner.first_word (grid.constructed [⟨"", ""⟩] 1 1 0)).length = 0 ∧
    (nth_anchor 0 first_word_positioner.fresh (grid.constructed [⟨"", ""⟩] 1 1 0)).1 = true ∧
    (nth_anchor 1 first_word_positioner.fresh (grid.constructed [⟨"", ""⟩] 1 1 0)).1 = true ∧
    (nth_anchor 2 first_word_positioner.fresh (grid.constructed [⟨"", ""⟩] 1 1 0)).1 = false ∧
    2 * 1 * (1 - 0 + 1) = 4 := by
  refine ⟨by rfl, by rfl, by rfl, by rfl, by rfl⟩

set_option maxRecDepth 100000 in
/-- C40, as amended, at an input: the word open first on a grid of 5 rows and 5
columns (n = 5, L = 4) has 2 * 5 * 2 = 20 anchors; call number 19 (the last that
returns true) sets it vertically at (1, 4), call number 20 returns false. -/
theorem anchors_on_square_witness :
    ((grid.constructed open_never 5 5 0).m_num_rows = 5 ∧
      (grid.constructed open_never 5 5 0).m_num_cols = 5 ∧
      (first_word_positioner.first_word (grid.constructed open_never 5 5 0)).length = 4) ∧
    (square_anchors 5 4).length = 20 ∧
    (nth_anchor 19 first_word_positioner.fresh (grid.constructed open_never 5 5 0)).2.2
      = (grid.constructed open_never 5 5 0).set 0 1 4 orientation.vert ∧
    (nth_anchor 20 first_word_positioner.fresh (grid.constructed open_never 5 5 0)).1 = false :=
  ⟨⟨rfl, rfl, by rfl⟩,
   (anchors_on_square (grid.constructed open_never 5 5 0) 5 4 rfl rfl (by rfl) (by decide)
      (by decide) (by decide)).2.2.1,
   ((anchors_on_square (grid.constructed open_never 5 5 0) 5 4 rfl rfl (by rfl) (by decide)
      (by decide) (by decide)).2.2.2.1 19 (1, 4, orientation.vert) (by rfl)).2,
   (anchors_on_square (grid.constructed open_never 5 5 0) 5 4 rfl rfl (by rfl) (by decide)
      (by decide) (by decide)).2.2.2.2.1 20 (by decide)⟩

end crosswords
